import Mathlib

/-!
# sshell: the command-line parsing engine

A shallow embedding of the parsing half of `sshell_utils.c`
(`isFileRedirect`, `isPipe`, `isRedirect`, `parseAppends`, `countArgs`,
`getSubstring`, `parseArgs`, `checkValidArgs`, `countParameters`,
`argsToParameterList`, `getParametersAndRedirects`; `parseArgs` also on the
array it allocates), of the part of the loop of `main` that turns a parsed
line into a builtin or a pipeline, and of `executePipeline` and
`stdoutRedirect` over an explicit descriptor table, together with theorems
about them.

Conventions of the embedding:

* a C string is the `List Char` of its bytes before the terminating NUL;
* a `char **` array terminated by `NULL` is the list of its entries before
  the `NULL`;
* a read through a `NULL` or out-of-range entry of such an array is a
  failure of the program and is the value `none`;
* every `for` loop is a structurally recursive function whose arguments are
  the loop variables;
* the descriptor table of a process is a function from descriptor numbers to
  what they are open on, and the answers of the kernel (`open`, `pipe`,
  `fork`, `waitpid`) are inputs, collected in a `Kernel`.
-/

namespace Sshell

/-! ## Constants and enumerations of `sshell_utils.h` -/

/-- The ceiling on the number of tokens: `#define MAX_ARGUMENTS 16`. -/
abbrev MAX_ARGUMENTS : Int := 16

/-- The size of the command buffer: `#define CMDLINE_MAX 512`. -/
abbrev CMDLINE_MAX : Nat := 512

/-- The marker that stands for an append redirect: `#define APPEND '\n'`. -/
abbrev APPEND : Char := '\n'

/-- The overwrite redirect character: `#define OVERWRITE '>'`. -/
abbrev OVERWRITE : Char := '>'

/-- The pipe character: `#define PIPE '|'`. -/
abbrev PIPE : Char := '|'

/-- The double-quote character, written `'\"'` in the source. -/
abbrev DQUOTE : Char := Char.ofNat 34

/-- The enumeration `enum ParseErrors`. -/
inductive ParseErrors where
  | NO_ERRORS
  | MISSING_COMMAND
  | NO_OUTPUT_FILE
  | MISPLACED_REDIRECT
  | TOO_MANY_ARGUMENTS
  deriving DecidableEq, Repr

/-- The enumeration `enum OutputOptions`. -/
inductive OutputOptions where
  | WRITE_TO_STDOUT
  | WRITE_TO_FILE
  | APPEND_TO_FILE
  deriving DecidableEq, Repr

/-- One entry of the argument array: a C string. -/
abbrev Token := List Char

/-- The record `struct Parameter`: `parameterName` is `arguments[0]`, which is
the `NULL` terminator (here `none`) when the argument list is empty. -/
structure Parameter where
  parameterName : Option Token
  arguments : List Token
  deriving DecidableEq, Repr

/-! ## Token classification -/

/-- The function `isFileRedirect`: `string[1] == 0 && (string[0] == OVERWRITE ||
string[0] == APPEND)`. For the empty string `string[0]` is NUL, so the second
conjunct is false whatever `string[1]` holds. -/
def isFileRedirect (string : Token) : Bool :=
  match string with
  | [c] => decide (c = OVERWRITE) || decide (c = APPEND)
  | _ => false

/-- The function `isPipe`: `string[1] == 0 && string[0] == PIPE`. -/
def isPipe (string : Token) : Bool :=
  match string with
  | [c] => decide (c = PIPE)
  | _ => false

/-- The function `isRedirect`: `string[1] == 0 && (string[0] == OVERWRITE ||
string[0] == APPEND || string[0] == PIPE)`. -/
def isRedirect (string : Token) : Bool :=
  match string with
  | [c] => decide (c = OVERWRITE) || decide (c = APPEND) || decide (c = PIPE)
  | _ => false

/-! ## `parseAppends` -/

/-- The loop of `parseAppends`. The first argument counts the iterations that
remain (`strlen(cmd) - right`); `cmd` is the buffer, which the loop rewrites
in place, `right`, `left` and `onAppendChar` are the locals of the source.
The result is the return code and the buffer at return. -/
def parseAppendsLoop : Nat → List Char → Nat → Nat → Bool → ParseErrors × List Char
  | 0, cmd, _, _, _ => (.NO_ERRORS, cmd)
  | fuel + 1, cmd, right, left, onAppendChar =>
    match cmd[right]? with
    | none => (.NO_ERRORS, cmd)
    | some c =>
      if c = OVERWRITE then
        if !onAppendChar then parseAppendsLoop fuel cmd (right + 1) right true
        else parseAppendsLoop fuel cmd (right + 1) left onAppendChar
      else if onAppendChar then
        if right - left > 2 then (.MISPLACED_REDIRECT, cmd)
        else if right - left = 2 then
          parseAppendsLoop fuel ((cmd.set left APPEND).set (left + 1) ' ') (right + 1) left false
        else parseAppendsLoop fuel cmd (right + 1) left false
      else parseAppendsLoop fuel cmd (right + 1) left onAppendChar

/-- The function `parseAppends`: the return code and the rewritten buffer. -/
def parseAppends (cmd : List Char) : ParseErrors × List Char :=
  parseAppendsLoop cmd.length cmd 0 0 false

/-! ## `countArgs` -/

/-- The loop of `countArgs` over the characters not yet read, followed by the
code after the loop: the final increment and the `-1` sentinel. -/
def countArgsLoop : List Char → Bool → Bool → Int → Int
  | [], inQuotation, curArg, numArgs =>
    let numArgs := if curArg then numArgs + 1 else numArgs
    if inQuotation then -1 else numArgs
  | cur :: rest, inQuotation, curArg, numArgs =>
    if cur = DQUOTE then countArgsLoop rest (!inQuotation) curArg numArgs
    else if cur = ' ' ∨ cur = '\t' then
      if inQuotation then countArgsLoop rest inQuotation curArg numArgs
      else if curArg then countArgsLoop rest inQuotation false (numArgs + 1)
      else countArgsLoop rest inQuotation curArg numArgs
    else if cur = PIPE ∨ cur = OVERWRITE ∨ cur = APPEND then
      countArgsLoop rest inQuotation false ((if curArg then numArgs + 1 else numArgs) + 1)
    else countArgsLoop rest inQuotation true numArgs

/-- The function `countArgs`. -/
def countArgs (cmd : List Char) : Int :=
  countArgsLoop cmd false false 0

/-! ## `getSubstring` and `parseArgs` -/

/-- The function `getSubstring`: the bytes `cmd[leftInc .. rightEx)`, as
`strncpy` copies them (it stops at the end of `cmd`). -/
def getSubstring (cmd : List Char) (leftInc rightEx : Nat) : Token :=
  (cmd.drop leftInc).take (rightEx - leftInc)

/-- The `while` loop of `parseArgs` that finds the first parameter; the list is
`cmd` from index `left` on. -/
def skipLeadingBlanks : List Char → Nat → Nat
  | [], left => left
  | c :: rest, left =>
    if left < CMDLINE_MAX ∧ (c = ' ' ∨ c = '\t') then skipLeadingBlanks rest (left + 1)
    else left

/-- The `for` loop of `parseArgs` followed by the code after it. The second
argument is `cmd` from index `right` on; `res` is the list of the entries
`res[0 .. cmdIndex)` stored so far. -/
def parseArgsLoop (cmd : List Char) : List Char → Nat → Nat → Bool → Bool → List Token → List Token
  | [], right, left, _, curArg, res =>
    if curArg then res ++ [getSubstring cmd left right] else res
  | cur :: rest, right, left, inQuotation, curArg, res =>
    if cur = DQUOTE then parseArgsLoop cmd rest (right + 1) left (!inQuotation) curArg res
    else if cur = ' ' ∨ cur = '\t' then
      if inQuotation then parseArgsLoop cmd rest (right + 1) left inQuotation curArg res
      else if curArg then
        parseArgsLoop cmd rest (right + 1) left inQuotation false (res ++ [getSubstring cmd left right])
      else parseArgsLoop cmd rest (right + 1) left inQuotation curArg res
    else if cur = PIPE ∨ cur = OVERWRITE ∨ cur = APPEND then
      let res := if curArg then res ++ [getSubstring cmd left right] else res
      parseArgsLoop cmd rest (right + 1) left inQuotation false
        (res ++ [getSubstring cmd right (right + 1)])
    else if curArg then parseArgsLoop cmd rest (right + 1) left inQuotation curArg res
    else parseArgsLoop cmd rest (right + 1) right inQuotation true res

/-- The function `parseArgs`: the entries stored in `res`, in index order.
The parameter `numArgs` only sizes the allocation and places the `NULL`
terminator. -/
def parseArgs (cmd : List Char) (_numArgs : Int) : List Token :=
  let left := skipLeadingBlanks cmd 0
  parseArgsLoop cmd (cmd.drop left) left left false false []

/-! ## `checkValidArgs` -/

/-- The read `argArray[i]`: `none` for the `NULL` terminator and for an index
outside the array. -/
def readArg (argArray : List Token) (i : Int) : Option Token :=
  if i < 0 then none else argArray[i.toNat]?

/-- The scan loop of `checkValidArgs`, `for (i = 1; i < numArgs; i++)`: the first
argument counts the iterations that remain (`numArgs - i`). -/
def checkValidArgsLoop (argArray : List Token) : Nat → Nat → Bool → Bool → Option ParseErrors
  | 0, _, _, _ => some .NO_ERRORS
  | k + 1, i, foundOutputRedirect, prevIsRedirect =>
    match argArray[i]? with
    | none => none
    | some curArg =>
      let curIsRedirect := isRedirect curArg
      if prevIsRedirect && curIsRedirect then some .MISSING_COMMAND
      else if isRedirect curArg && foundOutputRedirect then some .MISPLACED_REDIRECT
      else if isFileRedirect curArg then checkValidArgsLoop argArray k (i + 1) true curIsRedirect
      else checkValidArgsLoop argArray k (i + 1) foundOutputRedirect curIsRedirect

/-- The function `checkValidArgs`. -/
def checkValidArgs (argArray : List Token) (numArgs : Int) : Option ParseErrors :=
  if numArgs > MAX_ARGUMENTS then some .TOO_MANY_ARGUMENTS
  else
    match readArg argArray 0 with
    | none => none
    | some first =>
      if isRedirect first then some .MISSING_COMMAND
      else
        match readArg argArray (numArgs - 1) with
        | none => none
        | some last =>
          if isFileRedirect last then some .NO_OUTPUT_FILE
          else if isPipe last then some .MISSING_COMMAND
          else checkValidArgsLoop argArray (numArgs - 1).toNat 1 false false

/-! ## `countParameters` and `argsToParameterList` -/

/-- The function `countParameters`: the number of redirect and pipe tokens,
plus one. -/
def countParameters (args : List Token) : Int :=
  ((args.filter isRedirect).length : Int) + 1

/-- The block of `argsToParameterList` that builds one `Parameter` from the
range `args[left .. right)`. -/
def mkParameter (args : List Token) (left right : Nat) : Parameter :=
  let curArgs := (args.drop left).take (right - left)
  { parameterName := curArgs.head?, arguments := curArgs }

/-- The loop of `argsToParameterList` followed by the code after it. The second
argument is `args` from index `right` on; `paramArray` and `redirections` are
the entries `[0 .. parameterIndex)` written so far. -/
def argsToParameterListLoop (args : List Token) :
    List Token → Nat → Nat → List Parameter → List Char → List Parameter × List Char
  | [], right, left, paramArray, redirections =>
    (paramArray ++ [mkParameter args left right], redirections)
  | cur :: rest, right, left, paramArray, redirections =>
    if isRedirect cur then
      argsToParameterListLoop args rest (right + 1) (right + 1)
        (paramArray ++ [mkParameter args left right]) (redirections ++ cur.take 1)
    else argsToParameterListLoop args rest (right + 1) left paramArray redirections

/-- The function `argsToParameterList`: the array of `Parameter`s and the string
of redirect characters. The parameter `numParameters` only sizes the two
allocations. -/
def argsToParameterList (args : List Token) (_numParameters : Int) :
    List Parameter × List Char :=
  argsToParameterListLoop args args 0 0 [] []

/-! ## `getParametersAndRedirects` -/

/-- The out-parameters of `getParametersAndRedirects`, written only on the
`NO_ERRORS` path. -/
structure ParseOutput where
  parameters : List Parameter
  redirects : List Char
  argArray : List Token
  parameterCount : Int
  deriving DecidableEq, Repr

/-- The function `getParametersAndRedirects`: the return code and, on the
`NO_ERRORS` path, the out-parameters. The outer `Option` is `none` when
`checkValidArgs` reads through a `NULL` entry. -/
def getParametersAndRedirects (cmd : List Char) : Option (ParseErrors × Option ParseOutput) :=
  match parseAppends cmd with
  | (parseRetval, cmd) =>
    if parseRetval ≠ .NO_ERRORS then some (parseRetval, none)
    else
      let numArgs := countArgs cmd
      if numArgs = -1 then some (.MISSING_COMMAND, none)
      else
        let args := parseArgs cmd numArgs
        match checkValidArgs args numArgs with
        | none => none
        | some checkRetval =>
          if checkRetval ≠ .NO_ERRORS then some (checkRetval, none)
          else
            let numParameters := countParameters args
            let (parameters, redirects) := argsToParameterList args numParameters
            some (.NO_ERRORS, some
              { parameters := parameters, redirects := redirects, argArray := args,
                parameterCount := numParameters })

/-- The return code of `getParametersAndRedirects` alone. -/
def parseRetval (cmd : List Char) : Option ParseErrors :=
  (getParametersAndRedirects cmd).map Prod.fst

/-- The tokenizer: `parseAppends` followed by `countArgs` and `parseArgs`, as
`getParametersAndRedirects` chains them; `none` when `parseAppends` reports an
error or `countArgs` returns the sentinel `-1`. -/
def tokenize (cmd : List Char) : Option (List Token) :=
  match parseAppends cmd with
  | (parseRetval, cmd) =>
    if parseRetval ≠ .NO_ERRORS then none
    else
      let numArgs := countArgs cmd
      if numArgs = -1 then none else some (parseArgs cmd numArgs)

/-! ## Auxiliary definitions used by the statements and proofs -/

/-- The scan loop of `checkValidArgs` as a function of the tokens not yet read:
`checkValidArgsLoop` on an array whose entries from index `i` on are the
given list (see `checkValidArgsLoop_append`). -/
def scanArgs : List Token → Bool → Bool → ParseErrors
  | [], _, _ => .NO_ERRORS
  | curArg :: rest, foundOutputRedirect, prevIsRedirect =>
    if prevIsRedirect && isRedirect curArg then .MISSING_COMMAND
    else if isRedirect curArg && foundOutputRedirect then .MISPLACED_REDIRECT
    else scanArgs rest (foundOutputRedirect || isFileRedirect curArg) (isRedirect curArg)

/-- Statement predicate: token `i` is directly preceded by an operator token. -/
def precededByOperator (toks : List Token) (i : Nat) : Bool :=
  match i with
  | 0 => false
  | j + 1 =>
    match toks[j]? with
    | some p => isRedirect p
    | none => false

/-- Statement predicate: some token before index `i` is a file-redirect operator. -/
def afterFileRedirect (toks : List Token) (i : Nat) : Bool :=
  (toks.take i).any isFileRedirect

/-- Statement predicate: token `i` is an offending token, an operator that is directly preceded by an
operator or that occurs after a file-redirect operator. -/
def offendingAt (toks : List Token) (i : Nat) : Bool :=
  match toks[i]? with
  | some t => isRedirect t && (precededByOperator toks i || afterFileRedirect toks i)
  | none => false

/-- Statement predicate: a character that is none of space, tab, double quote, `|`,
`>` and newline,
the characters that reach the last branch of the scans of `countArgs` and
`parseArgs` and never match in `parseAppends`. -/
def PlainChar (c : Char) : Prop :=
  c ≠ ' ' ∧ c ≠ '\t' ∧ c ≠ DQUOTE ∧ c ≠ PIPE ∧ c ≠ OVERWRITE ∧ c ≠ APPEND

instance : DecidablePred PlainChar := fun c => by
  unfold PlainChar; infer_instance

/-- The return code of the loop of `parseAppends` as a function of the characters
not yet read and of the length `r` of the run of `>` that ends at the read
position (`0` when `onAppendChar` is clear); see `parseAppendsLoop_code`. -/
def runCode : List Char → Nat → ParseErrors
  | [], _ => .NO_ERRORS
  | c :: s, r =>
    if c = OVERWRITE then runCode s (r + 1)
    else if r > 2 then .MISPLACED_REDIRECT
    else runCode s 0

/-! ## `main`: the dispatch of a line and the output plan -/

/-- The plan that `main` computes between parsing and forking (lines 111-130). -/
structure ExecPlan where
  outputMode : OutputOptions
  outputFile : Option Token
  parameterCount : Int
  deriving DecidableEq, Repr

/-- The read `redirects[i]` of the string of redirect characters: the terminating NUL
at and past its end. -/
def readRedirect (redirects : List Char) (i : Int) : Char :=
  if i < 0 then Char.ofNat 0 else redirects.getD i.toNat (Char.ofNat 0)

/-- Lines 111-130 of `main`: the output mode from `redirects[parameterCount-2]`, and for
a file redirect the output file and the decremented `parameterCount`. The
read `parameters[parameterCount-1]->parameterName` is `none` for a `NULL`
name. -/
def planOutput (parameters : List Parameter) (redirects : List Char) (parameterCount : Int) :
    ExecPlan :=
  let outputMode :=
    if parameterCount > 1 then
      if readRedirect redirects (parameterCount - 2) = APPEND then OutputOptions.APPEND_TO_FILE
      else if readRedirect redirects (parameterCount - 2) = OVERWRITE then
        OutputOptions.WRITE_TO_FILE
      else OutputOptions.WRITE_TO_STDOUT
    else OutputOptions.WRITE_TO_STDOUT
  if outputMode ≠ .WRITE_TO_STDOUT then
    { outputMode := outputMode,
      outputFile := (parameters[(parameterCount - 1).toNat]?).bind (fun p => p.parameterName),
      parameterCount := parameterCount - 1 }
  else { outputMode := outputMode, outputFile := none, parameterCount := parameterCount }

/-- The function `isEmptyCommand`: `0` at the first character that is neither a space
nor a tab, `1` when the end of the string is reached. -/
def isEmptyCommand : List Char → Int
  | [] => 1
  | c :: rest => if c ≠ ' ' ∧ c ≠ '\t' then 0 else isEmptyCommand rest

/-- What one iteration of the loop of `main` does with the line it has read, up to the
point where it would run a builtin or fork (lines 29-130). -/
inductive Dispatch where
  /-- The `continue` taken when `isEmptyCommand` is non-zero. -/
  | skip
  /-- A read through a `NULL` pointer. -/
  | crash
  /-- A non-zero parse code: the matching message is printed. -/
  | parseError (code : ParseErrors)
  | exitBuiltin
  | cdBuiltin (parameter : Parameter)
  | slsBuiltin
  | pwdBuiltin
  /-- The fork of lines 132-148, with the array of Parameters and the plan. -/
  | pipeline (parameters : List Parameter) (plan : ExecPlan)
  deriving DecidableEq, Repr

/-- Lines 29-130 of `main`. The parser works on the copy `parsedCmd` of the line. -/
def mainDispatch (cmd : List Char) : Dispatch :=
  if isEmptyCommand cmd ≠ 0 then .skip
  else
    match getParametersAndRedirects cmd with
    | none => .crash
    | some (parseRetval, out) =>
      if parseRetval ≠ .NO_ERRORS then .parseError parseRetval
      else
        match out with
        | none => .crash
        | some out =>
          match out.parameters.head?.bind (fun p => p.parameterName) with
          | none => .crash
          | some name =>
            if name = "exit".toList then .exitBuiltin
            else if name = "cd".toList then
              match out.parameters.head? with
              | some p => .cdBuiltin p
              | none => .crash
            else if name = "sls".toList then .slsBuiltin
            else if name = "pwd".toList then .pwdBuiltin
            else .pipeline out.parameters
              (planOutput out.parameters out.redirects out.parameterCount)

/-- The plan of `main` for the out-parameters of a parse. -/
def planOf (out : ParseOutput) : ExecPlan :=
  planOutput out.parameters out.redirects out.parameterCount

/-! ## Processes and descriptors -/

/-- What an open descriptor refers to: something the process already had open, the file
opened by `stdoutRedirect`, or an end of the pipe created by the `i`-th call
of `pipe` in `executePipeline`. -/
inductive FdObject where
  | inherited (id : Nat)
  | file (path : Option Token) (mode : OutputOptions)
  | pipeRead (i : Nat)
  | pipeWrite (i : Nat)
  deriving DecidableEq, Repr

/-- The descriptor table of a process: what each descriptor number refers to, `none`
for a closed descriptor. -/
abbrev FdTable := Nat → Option FdObject

/-- The system call `close(fd)`; closing a closed descriptor changes nothing. -/
def sysClose (t : FdTable) (fd : Nat) : FdTable :=
  Function.update t fd none

/-- The system call `dup2(oldfd, newfd)`; it fails and changes nothing when `oldfd` is
closed. -/
def sysDup2 (t : FdTable) (oldfd newfd : Nat) : FdTable :=
  match t oldfd with
  | none => t
  | some o => Function.update t newfd (some o)

/-- The effect of the `i`-th successful call `pipe(pipefds[i])` that stores the
descriptors `fds`. -/
def sysPipe (t : FdTable) (i : Nat) (fds : Nat × Nat) : FdTable :=
  Function.update (Function.update t fds.1 (some (.pipeRead i))) fds.2 (some (.pipeWrite i))

/-- The answers of the kernel during one iteration of the loop of `main`: they are
inputs of the model. A stage is identified by its index, which stands for
its process id. -/
structure Kernel where
  /-- Whether `chdir` succeeds. -/
  chdirOk : Bool
  /-- Whether `opendir` succeeds. -/
  opendirOk : Bool
  /-- Whether the `fork` of `main` creates a child. -/
  forkOk : Bool
  /-- The descriptor that `open` returns in `stdoutRedirect`, `none` for `-1`. -/
  openFd : Option Nat
  /-- The descriptors stored by the `i`-th call of `pipe`, `none` for `-1`. -/
  pipeFds : Nat → Option (Nat × Nat)
  /-- Whether the `fork` of stage `i` creates a child. -/
  stageForkOk : Nat → Bool
  /-- The terminations of the stages, in the order in which they happen: the stage
  and the status that `waitpid` stores for it. -/
  exits : List (Nat × Nat)

/-- A stage process at the point where it calls `execvp`. -/
structure StageProc where
  stage : Nat
  table : FdTable
  command : Option Parameter

/-- How far a call of `executePipeline` gets. -/
inductive PipelineOutcome where
  /-- A call of `pipe` failed: `perror("pipe"); exit(1)`. -/
  | pipeFailed
  /-- A call of `fork` failed: `perror("fork"); exit(1)`. -/
  | forkFailed
  /-- A `waitpid` never returns: the stage never terminates. -/
  | blocked
  /-- The report was written and the function returned. -/
  | completed
  deriving DecidableEq, Repr

/-- What a call of `executePipeline` does. -/
structure PipelineTrace where
  outcome : PipelineOutcome
  /-- The pipes created, in order. -/
  pipefds : List (Nat × Nat)
  /-- The stages spawned, in order. -/
  procs : List StageProc
  /-- The descriptor table of the calling process at the point reached. -/
  parentTable : FdTable
  /-- The statuses collected by `waitpid`, in stage order. -/
  retvals : List Nat
  /-- The text written to standard error with `fprintf`. -/
  report : List Char

/-- The loop of `executePipeline` that creates the pipes: `remaining` iterations from
index `i`. The result tells whether every call succeeded. -/
def createPipes (k : Kernel) : Nat → Nat → FdTable → List (Nat × Nat) →
    Bool × FdTable × List (Nat × Nat)
  | 0, _, t, pipefds => (true, t, pipefds)
  | remaining + 1, i, t, pipefds =>
    match k.pipeFds i with
    | none => (false, t, pipefds)
    | some fds => createPipes k remaining (i + 1) (sysPipe t i fds) (pipefds ++ [fds])

/-- The read `pipefds[j][0]`. -/
def readEnd (pipefds : List (Nat × Nat)) (j : Nat) : Nat := (pipefds.getD j (0, 0)).1

/-- The read `pipefds[j][1]`. -/
def writeEnd (pipefds : List (Nat × Nat)) (j : Nat) : Nat := (pipefds.getD j (0, 0)).2

/-- The loop of the child that closes the pipes not being used:
`for (j = 0; j < numCommands - 1; j++) if (j != i) ...`. -/
def closeOthers (pipefds : List (Nat × Nat)) (i : Nat) : Nat → Nat → FdTable → FdTable
  | 0, _, t => t
  | remaining + 1, j, t =>
    if j ≠ i then
      closeOthers pipefds i remaining (j + 1)
        (sysClose (sysClose t (readEnd pipefds j)) (writeEnd pipefds j))
    else closeOthers pipefds i remaining (j + 1) t

/-- The code of the child of stage `i` between `fork` and `execvp`, on the descriptor
table it inherits. -/
def childSetup (pipefds : List (Nat × Nat)) (numCommands i : Nat) (t : FdTable) : FdTable :=
  let t :=
    if i < numCommands - 1 then
      sysClose (sysDup2 (sysClose t (readEnd pipefds i)) (writeEnd pipefds i) 1)
        (writeEnd pipefds i)
    else t
  let t :=
    if i > 0 then
      sysClose (sysDup2 (sysClose t (writeEnd pipefds (i - 1))) (readEnd pipefds (i - 1)) 0)
        (readEnd pipefds (i - 1))
    else t
  closeOthers pipefds i (numCommands - 1) 0 t

/-- The loop of `executePipeline` that forks the stages: `remaining` iterations from
index `i`; `t` is the table of the parent, which every child inherits. The
result tells whether every `fork` succeeded. -/
def spawnStages (k : Kernel) (commands : List Parameter) (pipefds : List (Nat × Nat))
    (numCommands : Nat) (t : FdTable) : Nat → Nat → List StageProc → Bool × List StageProc
  | 0, _, procs => (true, procs)
  | remaining + 1, i, procs =>
    if k.stageForkOk i = true then
      spawnStages k commands pipefds numCommands t remaining (i + 1)
        (procs ++ [{ stage := i, table := childSetup pipefds numCommands i t,
                     command := commands[i]? }])
    else (false, procs)

/-- The loop of the parent that closes all pipes. -/
def closeAll (pipefds : List (Nat × Nat)) : Nat → Nat → FdTable → FdTable
  | 0, _, t => t
  | remaining + 1, j, t =>
    closeAll pipefds remaining (j + 1)
      (sysClose (sysClose t (readEnd pipefds j)) (writeEnd pipefds j))

/-- The call `waitpid(childPIDs[i], &retvals[i], 0)`: the status of the termination of
stage `i`, `none` when the stage never terminates. -/
def waitpid (k : Kernel) (i : Nat) : Option Nat :=
  (k.exits.find? (fun e => e.1 = i)).map (fun e => e.2)

/-- The loop of `executePipeline` that waits for the children, in stage order. -/
def waitAll (k : Kernel) : Nat → Nat → List Nat → Option (List Nat)
  | 0, _, retvals => some retvals
  | remaining + 1, i, retvals =>
    match waitpid k i with
    | none => none
    | some status => waitAll k remaining (i + 1) (retvals ++ [status])

/-- The macro `WEXITSTATUS`. -/
def WEXITSTATUS (status : Nat) : Nat := (status / 256) % 256

/-- The three `fprintf` calls that end `executePipeline`. -/
def completionReport (cmd : List Char) (retvals : List Nat) : List Char :=
  "+ completed '".toList ++ cmd ++ "' ".toList
    ++ (retvals.map (fun status => "[".toList ++ (Nat.repr (WEXITSTATUS status)).toList
          ++ "]".toList)).flatten
    ++ "\n".toList

/-- The function `executePipeline`, called by a process whose descriptor table is `t`. -/
def executePipeline (k : Kernel) (t : FdTable) (commands : List Parameter)
    (numCommands : Nat) (cmd : List Char) : PipelineTrace :=
  match createPipes k (numCommands - 1) 0 t [] with
  | (false, t, pipefds) =>
    { outcome := .pipeFailed, pipefds := pipefds, procs := [], parentTable := t,
      retvals := [], report := [] }
  | (true, t, pipefds) =>
    match spawnStages k commands pipefds numCommands t numCommands 0 [] with
    | (false, procs) =>
      { outcome := .forkFailed, pipefds := pipefds, procs := procs, parentTable := t,
        retvals := [], report := [] }
    | (true, procs) =>
      let t := closeAll pipefds (numCommands - 1) 0 t
      match waitAll k numCommands 0 [] with
      | none =>
        { outcome := .blocked, pipefds := pipefds, procs := procs, parentTable := t,
          retvals := [], report := [] }
      | some retvals =>
        { outcome := .completed, pipefds := pipefds, procs := procs, parentTable := t,
          retvals := retvals, report := completionReport cmd retvals }

/-- The function `stdoutRedirect`: the return value and the descriptor table. -/
def stdoutRedirect (k : Kernel) (t : FdTable) (outputMode : OutputOptions)
    (outputFile : Option Token) : Int × FdTable :=
  if outputMode ≠ .WRITE_TO_STDOUT then
    match k.openFd with
    | none => (1, t)
    | some fd =>
      let t := Function.update t fd (some (.file outputFile outputMode))
      (0, sysClose (sysDup2 t fd 1) fd)
  else (0, t)

/-- What the child forked by `main` does (lines 138-148). -/
structure ChildTrace where
  /-- The text the child writes to standard error with `fprintf`. -/
  stderr : List Char
  /-- The argument of the `exit` the child reaches, `none` when it never exits. -/
  exitStatus : Option Nat
  /-- The run of `executePipeline`, when it is called. -/
  pipeline : Option PipelineTrace

/-- Lines 138-148 of `main`: the child tries the redirect, then runs the pipeline. -/
def pipelineChild (k : Kernel) (t : FdTable) (parameters : List Parameter) (plan : ExecPlan)
    (cmd : List Char) : ChildTrace :=
  match stdoutRedirect k t plan.outputMode plan.outputFile with
  | (retval, t) =>
    if retval ≠ 0 then
      { stderr := "Error: cannot open output file\n".toList, exitStatus := some 1,
        pipeline := none }
    else
      let trace := executePipeline k t parameters plan.parameterCount.toNat cmd
      { stderr := trace.report,
        exitStatus :=
          match trace.outcome with
          | .completed => some 0
          | .blocked => none
          | _ => some 1,
        pipeline := some trace }

/-- The message that `main` prints for a parse code. -/
def parseErrorMessage : ParseErrors → List Char
  | .NO_ERRORS => []
  | .MISSING_COMMAND => "Error: missing command\n".toList
  | .NO_OUTPUT_FILE => "Error: no output file\n".toList
  | .MISPLACED_REDIRECT => "Error: mislocated output redirection\n".toList
  | .TOO_MANY_ARGUMENTS => "Error: too many process arguments\n".toList

/-- The line `+ completed '<cmd>' [<retval>]` that `main` prints after a builtin. -/
def builtinReport (cmd : List Char) (retval : Nat) : List Char :=
  "+ completed '".toList ++ cmd ++ "' [".toList ++ (Nat.repr retval).toList ++ "]\n".toList

/-- What one iteration of the loop of `main` does. -/
structure IterationTrace where
  dispatch : Dispatch
  /-- The text the shell process writes to standard error with `fprintf`. -/
  stderr : List Char
  /-- The child forked at line 134, when there is one. -/
  child : Option ChildTrace

/-- One iteration of the loop of `main` on the line `cmd` (newline removed), for a shell
process whose descriptor table is `t`. -/
def mainIteration (k : Kernel) (t : FdTable) (cmd : List Char) : IterationTrace :=
  match mainDispatch cmd with
  | .skip => { dispatch := .skip, stderr := [], child := none }
  | .crash => { dispatch := .crash, stderr := [], child := none }
  | .parseError code =>
    { dispatch := .parseError code, stderr := parseErrorMessage code, child := none }
  | .exitBuiltin =>
    { dispatch := .exitBuiltin,
      stderr := "Bye...\n".toList ++ builtinReport cmd 0, child := none }
  | .cdBuiltin p =>
    if p.arguments[1]? = none ∨ k.chdirOk = false then
      { dispatch := .cdBuiltin p,
        stderr := "Error: cannot cd into directory\n".toList ++ builtinReport cmd 1,
        child := none }
    else { dispatch := .cdBuiltin p, stderr := builtinReport cmd 0, child := none }
  | .slsBuiltin =>
    if k.opendirOk = false then
      { dispatch := .slsBuiltin,
        stderr := "Error: cannot open directory\n".toList ++ builtinReport cmd 1,
        child := none }
    else { dispatch := .slsBuiltin, stderr := builtinReport cmd 0, child := none }
  | .pwdBuiltin => { dispatch := .pwdBuiltin, stderr := builtinReport cmd 0, child := none }
  | .pipeline parameters plan =>
    { dispatch := .pipeline parameters plan, stderr := [],
      child := if k.forkOk = true then some (pipelineChild k t parameters plan cmd) else none }

/-- A descriptor table with the three standard streams open. -/
def stdTable : FdTable := fun fd => if fd < 3 then some (.inherited fd) else none

/-- A kernel in which every call succeeds: `open` returns 3, the `i`-th pipe gets the
descriptors `3 + 2 i` and `4 + 2 i`, and stage `i` terminates with exit code
`codes[i]`, the stages terminating in the order `order`. -/
def kernelOk (codes : List Nat) (order : List Nat) : Kernel :=
  { chdirOk := true, opendirOk := true, forkOk := true, openFd := some 3,
    pipeFds := fun i => some (3 + 2 * i, 4 + 2 * i),
    stageForkOk := fun _ => true,
    exits := order.map (fun i => (i, 256 * codes.getD i 0)) }

/-- Whether a descriptor is open on an end of a pipe of `executePipeline`. -/
def isPipeEnd : Option FdObject → Bool
  | some (.pipeRead _) => true
  | some (.pipeWrite _) => true
  | _ => false

/-! ## The array that `parseArgs` fills -/

/-- An entry of the array `res` that `parseArgs` allocates: as `malloc` leaves it, the
`NULL` terminator, or a pointer to a stored token. -/
inductive ArgSlot where
  | unwritten
  | null
  | str (t : Token)
  deriving DecidableEq, Repr

/-- The store `res[i] = v`; `none` when the index is outside the allocation. -/
def storeSlot (res : List ArgSlot) (i : Nat) (v : ArgSlot) : Option (List ArgSlot) :=
  if i < res.length then some (res.set i v) else none

/-- The `for` loop of `parseArgs` followed by the code after it, on the array `res` with
the index `cmdIndex` of the source; `none` when a store falls outside the
allocation. -/
def parseArgsArrayLoop (cmd : List Char) :
    List Char → Nat → Nat → Nat → Bool → Bool → List ArgSlot → Option (List ArgSlot)
  | [], right, left, cmdIndex, _, curArg, res =>
    if curArg then storeSlot res cmdIndex (.str (getSubstring cmd left right)) else some res
  | cur :: rest, right, left, cmdIndex, inQuotation, curArg, res =>
    if cur = DQUOTE then
      parseArgsArrayLoop cmd rest (right + 1) left cmdIndex (!inQuotation) curArg res
    else if cur = ' ' ∨ cur = '\t' then
      if inQuotation then
        parseArgsArrayLoop cmd rest (right + 1) left cmdIndex inQuotation curArg res
      else if curArg then
        match storeSlot res cmdIndex (.str (getSubstring cmd left right)) with
        | none => none
        | some res =>
          parseArgsArrayLoop cmd rest (right + 1) left (cmdIndex + 1) inQuotation false res
      else parseArgsArrayLoop cmd rest (right + 1) left cmdIndex inQuotation curArg res
    else if cur = PIPE ∨ cur = OVERWRITE ∨ cur = APPEND then
      if curArg then
        match storeSlot res cmdIndex (.str (getSubstring cmd left right)) with
        | none => none
        | some res =>
          match storeSlot res (cmdIndex + 1) (.str (getSubstring cmd right (right + 1))) with
          | none => none
          | some res =>
            parseArgsArrayLoop cmd rest (right + 1) left (cmdIndex + 2) inQuotation false res
      else
        match storeSlot res cmdIndex (.str (getSubstring cmd right (right + 1))) with
        | none => none
        | some res =>
          parseArgsArrayLoop cmd rest (right + 1) left (cmdIndex + 1) inQuotation false res
    else if curArg then
      parseArgsArrayLoop cmd rest (right + 1) left cmdIndex inQuotation curArg res
    else parseArgsArrayLoop cmd rest (right + 1) right cmdIndex inQuotation true res

/-- The function `parseArgs` on the array it allocates: `numArgs + 1` entries, the last
of which is set to `NULL` before the scan. -/
def parseArgsArray (cmd : List Char) (numArgs : Nat) : Option (List ArgSlot) :=
  let res := List.replicate numArgs ArgSlot.unwritten ++ [ArgSlot.null]
  let left := skipLeadingBlanks cmd 0
  parseArgsArrayLoop cmd (cmd.drop left) left left 0 false false res

/-! ## Auxiliary definitions for the parameter list, the words and the round trip -/

/-- The `Parameter` that `argsToParameterList` builds from one argument list. -/
def mkParam (curArgs : List Token) : Parameter :=
  { parameterName := curArgs.head?, arguments := curArgs }

/-- The loop of `argsToParameterList` as a function of the tokens not yet read and of
the arguments `cur` collected since the last operator: the argument lists
of the Parameters still to be written and the redirect characters still to be
written (see `argsToParameterListLoop_eq`). -/
def splitArgs : List Token → List Token → List (List Token) × List Char
  | [], cur => ([cur], [])
  | a :: rest, cur =>
    if isRedirect a then (cur :: (splitArgs rest []).1, a.take 1 ++ (splitArgs rest []).2)
    else splitArgs rest (cur ++ [a])

/-- The locals of the loop of `parseArgs` with the indices replaced by what they
denote: `cur` is the word in progress `cmd[left .. right)` when `curArg` is
set and `none` when it is clear; `res` is the list of the tokens stored. -/
structure WordState where
  inQuotation : Bool
  cur : Option Token
  res : List Token
  deriving DecidableEq, Repr

/-- One iteration of the loop of `parseArgs` on the character `c`, on a `WordState`
(see `parseArgsLoop_eq_foldl`). -/
def wordStep (st : WordState) (c : Char) : WordState :=
  if c = DQUOTE then
    { st with inQuotation := !st.inQuotation, cur := st.cur.map (fun w => w ++ [c]) }
  else if c = ' ' ∨ c = '\t' then
    if st.inQuotation then { st with cur := st.cur.map (fun w => w ++ [c]) }
    else
      match st.cur with
      | some w => { st with cur := none, res := st.res ++ [w] }
      | none => st
  else if c = PIPE ∨ c = OVERWRITE ∨ c = APPEND then
    { st with
      cur := none,
      res := (match st.cur with
              | some w => st.res ++ [w]
              | none => st.res) ++ [[c]] }
  else
    { st with
      cur := some (match st.cur with
                   | some w => w ++ [c]
                   | none => [c]) }

/-- The code after the loop of `parseArgs`: the word in progress is stored. -/
def wordsOf (st : WordState) : List Token :=
  match st.cur with
  | some w => st.res ++ [w]
  | none => st.res

/-- What the loop of `parseAppends` writes for a run of `r` characters `>` when the
run ends at another character: the `APPEND` marker and a space for two, the
run itself otherwise. -/
def pendingOut (r : Nat) : List Char :=
  if r = 2 then [APPEND, ' '] else List.replicate r OVERWRITE

/-- The buffer that the loop of `parseAppends` leaves, as a function of the
characters not yet read and of the length `r` of the run of `>` that ends at
the read position (see `parseAppendsLoop_rewrite`). -/
def runRewrite : List Char → Nat → List Char
  | [], r => List.replicate r OVERWRITE
  | c :: s, r =>
    if c = OVERWRITE then runRewrite s (r + 1)
    else pendingOut r ++ c :: runRewrite s 0

/-- The operator tokens that `parseArgs` emits for what `parseAppends` leaves of a run
of `r` characters `>`. -/
def pendingTokens (r : Nat) : List Token :=
  if r = 2 then [[APPEND]] else List.replicate r [OVERWRITE]

/-- Statement function: the line in which every run of spaces and tabs outside
quotation is replaced by one space. `inQ` is the quotation state and
`prevBlank` tells that the previous character was a space or tab outside
quotation. -/
def collapseBlanks : List Char → Bool → Bool → List Char
  | [], _, _ => []
  | c :: rest, inQ, prevBlank =>
    if c = DQUOTE then c :: collapseBlanks rest (!inQ) false
    else if (c = ' ' ∨ c = '\t') ∧ inQ = false then
      if prevBlank then collapseBlanks rest inQ true
      else ' ' :: collapseBlanks rest inQ true
    else c :: collapseBlanks rest inQ false

/-- Spec-side definition, after section 4.1 of the specification: the words of a line.
A double quote toggles the quotation state and is not part of the word;
inside quotation every character is literal; outside quotation spaces and
tabs separate words and each `|` or `>` ends the word in progress. -/
def specWordsLoop : List Char → Bool → Option (List Char) → List (List Char)
  | [], _, cur => cur.toList
  | c :: rest, inQ, cur =>
    if c = DQUOTE then specWordsLoop rest (!inQ) (some (cur.getD []))
    else if inQ = true then specWordsLoop rest inQ (some (cur.getD [] ++ [c]))
    else if c = ' ' ∨ c = '\t' then cur.toList ++ specWordsLoop rest inQ none
    else if c = PIPE ∨ c = OVERWRITE then cur.toList ++ specWordsLoop rest inQ none
    else specWordsLoop rest inQ (some (cur.getD [] ++ [c]))

/-- Spec-side definition: the sequence of words of a line, quotes removed. -/
def specWords (line : List Char) : List (List Char) :=
  specWordsLoop line false none

/-- Statement function: the argument lists of the stages that `main` hands to
`executePipeline`, in order, followed by the redirect target when there is
one. -/
def reserialize (parameters : List Parameter) (plan : ExecPlan) : List Token :=
  ((parameters.take plan.parameterCount.toNat).map (fun p => p.arguments)).flatten
    ++ plan.outputFile.toList

/-- Statement function: parsing a line and re-serializing the planned pipeline; `none`
when the line is not accepted. -/
def roundTrip (line : List Char) : Option (List Token) :=
  match getParametersAndRedirects line with
  | some (.NO_ERRORS, some out) =>
    some (reserialize out.parameters
      (planOutput out.parameters out.redirects out.parameterCount))
  | _ => none

/-- The array `res` after the tokens `toks` have been stored at the indices `0`, `1`,
... in this order; `none` when they do not fit. -/
def fillSlots (res : List ArgSlot) (toks : List Token) : Option (List ArgSlot) :=
  if toks.length ≤ res.length then some (toks.map ArgSlot.str ++ res.drop toks.length)
  else none

/-- Statement function: the argument list of Parameter 0, then `redirects[0]` as a
one-character token, then the argument list of Parameter 1, then
`redirects[1]`, and so on up to the last Parameter. -/
def weaveArgs : List (List Token) → List Char → List Token
  | [], _ => []
  | seg :: segs, redirects =>
    seg ++
      (match segs with
       | [] => []
       | _ :: _ => [redirects.take 1] ++ weaveArgs segs (redirects.drop 1))

/-! ## Lemmas and theorems -/

theorem isRedirect_eq (t : Token) : isRedirect t = (isFileRedirect t || isPipe t) := by
  unfold isRedirect isFileRedirect isPipe
  split <;> simp

theorem isFileRedirect_imp (t : Token) (h : isFileRedirect t = true) : isRedirect t = true := by
  rw [isRedirect_eq, h]; rfl

/-- The index loop of `checkValidArgs`, started at index `pre.length` with as many
iterations as tokens remain, reads exactly the remaining tokens. -/
theorem checkValidArgsLoop_append (rest : List Token) :
    ∀ (pre : List Token) (found prev : Bool),
      checkValidArgsLoop (pre ++ rest) rest.length pre.length found prev
        = some (scanArgs rest found prev) := by
  induction rest with
  | nil => intro pre found prev; simp [checkValidArgsLoop, scanArgs]
  | cons c rest ih =>
    intro pre found prev
    have hget : (pre ++ c :: rest)[pre.length]? = some c := by
      rw [List.getElem?_append_right (le_refl _)]; simp
    have hA : ∀ f p, checkValidArgsLoop (pre ++ c :: rest) rest.length (pre.length + 1) f p
        = some (scanArgs rest f p) := by
      intro f p
      have := ih (pre ++ [c]) f p
      simpa using this
    simp only [List.length_cons, checkValidArgsLoop, hget, scanArgs]
    by_cases h1 : (prev && isRedirect c) = true
    · simp [h1]
    · by_cases h2 : (isRedirect c && found) = true
      · simp [h1, h2]
      · simp only [h1, h2, if_false, Bool.false_eq_true]
        by_cases h3 : isFileRedirect c = true
        · have hf : found = false := by
            have := isFileRedirect_imp c h3
            simpa [this] using h2
          simp [h3, hA, hf]
        · simp [h3, hA]

/-- The function `checkValidArgs` on a non-empty array, called with its length. -/
theorem checkValidArgs_cons (first : Token) (rest : List Token) :
    checkValidArgs (first :: rest) ((first :: rest).length : Nat) =
      if (16 : Int) < ((first :: rest).length : Nat) then some .TOO_MANY_ARGUMENTS
      else if isRedirect first then some .MISSING_COMMAND
      else if isFileRedirect ((first :: rest).getLast (List.cons_ne_nil _ _)) then some .NO_OUTPUT_FILE
      else if isPipe ((first :: rest).getLast (List.cons_ne_nil _ _)) then some .MISSING_COMMAND
      else some (scanArgs rest false false) := by
  have hlast : readArg (first :: rest) (((first :: rest).length : Nat) - 1)
      = some ((first :: rest).getLast (List.cons_ne_nil _ _)) := by
    unfold readArg
    have h0 : ¬ ((((first :: rest).length : Nat) : Int) - 1 < 0) := by
      simp only [List.length_cons]; push_cast; omega
    have h1 : ((((first :: rest).length : Nat) : Int) - 1).toNat = (first :: rest).length - 1 := by
      simp only [List.length_cons]; push_cast; omega
    rw [if_neg h0, h1, List.getLast_eq_getElem]
    simp
  have hloop : checkValidArgsLoop (first :: rest)
      ((((first :: rest).length : Nat) : Int) - 1).toNat 1 false false
        = some (scanArgs rest false false) := by
    have h1 : ((((first :: rest).length : Nat) : Int) - 1).toNat = rest.length := by
      simp only [List.length_cons]; push_cast; omega
    rw [h1]
    exact checkValidArgsLoop_append rest [first] false false
  unfold checkValidArgs
  rw [hlast, hloop]
  simp only [readArg, MAX_ARGUMENTS, gt_iff_lt]
  simp

/-- The scan accepts the remaining tokens exactly when none of them is an operator
next to an operator or an operator after a file redirect. -/
theorem scanArgs_ok_iff (rest : List Token) : ∀ (p : Token) (found : Bool),
    scanArgs rest found (isRedirect p) = .NO_ERRORS ↔
      List.Chain (fun a b => ¬ (isRedirect a = true ∧ isRedirect b = true)) p rest ∧
      rest.Pairwise (fun a b => isFileRedirect a = true → isRedirect b = false) ∧
      (found = true → ∀ x ∈ rest, isRedirect x = false) := by
  induction rest with
  | nil => intro p found; simp [scanArgs]
  | cons c rest ih =>
    intro p found
    have hfc := isFileRedirect_imp c
    have key := ih c
    clear ih
    simp only [scanArgs, List.chain_cons, List.pairwise_cons, List.mem_cons, forall_eq_or_imp]
    cases hp : isRedirect p <;> cases hc : isRedirect c <;> cases found <;>
      cases hf : isFileRedirect c <;> simp_all
    intro _
    exact And.comm

theorem checkValidArgsLoop_ne_tooMany (argArray : List Token) :
    ∀ (k i : Nat) (found prev : Bool),
      checkValidArgsLoop argArray k i found prev ≠ some .TOO_MANY_ARGUMENTS := by
  intro k
  induction k with
  | zero => intro i found prev; simp [checkValidArgsLoop]
  | succ k ih =>
    intro i found prev
    unfold checkValidArgsLoop
    split
    · simp
    · simp only
      split
      · simp
      · split
        · simp
        · split
          · exact ih _ _ _
          · exact ih _ _ _

/-- Claim C1: for every sequence of `n >= 1` tokens, `checkValidArgs` returns
`NO_ERRORS` if and only if `n <= 16`, the first token is not an operator, the
last token is not an operator, no two operator tokens are adjacent, and no
operator token occurs after a file-redirect operator. -/
theorem checkValidArgs_accepts_iff (toks : List Token) (hne : toks ≠ []) :
    checkValidArgs toks (toks.length : Nat) = some .NO_ERRORS ↔
      toks.length ≤ 16 ∧ isRedirect (toks.head hne) = false ∧
      isRedirect (toks.getLast hne) = false ∧
      toks.Chain' (fun a b => ¬ (isRedirect a = true ∧ isRedirect b = true)) ∧
      toks.Pairwise (fun a b => isFileRedirect a = true → isRedirect b = false) := by
  obtain ⟨first, rest, rfl⟩ := List.exists_cons_of_ne_nil hne
  rw [checkValidArgs_cons]
  have hlast := isRedirect_eq ((first :: rest).getLast hne)
  have hff := isFileRedirect_imp first
  by_cases hlen : (16 : Int) < ((first :: rest).length : Nat)
  · have : ¬ (first :: rest).length ≤ 16 := by omega
    rw [if_pos hlen]
    simp only [List.length_cons] at this
    simp [this]
  · have hle : (first :: rest).length ≤ 16 := by omega
    rw [if_neg hlen]
    simp only [List.length_cons] at hle
    cases hfirst : isRedirect first
    · cases hfr : isFileRedirect ((first :: rest).getLast hne)
      · cases hpipe : isPipe ((first :: rest).getLast hne)
        · have h := scanArgs_ok_iff rest first false
          rw [hfirst] at h
          have hF : isFileRedirect first = false := by
            cases h' : isFileRedirect first
            · rfl
            · rw [hff h'] at hfirst; cases hfirst
          simp [hfr, hpipe, hfirst, hle, List.Chain', h, hlast, List.pairwise_cons, hF]
        · simp [hfr, hpipe, hlast]
      · simp [hfr, hlast]
    · simp [hfirst]

/-- The acceptance criterion of `checkValidArgs` at the tokens of `ls > out`: the array
is not empty, so the criterion applies, and it accepts them. -/
theorem checkValidArgs_accepts_iff_witness :
    ["ls".toList, ">".toList, "out".toList] ≠ [] ∧
    checkValidArgs ["ls".toList, ">".toList, "out".toList] 3 = some .NO_ERRORS :=
  ⟨by decide,
   (checkValidArgs_accepts_iff ["ls".toList, ">".toList, "out".toList] (by decide)).2
     ⟨by decide, by decide, by decide, by simp [isRedirect],
      by simp [isRedirect, isFileRedirect]⟩⟩

theorem offendingAt_boundary (pre0 : List Token) (p c : Token) (rest : List Token) :
    precededByOperator (pre0 ++ p :: c :: rest) (pre0.length + 1) = isRedirect p ∧
    offendingAt (pre0 ++ p :: c :: rest) (pre0.length + 1)
      = (isRedirect c && (isRedirect p || (pre0 ++ [p]).any isFileRedirect)) := by
  have h1 : (pre0 ++ p :: c :: rest)[pre0.length]? = some p := by
    rw [List.getElem?_append_right (le_refl _)]; simp
  have h2 : (pre0 ++ p :: c :: rest)[pre0.length + 1]? = some c := by
    rw [List.getElem?_append_right (Nat.le_succ _)]; simp
  have h3 : (pre0 ++ p :: c :: rest).take (pre0.length + 1) = pre0 ++ [p] := by
    have : pre0 ++ p :: c :: rest = (pre0 ++ [p]) ++ c :: rest := by simp
    rw [this, List.take_left']
    simp
  have hp : precededByOperator (pre0 ++ p :: c :: rest) (pre0.length + 1) = isRedirect p := by
    simp only [precededByOperator, h1]
  refine ⟨hp, ?_⟩
  simp only [offendingAt, h2, hp, afterFileRedirect, h3]

/-- The scan returns the error of the leftmost offending token. -/
theorem scanArgs_leftmost (rest : List Token) :
    ∀ (pre0 : List Token) (p : Token) (i : Nat),
      pre0.length + 1 ≤ i →
      offendingAt (pre0 ++ p :: rest) i = true →
      (∀ j, pre0.length + 1 ≤ j → j < i → offendingAt (pre0 ++ p :: rest) j = false) →
      scanArgs rest ((pre0 ++ [p]).any isFileRedirect) (isRedirect p)
        = if precededByOperator (pre0 ++ p :: rest) i = true then .MISSING_COMMAND
          else .MISPLACED_REDIRECT := by
  induction rest with
  | nil =>
    intro pre0 p i hi hoff _
    have : (pre0 ++ [p])[i]? = none := by
      apply List.getElem?_eq_none; simp; omega
    simp [offendingAt, this] at hoff
  | cons c rest ih =>
    intro pre0 p i hi hoff hmin
    obtain ⟨hb1, hb2⟩ := offendingAt_boundary pre0 p c rest
    rcases Nat.eq_or_lt_of_le hi with heq | hlt
    · subst heq
      rw [hb2] at hoff
      rw [hb1]
      simp only [scanArgs]
      clear ih hmin hb1 hb2 hi
      revert hoff
      generalize isRedirect p = a
      generalize isRedirect c = b
      generalize (pre0 ++ [p]).any isFileRedirect = f
      cases a <;> cases b <;> cases f <;> simp
    · have hno := hmin (pre0.length + 1) (le_refl _) hlt
      rw [hb2] at hno
      have hstep : scanArgs (c :: rest) ((pre0 ++ [p]).any isFileRedirect) (isRedirect p)
          = scanArgs rest (((pre0 ++ [p]) ++ [c]).any isFileRedirect) (isRedirect c) := by
        simp only [scanArgs, List.any_append, List.any_cons, List.any_nil, Bool.or_false]
        clear ih hmin hb1 hb2 hi hoff
        revert hno
        simp only [List.any_append, List.any_cons, List.any_nil, Bool.or_false]
        generalize isRedirect p = a
        generalize isRedirect c = b
        generalize (pre0.any isFileRedirect || isFileRedirect p) = f
        cases a <;> cases b <;> cases f <;> simp
      have hlist : (pre0 ++ [p]) ++ c :: rest = pre0 ++ p :: c :: rest := by simp
      have := ih (pre0 ++ [p]) c i (by simpa using hlt) (by rw [hlist]; exact hoff)
        (by
          intro j hj1 hj2
          rw [hlist]
          exact hmin j (by simp at hj1; omega) hj2)
      rw [hstep, this, hlist]

/-- Claim C2: for every sequence of 1..16 tokens whose first and last tokens are
not operators, `checkValidArgs` returns the error of the leftmost offending
token: `MISSING_COMMAND` when that token is directly preceded by an operator,
otherwise `MISPLACED_REDIRECT` (it then occurs after an earlier file-redirect
operator). The tokens of `ls | | wc` give `MISSING_COMMAND` and the tokens of
`ls > a > b` give `MISPLACED_REDIRECT`. -/
theorem checkValidArgs_leftmost_error :
    (∀ (toks : List Token) (hne : toks ≠ []) (i : Nat),
      toks.length ≤ 16 →
      isRedirect (toks.head hne) = false →
      isRedirect (toks.getLast hne) = false →
      offendingAt toks i = true →
      (∀ j, j < i → offendingAt toks j = false) →
      checkValidArgs toks (toks.length : Nat)
        = some (if precededByOperator toks i = true then .MISSING_COMMAND
                else .MISPLACED_REDIRECT)) ∧
    (tokenize "ls | | wc".toList = some ["ls".toList, "|".toList, "|".toList, "wc".toList] ∧
      checkValidArgs ["ls".toList, "|".toList, "|".toList, "wc".toList] 4
        = some .MISSING_COMMAND) ∧
    (tokenize "ls > a > b".toList
        = some ["ls".toList, ">".toList, "a".toList, ">".toList, "b".toList] ∧
      checkValidArgs ["ls".toList, ">".toList, "a".toList, ">".toList, "b".toList] 5
        = some .MISPLACED_REDIRECT) := by
  refine ⟨?_, ⟨by decide, by decide⟩, ⟨by decide, by decide⟩⟩
  intro toks hne i hlen hfirst hlast hoff hmin
  obtain ⟨first, rest, rfl⟩ := List.exists_cons_of_ne_nil hne
  rw [checkValidArgs_cons]
  have hlen' : ¬ ((16 : Int) < ((first :: rest).length : Nat)) := by omega
  have hl := isRedirect_eq ((first :: rest).getLast hne)
  rw [hlast] at hl
  have hfr : isFileRedirect ((first :: rest).getLast hne) = false := by
    cases h : isFileRedirect ((first :: rest).getLast hne)
    · rfl
    · rw [h] at hl; simp at hl
  have hpipe : isPipe ((first :: rest).getLast hne) = false := by
    cases h : isPipe ((first :: rest).getLast hne)
    · rfl
    · rw [h] at hl; simp at hl
  simp only [List.head_cons] at hfirst
  have hF : isFileRedirect first = false := by
    cases h : isFileRedirect first
    · rfl
    · rw [isFileRedirect_imp first h] at hfirst; cases hfirst
  have hi : 1 ≤ i := by
    rcases Nat.eq_zero_or_pos i with h0 | hpos
    · subst h0
      simp [offendingAt, hfirst] at hoff
    · exact hpos
  have key := scanArgs_leftmost rest [] first i (by simpa using hi) (by simpa using hoff)
    (by intro j _ hj; simpa using hmin j hj)
  simp only [List.nil_append, List.any_cons, List.any_nil, Bool.or_false, hF] at key
  rw [hfirst] at key
  rw [if_neg hlen', hfirst, hfr, hpipe]
  simp only [Bool.false_eq_true, if_false]
  rw [key]

/-- The leftmost-error rule at the tokens of `ls > a | b`: the only offending token is
the pipe at index 3, it is not directly preceded by an operator, and the
result is `MISPLACED_REDIRECT`. -/
theorem checkValidArgs_leftmost_error_witness :
    offendingAt ["ls".toList, ">".toList, "a".toList, "|".toList, "b".toList] 3 = true ∧
    (∀ j, j < 3 →
      offendingAt ["ls".toList, ">".toList, "a".toList, "|".toList, "b".toList] j = false) ∧
    precededByOperator ["ls".toList, ">".toList, "a".toList, "|".toList, "b".toList] 3 = false ∧
    checkValidArgs ["ls".toList, ">".toList, "a".toList, "|".toList, "b".toList] 5
      = some .MISPLACED_REDIRECT :=
  ⟨by decide, by decide, by decide,
   checkValidArgs_leftmost_error.1
     ["ls".toList, ">".toList, "a".toList, "|".toList, "b".toList] (by decide) 3
     (by decide) (by decide) (by decide) (by decide) (by decide)⟩

/-- Claim C3: for every sequence of 1..16 tokens, the first/last-token checks of
`checkValidArgs` decide before the scan and in this order: a first token that
is an operator gives `MISSING_COMMAND`; otherwise a last token that is a
file-redirect operator gives `NO_OUTPUT_FILE`; otherwise a last token that is a
pipe gives `MISSING_COMMAND`. The tokens of `| ls` give `MISSING_COMMAND` and
the tokens of `ls >>` give `NO_OUTPUT_FILE`. -/
theorem checkValidArgs_first_last :
    (∀ (toks : List Token) (hne : toks ≠ []), toks.length ≤ 16 →
      (isRedirect (toks.head hne) = true →
        checkValidArgs toks (toks.length : Nat) = some .MISSING_COMMAND) ∧
      (isRedirect (toks.head hne) = false → isFileRedirect (toks.getLast hne) = true →
        checkValidArgs toks (toks.length : Nat) = some .NO_OUTPUT_FILE) ∧
      (isRedirect (toks.head hne) = false → isFileRedirect (toks.getLast hne) = false →
        isPipe (toks.getLast hne) = true →
        checkValidArgs toks (toks.length : Nat) = some .MISSING_COMMAND)) ∧
    (tokenize "| ls".toList = some ["|".toList, "ls".toList] ∧
      checkValidArgs ["|".toList, "ls".toList] 2 = some .MISSING_COMMAND ∧
      parseRetval "| ls".toList = some .MISSING_COMMAND) ∧
    (tokenize "ls >>".toList = some ["ls".toList, ">".toList, ">".toList] ∧
      checkValidArgs ["ls".toList, ">".toList, ">".toList] 3 = some .NO_OUTPUT_FILE ∧
      parseRetval "ls >>".toList = some .NO_OUTPUT_FILE) := by
  refine ⟨?_, ⟨by decide, by decide, by decide⟩, ⟨by decide, by decide, by decide⟩⟩
  intro toks hne hlen
  obtain ⟨first, rest, rfl⟩ := List.exists_cons_of_ne_nil hne
  rw [checkValidArgs_cons]
  have hlen' : ¬ ((16 : Int) < ((first :: rest).length : Nat)) := by omega
  rw [if_neg hlen']
  simp only [List.head_cons]
  refine ⟨?_, ?_, ?_⟩
  · intro h; simp [h]
  · intro h1 h2; simp [h1, h2]
  · intro h1 h2 h3; simp [h1, h2, h3]

/-- The first/last-token checks at the tokens `ls | | >`: the first token is a word
and the last one a file redirect, so the result is `NO_OUTPUT_FILE` although
two pipes are adjacent. -/
theorem checkValidArgs_first_last_witness :
    ["ls".toList, "|".toList, "|".toList, ">".toList].length ≤ 16 ∧
    isRedirect (["ls".toList, "|".toList, "|".toList, ">".toList].head (by decide)) = false ∧
    isFileRedirect (["ls".toList, "|".toList, "|".toList, ">".toList].getLast (by decide))
      = true ∧
    checkValidArgs ["ls".toList, "|".toList, "|".toList, ">".toList] 4 = some .NO_OUTPUT_FILE :=
  ⟨by decide, by decide, by decide,
   (checkValidArgs_first_last.1 ["ls".toList, "|".toList, "|".toList, ">".toList]
      (by decide) (by decide)).2.1 (by decide) (by decide)⟩

/-- Claim C4: `checkValidArgs` returns `TOO_MANY_ARGUMENTS` if and only if the token
count is greater than 16, whatever the tokens are; a line of exactly 16 tokens
is accepted, and lines of 17 tokens (words and operators counted alike, over
the whole line) are rejected for their length even when another check would
also fail. -/
theorem checkValidArgs_tooMany_iff :
    (∀ (argArray : List Token) (numArgs : Int),
      checkValidArgs argArray numArgs = some .TOO_MANY_ARGUMENTS ↔ numArgs > 16) ∧
    parseRetval "a b c d e f g h i j k l m n o p".toList = some .NO_ERRORS ∧
    parseRetval "a b c d e f g h i j k l m n o p q".toList = some .TOO_MANY_ARGUMENTS ∧
    parseRetval "a | b | c | d | e | f | g | h | i".toList = some .TOO_MANY_ARGUMENTS ∧
    parseRetval "| | c d e f g h i j k l m n o p >".toList = some .TOO_MANY_ARGUMENTS := by
  refine ⟨?_, by decide, by decide, by decide, by decide⟩
  intro argArray numArgs
  constructor
  · intro h
    by_contra hn
    unfold checkValidArgs at h
    rw [if_neg (by simpa [MAX_ARGUMENTS] using hn)] at h
    split at h
    · cases h
    · split at h
      · cases h
      · split at h
        · cases h
        · split at h
          · cases h
          · split at h
            · cases h
            · exact checkValidArgsLoop_ne_tooMany _ _ _ _ _ h
  · intro h
    unfold checkValidArgs
    rw [if_pos (by simpa [MAX_ARGUMENTS] using h)]

theorem countArgsLoop_sentinel_iff (l : List Char) :
    ∀ (inQuotation curArg : Bool) (numArgs : Int), 0 ≤ numArgs →
      (countArgsLoop l inQuotation curArg numArgs = -1 ↔
        (l.count DQUOTE + (if inQuotation = true then 1 else 0)) % 2 = 1) := by
  induction l with
  | nil =>
    intro inQ curArg n hn
    cases inQ <;> cases curArg <;> simp [countArgsLoop] <;> omega
  | cons c l ih =>
    intro inQ curArg n hn
    unfold countArgsLoop
    by_cases hq : c = DQUOTE
    · subst hq
      rw [if_pos rfl, ih _ _ _ hn, List.count_cons_self]
      cases inQ <;> simp
      omega
    · have hc : (c :: l).count DQUOTE = l.count DQUOTE := by
        rw [List.count_cons_of_ne]; exact fun h => hq h.symm
      rw [if_neg hq, hc]
      by_cases hw : c = ' ' ∨ c = '\t'
      · rw [if_pos hw]
        cases inQ <;> cases curArg <;>
          simp only [if_true, if_false, Bool.false_eq_true] <;>
          exact ih _ _ _ (by omega)
      · rw [if_neg hw]
        by_cases ho : c = PIPE ∨ c = OVERWRITE ∨ c = APPEND
        · rw [if_pos ho]
          cases curArg <;>
            simp only [if_true, if_false, Bool.false_eq_true] <;>
            exact ih _ _ _ (by omega)
        · rw [if_neg ho]
          exact ih _ _ _ hn

/-- The function `countArgs` returns `-1` exactly when the number of double quotes is
odd. -/
theorem countArgs_sentinel_iff (cmd : List Char) :
    countArgs cmd = -1 ↔ cmd.count DQUOTE % 2 = 1 := by
  unfold countArgs
  rw [countArgsLoop_sentinel_iff cmd false false 0 (le_refl _)]
  simp

theorem count_set_of_ne (x a b : Char) (hb : b ≠ x) (ha : a ≠ x) :
    ∀ (l : List Char) (i : Nat), l[i]? = some a → (l.set i b).count x = l.count x := by
  intro l
  induction l with
  | nil => intro i h; simp at h
  | cons c l ih =>
    intro i h
    cases i with
    | zero =>
      simp only [List.getElem?_cons_zero, Option.some.injEq] at h
      subst h
      simp only [List.set_cons_zero]
      rw [List.count_cons_of_ne (Ne.symm hb), List.count_cons_of_ne (Ne.symm ha)]
    | succ i =>
      simp only [List.getElem?_cons_succ] at h
      simp only [List.set_cons_succ, List.count_cons, ih i h]

theorem parseAppendsLoop_count (fuel : Nat) :
    ∀ (cmd : List Char) (right left : Nat) (onAppendChar : Bool),
      (onAppendChar = true → ∀ j, left ≤ j → j < right → cmd[j]? = some OVERWRITE) →
      ((parseAppendsLoop fuel cmd right left onAppendChar).2).count DQUOTE
        = cmd.count DQUOTE := by
  induction fuel with
  | zero => intro cmd right left oac _; simp [parseAppendsLoop]
  | succ fuel ih =>
    intro cmd right left oac hinv
    unfold parseAppendsLoop
    cases hget : cmd[right]? with
    | none => simp
    | some c =>
      simp only
      by_cases hc : c = OVERWRITE
      · rw [if_pos hc]
        cases oac with
        | false =>
          simp only [Bool.not_false, if_true]
          apply ih
          intro _ j h1 h2
          have : j = right := by omega
          rw [this, hget, hc]
        | true =>
          simp only [Bool.not_true, Bool.false_eq_true, if_false]
          apply ih
          intro _ j h1 h2
          rcases Nat.lt_succ_iff_lt_or_eq.mp h2 with h3 | h3
          · exact hinv rfl j h1 h3
          · rw [h3, hget, hc]
      · rw [if_neg hc]
        cases oac with
        | false =>
          simp only [Bool.false_eq_true, if_false]
          apply ih
          intro h; cases h
        | true =>
          simp only [if_true]
          by_cases h3 : right - left > 2
          · rw [if_pos h3]
          · rw [if_neg h3]
            by_cases h2 : right - left = 2
            · rw [if_pos h2]
              have e1 : cmd[left]? = some OVERWRITE := hinv rfl left (le_refl _) (by omega)
              have e2 : cmd[left + 1]? = some OVERWRITE := hinv rfl (left + 1) (by omega) (by omega)
              have e2' : (cmd.set left APPEND)[left + 1]? = some OVERWRITE := by
                rw [List.getElem?_set_ne (by omega)]; exact e2
              rw [ih _ _ _ _ (by intro h; cases h)]
              rw [count_set_of_ne DQUOTE OVERWRITE ' ' (by decide) (by decide) _ _ e2']
              rw [count_set_of_ne DQUOTE OVERWRITE APPEND (by decide) (by decide) _ _ e1]
            · rw [if_neg h2]
              apply ih
              intro h; cases h

/-- The rewriting of `parseAppends` leaves the number of double quotes unchanged. -/
theorem parseAppends_count (cmd : List Char) :
    ((parseAppends cmd).2).count DQUOTE = cmd.count DQUOTE :=
  parseAppendsLoop_count _ cmd 0 0 false (by intro h; cases h)

theorem parseAppendsLoop_plain (fuel : Nat) (cmd : List Char) (right left : Nat) (c : Char)
    (h : cmd[right]? = some c) (hc : c ≠ OVERWRITE) :
    parseAppendsLoop (fuel + 1) cmd right left false
      = parseAppendsLoop fuel cmd (right + 1) left false := by
  simp [parseAppendsLoop, h, hc]

theorem parseAppendsLoop_open (fuel : Nat) (cmd : List Char) (right left : Nat)
    (h : cmd[right]? = some OVERWRITE) :
    parseAppendsLoop (fuel + 1) cmd right left false
      = parseAppendsLoop fuel cmd (right + 1) right true := by
  simp [parseAppendsLoop, h]

theorem parseAppendsLoop_more (fuel : Nat) (cmd : List Char) (right left : Nat)
    (h : cmd[right]? = some OVERWRITE) :
    parseAppendsLoop (fuel + 1) cmd right left true
      = parseAppendsLoop fuel cmd (right + 1) left true := by
  simp [parseAppendsLoop, h]

theorem parseAppendsLoop_close (fuel : Nat) (cmd : List Char) (right left : Nat) (c : Char)
    (h : cmd[right]? = some c) (hc : c ≠ OVERWRITE) :
    parseAppendsLoop (fuel + 1) cmd right left true
      = if right - left > 2 then (.MISPLACED_REDIRECT, cmd)
        else if right - left = 2 then
          parseAppendsLoop fuel ((cmd.set left APPEND).set (left + 1) ' ') (right + 1) left false
        else parseAppendsLoop fuel cmd (right + 1) left false := by
  simp [parseAppendsLoop, h, hc]

theorem parseAppendsLoop_end (fuel : Nat) (cmd : List Char) (right left : Nat) (oac : Bool)
    (h : cmd[right]? = none) :
    parseAppendsLoop fuel cmd right left oac = (.NO_ERRORS, cmd) := by
  cases fuel <;> simp [parseAppendsLoop, h]

theorem parseAppendsLoop_skip (w : List Char) :
    ∀ (a b : List Char) (k left : Nat), (∀ c ∈ w, c ≠ OVERWRITE) →
      parseAppendsLoop (w.length + k) (a ++ (w ++ b)) a.length left false
        = parseAppendsLoop k (a ++ (w ++ b)) (a.length + w.length) left false := by
  induction w with
  | nil => intro a b k left _; simp
  | cons c w ih =>
    intro a b k left hw
    have hget : (a ++ (c :: w ++ b))[a.length]? = some c := by
      rw [List.getElem?_append_right (le_refl _)]; simp
    have hc : c ≠ OVERWRITE := hw c (List.mem_cons_self _ _)
    have hfuel : (c :: w).length + k = (w.length + k) + 1 := by simp; omega
    rw [hfuel, parseAppendsLoop_plain _ _ _ _ c hget hc]
    have := ih (a ++ [c]) b k left (fun x hx => hw x (List.mem_cons_of_mem _ hx))
    simp only [List.append_assoc, List.singleton_append, List.length_append, List.length_singleton,
      List.cons_append, List.nil_append] at this
    simp only [List.cons_append, List.length_cons]
    rw [this]
    congr 1
    omega

theorem getElem?_append_add (u v : List Char) (k : Nat) :
    (u ++ v)[u.length + k]? = v[k]? := by
  rw [List.getElem?_append_right (by omega)]
  congr 1
  omega

theorem set_two_append (u rest : List Char) (a b x y : Char) :
    ((u ++ a :: b :: rest).set u.length x).set (u.length + 1) y = u ++ x :: y :: rest := by
  induction u with
  | nil => simp
  | cons c u ih => simp [ih]

/-- The function `parseAppends` on `u>>xv` rewrites the two `>` to the `APPEND` marker
and a space. -/
theorem parseAppends_double (u v : List Char) (x : Char)
    (hu : ∀ c ∈ u, c ≠ OVERWRITE) (hx : x ≠ OVERWRITE) (hv : ∀ c ∈ v, c ≠ OVERWRITE) :
    parseAppends (u ++ OVERWRITE :: OVERWRITE :: x :: v)
      = (.NO_ERRORS, u ++ APPEND :: ' ' :: x :: v) := by
  have h0 : (u ++ OVERWRITE :: OVERWRITE :: x :: v)[u.length]? = some OVERWRITE := by
    rw [List.getElem?_append_right (le_refl _)]; simp
  have h1 : (u ++ OVERWRITE :: OVERWRITE :: x :: v)[u.length + 1]? = some OVERWRITE := by
    rw [List.getElem?_append_right (by omega)]; simp
  have h2 : (u ++ OVERWRITE :: OVERWRITE :: x :: v)[u.length + 1 + 1]? = some x := by
    rw [show u.length + 1 + 1 = u.length + 2 from rfl, getElem?_append_add]; simp
  have hlen : (u ++ OVERWRITE :: OVERWRITE :: x :: v).length
      = u.length + (v.length + 1 + 1 + 1) := by
    simp
  unfold parseAppends
  rw [hlen]
  have s1 := parseAppendsLoop_skip u [] (OVERWRITE :: OVERWRITE :: x :: v) (v.length + 1 + 1 + 1)
    0 hu
  simp only [List.nil_append, List.length_nil, Nat.zero_add] at s1
  rw [s1, parseAppendsLoop_open _ _ _ _ h0, parseAppendsLoop_more _ _ _ _ h1,
    parseAppendsLoop_close _ _ _ _ x h2 hx]
  have hgt : ¬ (u.length + 1 + 1 - u.length > 2) := by omega
  have heq : u.length + 1 + 1 - u.length = 2 := by omega
  rw [if_neg hgt, if_pos heq, set_two_append]
  have s2 := parseAppendsLoop_skip v (u ++ [APPEND, ' ', x]) [] 0 u.length hv
  simp only [List.append_nil, List.append_assoc, List.cons_append, List.nil_append,
    List.length_append, List.length_cons, List.length_nil, Nat.add_zero] at s2
  have e4 : u.length + 1 + 1 + 1 = u.length + (0 + 1 + 1 + 1) := by omega
  rw [e4, s2]
  simp [parseAppendsLoop]

/-- The function `parseAppends` leaves `u>xv` unchanged. -/
theorem parseAppends_single (u v : List Char) (x : Char)
    (hu : ∀ c ∈ u, c ≠ OVERWRITE) (hx : x ≠ OVERWRITE) (hv : ∀ c ∈ v, c ≠ OVERWRITE) :
    parseAppends (u ++ OVERWRITE :: x :: v) = (.NO_ERRORS, u ++ OVERWRITE :: x :: v) := by
  have h0 : (u ++ OVERWRITE :: x :: v)[u.length]? = some OVERWRITE := by
    rw [List.getElem?_append_right (le_refl _)]; simp
  have h1 : (u ++ OVERWRITE :: x :: v)[u.length + 1]? = some x := by
    rw [List.getElem?_append_right (by omega)]; simp
  have hlen : (u ++ OVERWRITE :: x :: v).length = u.length + (v.length + 1 + 1) := by
    simp
  unfold parseAppends
  rw [hlen]
  have s1 := parseAppendsLoop_skip u [] (OVERWRITE :: x :: v) (v.length + 1 + 1) 0 hu
  simp only [List.nil_append, List.length_nil, Nat.zero_add] at s1
  rw [s1, parseAppendsLoop_open _ _ _ _ h0, parseAppendsLoop_close _ _ _ _ x h1 hx]
  have hgt : ¬ (u.length + 1 - u.length > 2) := by omega
  have hne : ¬ (u.length + 1 - u.length = 2) := by omega
  rw [if_neg hgt, if_neg hne]
  have s2 := parseAppendsLoop_skip v (u ++ [OVERWRITE, x]) [] 0 u.length hv
  simp only [List.append_nil, List.append_assoc, List.cons_append, List.nil_append,
    List.length_append, List.length_cons, List.length_nil, Nat.add_zero] at s2
  have e4 : u.length + 1 + 1 = u.length + (0 + 1 + 1) := by omega
  rw [e4, s2]
  simp [parseAppendsLoop]

theorem parseArgsLoop_plain (cmd rest : List Char) (c : Char) (right left : Nat)
    (inQ curArg : Bool) (res : List Token) (hc : PlainChar c) :
    parseArgsLoop cmd (c :: rest) right left inQ curArg res
      = parseArgsLoop cmd rest (right + 1) (if curArg = true then left else right) inQ true res := by
  obtain ⟨h1, h2, h3, h4, h5, h6⟩ := hc
  cases curArg <;> simp [parseArgsLoop, h1, h2, h3, h4, h5, h6]

theorem parseArgsLoop_blank (cmd rest : List Char) (c : Char) (right left : Nat)
    (res : List Token) (hc : c = ' ' ∨ c = '\t') :
    parseArgsLoop cmd (c :: rest) right left false false res
      = parseArgsLoop cmd rest (right + 1) left false false res := by
  have hq : c ≠ DQUOTE := by rcases hc with h | h <;> rw [h] <;> decide
  conv_lhs => unfold parseArgsLoop
  simp only [if_neg hq, if_pos hc, Bool.false_eq_true, if_false]

theorem parseArgsLoop_word (cmd : List Char) (w : List Char) :
    ∀ (c : Char) (rest : List Char) (right left : Nat) (inQ curArg : Bool) (res : List Token),
      PlainChar c → (∀ d ∈ w, PlainChar d) →
      parseArgsLoop cmd (c :: w ++ rest) right left inQ curArg res
        = parseArgsLoop cmd rest (right + (w.length + 1))
            (if curArg = true then left else right) inQ true res := by
  induction w with
  | nil =>
    intro c rest right left inQ curArg res hc _
    simpa using parseArgsLoop_plain cmd rest c right left inQ curArg res hc
  | cons d w ih =>
    intro c rest right left inQ curArg res hc hw
    have hd : PlainChar d := hw d (List.mem_cons_self _ _)
    have hw' : ∀ e ∈ w, PlainChar e := fun e he => hw e (List.mem_cons_of_mem _ he)
    have h1 := parseArgsLoop_plain cmd (d :: w ++ rest) c right left inQ curArg res hc
    simp only [List.cons_append] at h1 ⊢
    rw [h1]
    have h2 := ih d rest (right + 1) (if curArg = true then left else right) inQ true res hd hw'
    simp only [List.cons_append, if_true] at h2
    rw [h2]
    congr 1
    simp only [List.length_cons]
    omega

theorem getSubstring_middle (a w b : List Char) :
    getSubstring (a ++ (w ++ b)) a.length (a.length + w.length) = w := by
  unfold getSubstring
  simp

theorem count_dquote_plain (w : List Char) (hw : ∀ c ∈ w, PlainChar c) :
    w.count DQUOTE = 0 := by
  rw [List.count_eq_zero]
  intro h
  exact (hw _ h).2.2.1 rfl

/-- The function `parseArgs` on a word, an operator character, at most one space and
a word. -/
theorem parseArgs_word_op_word (u v : List Char) (op : Char) (pad : List Char)
    (hu : u ≠ []) (hv : v ≠ [])
    (hu' : ∀ c ∈ u, PlainChar c) (hv' : ∀ c ∈ v, PlainChar c)
    (hop : op = PIPE ∨ op = OVERWRITE ∨ op = APPEND) (hpad : pad = [] ∨ pad = [' '])
    (numArgs : Int) :
    parseArgs (u ++ op :: (pad ++ v)) numArgs = [u, [op], v] := by
  obtain ⟨a, u', rfl⟩ := List.exists_cons_of_ne_nil hu
  obtain ⟨x, v', rfl⟩ := List.exists_cons_of_ne_nil hv
  have ha : PlainChar a := hu' a (List.mem_cons_self _ _)
  have hx : PlainChar x := hv' x (List.mem_cons_self _ _)
  have hu'' : ∀ c ∈ u', PlainChar c := fun c hc => hu' c (List.mem_cons_of_mem _ hc)
  have hv'' : ∀ c ∈ v', PlainChar c := fun c hc => hv' c (List.mem_cons_of_mem _ hc)
  have hskip : skipLeadingBlanks (a :: u' ++ op :: (pad ++ x :: v')) 0 = 0 := by
    simp [skipLeadingBlanks, ha.1, ha.2.1]
  have hopq : op ≠ DQUOTE := by rcases hop with h | h | h <;> rw [h] <;> decide
  have hopb : ¬ (op = ' ' ∨ op = '\t') := by rcases hop with h | h | h <;> rw [h] <;> decide
  unfold parseArgs
  simp only [hskip, List.drop_zero]
  generalize hcmd : a :: u' ++ op :: (pad ++ x :: v') = cmd
  have e1 : getSubstring cmd 0 (u'.length + 1) = a :: u' := by
    have := getSubstring_middle [] (a :: u') (op :: (pad ++ x :: v'))
    simpa [hcmd] using this
  have e2 : getSubstring cmd (u'.length + 1) (u'.length + 1 + 1) = [op] := by
    have := getSubstring_middle (a :: u') [op] (pad ++ x :: v')
    simpa [hcmd] using this
  conv_lhs => arg 2; rw [← hcmd]
  rw [parseArgsLoop_word cmd u' a _ 0 0 false false [] ha hu'']
  simp only [Nat.zero_add, Bool.false_eq_true, if_false]
  have hstep : ∀ rest, parseArgsLoop cmd (op :: rest) (u'.length + 1) 0 false true []
      = parseArgsLoop cmd rest (u'.length + 1 + 1) 0 false false [a :: u', [op]] := by
    intro rest
    simp [parseArgsLoop, hopq, hopb, hop, e1, e2]
  rw [hstep]
  rcases hpad with hp | hp
  · subst hp
    have e3 : getSubstring cmd (u'.length + 1 + 1) (u'.length + 1 + 1 + (v'.length + 1))
        = x :: v' := by
      have := getSubstring_middle (a :: u' ++ [op]) (x :: v') []
      rw [← hcmd]
      simpa using this
    simp only [List.nil_append]
    have := parseArgsLoop_word cmd v' x [] (u'.length + 1 + 1) 0 false false [a :: u', [op]] hx hv''
    simp only [List.append_nil, List.cons_append] at this
    rw [this]
    simp [parseArgsLoop, e3]
  · subst hp
    have e3 : getSubstring cmd (u'.length + 1 + 1 + 1) (u'.length + 1 + 1 + 1 + (v'.length + 1))
        = x :: v' := by
      have := getSubstring_middle (a :: u' ++ [op, ' ']) (x :: v') []
      rw [← hcmd]
      simpa using this
    simp only [List.singleton_append]
    rw [parseArgsLoop_blank cmd _ ' ' _ _ _ (Or.inl rfl)]
    have := parseArgsLoop_word cmd v' x [] (u'.length + 1 + 1 + 1) 0 false false
      [a :: u', [op]] hx hv''
    simp only [List.append_nil, List.cons_append] at this
    rw [this]
    simp [parseArgsLoop, e3]

/-- Claim C8: for all non-empty words `u` and `v` that contain no space, tab, double
quote, `|`, `>` or newline, tokenizing `u>>v` yields exactly the three tokens
`u`, Append (the one-character string of the `APPEND` marker), `v`, and
tokenizing `u>v` yields exactly `u`, `>`, `v`. -/
theorem tokenize_redirect_no_spaces (u v : List Char) (hu : u ≠ []) (hv : v ≠ [])
    (hu' : ∀ c ∈ u, PlainChar c) (hv' : ∀ c ∈ v, PlainChar c) :
    tokenize (u ++ OVERWRITE :: OVERWRITE :: v) = some [u, [APPEND], v] ∧
    tokenize (u ++ OVERWRITE :: v) = some [u, [OVERWRITE], v] := by
  obtain ⟨x, v', rfl⟩ := List.exists_cons_of_ne_nil hv
  have hx : PlainChar x := hv' x (List.mem_cons_self _ _)
  have hv'' : ∀ c ∈ v', PlainChar c := fun c hc => hv' c (List.mem_cons_of_mem _ hc)
  have hgu : ∀ c ∈ u, c ≠ OVERWRITE := fun c hc => (hu' c hc).2.2.2.2.1
  have hgv : ∀ c ∈ v', c ≠ OVERWRITE := fun c hc => (hv'' c hc).2.2.2.2.1
  have hcu := count_dquote_plain u hu'
  have hcv := count_dquote_plain (x :: v') hv'
  constructor
  · have hq : ¬ countArgs (u ++ APPEND :: ' ' :: x :: v') = -1 := by
      rw [countArgs_sentinel_iff, List.count_append, hcu,
        List.count_cons_of_ne (by decide), List.count_cons_of_ne (by decide), hcv]
      decide
    unfold tokenize
    rw [parseAppends_double u v' x hgu hx.2.2.2.2.1 hgv]
    simp only [ne_eq, not_true_eq_false, if_false, if_neg hq]
    have := parseArgs_word_op_word u (x :: v') APPEND [' '] hu hv hu' hv' (Or.inr (Or.inr rfl))
      (Or.inr rfl) (countArgs (u ++ APPEND :: ' ' :: x :: v'))
    simpa using this
  · have hq : ¬ countArgs (u ++ OVERWRITE :: x :: v') = -1 := by
      rw [countArgs_sentinel_iff, List.count_append, hcu,
        List.count_cons_of_ne (by decide), hcv]
      decide
    unfold tokenize
    rw [parseAppends_single u v' x hgu hx.2.2.2.2.1 hgv]
    simp only [ne_eq, not_true_eq_false, if_false, if_neg hq]
    have := parseArgs_word_op_word u (x :: v') OVERWRITE [] hu hv hu' hv' (Or.inr (Or.inl rfl))
      (Or.inl rfl) (countArgs (u ++ OVERWRITE :: x :: v'))
    simpa using this

/-- The no-space redirect rule at `ls>>out.txt` and `ls>out.txt`: both words are
non-empty and made of plain characters. -/
theorem tokenize_redirect_no_spaces_witness :
    "ls".toList ≠ [] ∧ "out.txt".toList ≠ [] ∧
    (∀ c ∈ "ls".toList, PlainChar c) ∧ (∀ c ∈ "out.txt".toList, PlainChar c) ∧
    tokenize "ls>>out.txt".toList = some ["ls".toList, [APPEND], "out.txt".toList] ∧
    tokenize "ls>out.txt".toList = some ["ls".toList, [OVERWRITE], "out.txt".toList] :=
  ⟨by decide, by decide, by decide, by decide,
   tokenize_redirect_no_spaces "ls".toList "out.txt".toList (by decide) (by decide)
     (by decide) (by decide)⟩

theorem drop_of_getElem? (cmd : List Char) (right : Nat) (c : Char)
    (h : cmd[right]? = some c) : cmd.drop right = c :: cmd.drop (right + 1) := by
  obtain ⟨hlt, hc⟩ := List.getElem?_eq_some.mp h
  rw [List.drop_eq_getElem_cons hlt, hc]

/-- The return code of the loop of `parseAppends` depends only on the characters not
yet read and on the length of the current run of `>`. -/
theorem parseAppendsLoop_code (fuel : Nat) :
    ∀ (cmd : List Char) (right left : Nat) (oac : Bool),
      cmd.length ≤ right + fuel → (oac = true → left < right) →
      (parseAppendsLoop fuel cmd right left oac).1
        = runCode (cmd.drop right) (if oac = true then right - left else 0) := by
  induction fuel with
  | zero =>
    intro cmd right left oac hlen _
    rw [List.drop_eq_nil_of_le (by omega)]
    simp [parseAppendsLoop, runCode]
  | succ fuel ih =>
    intro cmd right left oac hlen hinv
    cases hget : cmd[right]? with
    | none =>
      rw [parseAppendsLoop_end _ _ _ _ _ hget,
        List.drop_eq_nil_of_le (List.getElem?_eq_none_iff.mp hget)]
      simp [runCode]
    | some c =>
      rw [drop_of_getElem? cmd right c hget]
      by_cases hc : c = OVERWRITE
      · subst hc
        cases oac with
        | false =>
          rw [parseAppendsLoop_open _ _ _ _ hget, ih _ _ _ _ (by omega) (by intro _; omega)]
          simp only [runCode, if_true, Bool.false_eq_true, if_false]
          congr 1
          omega
        | true =>
          have := hinv rfl
          rw [parseAppendsLoop_more _ _ _ _ hget, ih _ _ _ _ (by omega) (by intro _; omega)]
          simp only [runCode, if_true]
          congr 1
          omega
      · cases oac with
        | false =>
          rw [parseAppendsLoop_plain _ _ _ _ c hget hc,
            ih _ _ _ _ (by omega) (by intro h; cases h)]
          simp [runCode, hc]
        | true =>
          have := hinv rfl
          rw [parseAppendsLoop_close _ _ _ _ c hget hc]
          simp only [runCode, if_neg hc, if_true]
          by_cases h3 : right - left > 2
          · simp [h3]
          · rw [if_neg h3, if_neg h3]
            by_cases h2 : right - left = 2
            · rw [if_pos h2, ih _ _ _ _ (by simpa using (by omega : cmd.length ≤ right + 1 + fuel))
                (by intro h; cases h)]
              simp only [Bool.false_eq_true, if_false]
              rw [List.drop_set_of_lt _ _ (by omega), List.drop_set_of_lt _ _ (by omega)]
            · rw [if_neg h2, ih _ _ _ _ (by omega) (by intro h; cases h)]
              simp

theorem runCode_detects (a : List Char) :
    ∀ (b : List Char) (c : Char) (r : Nat), c ≠ OVERWRITE →
      runCode (a ++ OVERWRITE :: OVERWRITE :: OVERWRITE :: c :: b) r = .MISPLACED_REDIRECT := by
  induction a with
  | nil =>
    intro b c r hc
    simp [runCode, hc]
  | cons x a ih =>
    intro b c r hc
    simp only [List.cons_append, runCode]
    split
    · exact ih b c _ hc
    · split
      · rfl
      · exact ih b c _ hc

/-- A run of three `>` that is followed by another character makes parsing return
`MISPLACED_REDIRECT`, wherever it stands in the line. -/
theorem parseRetval_run_detected (a b : List Char) (c : Char) (hc : c ≠ OVERWRITE) :
    parseRetval (a ++ OVERWRITE :: OVERWRITE :: OVERWRITE :: c :: b)
      = some .MISPLACED_REDIRECT := by
  have h1 := parseAppendsLoop_code (a ++ OVERWRITE :: OVERWRITE :: OVERWRITE :: c :: b).length
    (a ++ OVERWRITE :: OVERWRITE :: OVERWRITE :: c :: b) 0 0 false (by omega) (by intro h; cases h)
  simp only [List.drop_zero, Bool.false_eq_true, if_false, runCode_detects a b c 0 hc] at h1
  unfold parseRetval getParametersAndRedirects
  change (parseAppends _).1 = _ at h1
  rcases hres : parseAppends (a ++ OVERWRITE :: OVERWRITE :: OVERWRITE :: c :: b) with ⟨r, cmd⟩
  rw [hres] at h1
  simp only at h1
  subst h1
  simp

/-- Claim C5, evaluated at the line `"a b" c` (balanced quotes): the tokenizer emits
the word `a b"`, which keeps the closing double quote, and the word `c`. -/
theorem tokenize_keeps_closing_quote :
    countArgs "\"a b\" c".toList ≠ -1 ∧
    tokenize "\"a b\" c".toList = some ["a b\"".toList, "c".toList] ∧
    DQUOTE ∈ "a b\"".toList := by
  decide

/-- Claim C6, evaluated at `echo "a|b"` and `echo "a>>b"` (balanced quotes): the
quoted `|` ends the word in progress and is emitted as an operator token, and
the quoted `>>` is rewritten to the `APPEND` marker and emitted as an operator
token. -/
theorem tokenize_quoted_operator :
    tokenize "echo \"a|b\"".toList
      = some ["echo".toList, "a".toList, [PIPE], "b\"".toList] ∧
    parseAppends "echo \"a>>b\"".toList = (.NO_ERRORS, "echo \"a\n b\"".toList) ∧
    tokenize "echo \"a>>b\"".toList
      = some ["echo".toList, "a".toList, [APPEND], "b\"".toList] := by
  decide

/-- Claim C7, evaluated at `echo " x"` and `echo " "` (balanced quotes): the second
token of the first line is `x"`, without the quoted leading space, and the
second line has the single token `echo`. -/
theorem tokenize_quoted_leading_blank :
    tokenize "echo \" x\"".toList = some ["echo".toList, "x\"".toList] ∧
    ' ' ∉ "x\"".toList ∧
    tokenize "echo \" \"".toList = some ["echo".toList] ∧
    countArgs "echo \" \"".toList = 1 := by
  decide

/-- Claim C9, evaluated at the line `a >>>`, whose run of three `>` ends the line:
`parseAppends` reports no error and leaves the line unchanged, and parsing
returns `NO_OUTPUT_FILE`; for `>>>` alone it returns `MISSING_COMMAND`. -/
theorem trailing_run_not_misplaced :
    parseAppends "a >>>".toList = (.NO_ERRORS, "a >>>".toList) ∧
    parseRetval "a >>>".toList = some .NO_OUTPUT_FILE ∧
    parseRetval ">>>".toList = some .MISSING_COMMAND ∧
    parseRetval "a >>> b".toList = some .MISPLACED_REDIRECT := by
  decide

/-- Claim C10 fails as stated: the line `">>>a` has one double quote, and parsing
returns `MISPLACED_REDIRECT`, not `MISSING_COMMAND`. -/
theorem unterminated_quote_counterexample :
    "\">>>a".toList.count DQUOTE % 2 = 1 ∧
    countArgs "\">>>a".toList = -1 ∧
    parseRetval "\">>>a".toList = some .MISPLACED_REDIRECT ∧
    parseRetval "\">>>a".toList ≠ some .MISSING_COMMAND := by
  decide

/-- Claim C10, amended: `countArgs` returns the sentinel `-1` exactly when the number
of double quotes is odd, and for every line with an odd number of double
quotes on which `parseAppends` reports no error, parsing returns
`MISSING_COMMAND`. -/
theorem unterminated_quote_missing_command :
    (∀ cmd : List Char, countArgs cmd = -1 ↔ cmd.count DQUOTE % 2 = 1) ∧
    (∀ line : List Char, line.count DQUOTE % 2 = 1 →
      (parseAppends line).1 = .NO_ERRORS →
      parseRetval line = some .MISSING_COMMAND) := by
  refine ⟨countArgs_sentinel_iff, ?_⟩
  intro line hodd hpa
  have hcount := parseAppends_count line
  have hq : countArgs (parseAppends line).2 = -1 := by
    rw [countArgs_sentinel_iff, hcount]; exact hodd
  unfold parseRetval getParametersAndRedirects
  rcases hres : parseAppends line with ⟨r, cmd⟩
  rw [hres] at hpa hq
  simp only at hpa hq
  subst hpa
  simp [hq]

/-- The amended rule at the line `echo "a`, whose quote is never closed. -/
theorem unterminated_quote_missing_command_witness :
    "echo \"a".toList.count DQUOTE % 2 = 1 ∧
    (parseAppends "echo \"a".toList).1 = .NO_ERRORS ∧
    parseRetval "echo \"a".toList = some .MISSING_COMMAND :=
  ⟨by decide, by decide,
    unterminated_quote_missing_command.2 "echo \"a".toList (by decide) (by decide)⟩

/-! ## The parameter list and the output plan -/

theorem mkParameter_eq (pre rest : List Token) (left : Nat) (h : left ≤ pre.length) :
    mkParameter (pre ++ rest) left pre.length = mkParam (pre.drop left) := by
  unfold mkParameter mkParam
  have : ((pre ++ rest).drop left).take (pre.length - left) = pre.drop left := by
    rw [List.drop_append_of_le_length h, List.take_append_of_le_length (by simp)]
    simp
  simp only [this]

theorem argsToParameterListLoop_eq (rest : List Token) :
    ∀ (pre : List Token) (left : Nat) (ps : List Parameter) (rs : List Char),
      left ≤ pre.length →
      argsToParameterListLoop (pre ++ rest) rest pre.length left ps rs
        = (ps ++ (splitArgs rest (pre.drop left)).1.map mkParam,
           rs ++ (splitArgs rest (pre.drop left)).2) := by
  induction rest with
  | nil =>
    intro pre left ps rs h
    have := mkParameter_eq pre [] left h
    rw [List.append_nil] at this
    simp only [argsToParameterListLoop, splitArgs, this, List.map_cons, List.map_nil,
      List.append_nil]
  | cons a rest ih =>
    intro pre left ps rs h
    have hlist : pre ++ a :: rest = (pre ++ [a]) ++ rest := by simp
    have hlen : (pre ++ [a]).length = pre.length + 1 := by simp
    by_cases ha : isRedirect a = true
    · have h1 := ih (pre ++ [a]) (pre.length + 1) (ps ++ [mkParameter (pre ++ a :: rest) left pre.length])
        (rs ++ a.take 1) (by simp)
      rw [hlen, ← hlist] at h1
      have hd : (pre ++ [a]).drop (pre.length + 1) = [] := by
        apply List.drop_eq_nil_of_le; simp
      rw [hd, mkParameter_eq pre (a :: rest) left h] at h1
      simp only [argsToParameterListLoop, splitArgs, if_pos ha,
        mkParameter_eq pre (a :: rest) left h]
      rw [h1]
      simp
    · have h1 := ih (pre ++ [a]) left ps rs (by simp; omega)
      rw [hlen, ← hlist] at h1
      have hd : (pre ++ [a]).drop left = pre.drop left ++ [a] := by
        rw [List.drop_append_of_le_length h]
      rw [hd] at h1
      simp only [argsToParameterListLoop, splitArgs, if_neg ha, h1]

theorem argsToParameterList_eq (args : List Token) (n : Int) :
    argsToParameterList args n
      = ((splitArgs args []).1.map mkParam, (splitArgs args []).2) := by
  have := argsToParameterListLoop_eq args [] 0 [] [] (le_refl _)
  simpa [argsToParameterList] using this

theorem checkValidArgs_ok_facts (toks : List Token)
    (hok : checkValidArgs toks (toks.length : Nat) = some .NO_ERRORS) :
    ∃ first rest, toks = first :: rest ∧ rest.length + 1 ≤ 16 ∧
      isRedirect first = false ∧
      isRedirect ((first :: rest).getLast (List.cons_ne_nil _ _)) = false ∧
      List.Chain (fun a b => ¬ (isRedirect a = true ∧ isRedirect b = true)) first rest ∧
      rest.Pairwise (fun a b => isFileRedirect a = true → isRedirect b = false) := by
  cases toks with
  | nil => simp [checkValidArgs, readArg] at hok
  | cons first rest =>
    refine ⟨first, rest, rfl, ?_⟩
    rw [checkValidArgs_cons] at hok
    have hlast := isRedirect_eq ((first :: rest).getLast (List.cons_ne_nil _ _))
    by_cases hlen : (16 : Int) < ((first :: rest).length : Nat)
    · rw [if_pos hlen] at hok; simp at hok
    · rw [if_neg hlen] at hok
      have hle : rest.length + 1 ≤ 16 := by
        simp only [List.length_cons] at hlen; omega
      cases hfirst : isRedirect first
      · rw [hfirst] at hok
        simp only [Bool.false_eq_true, if_false] at hok
        cases hfr : isFileRedirect ((first :: rest).getLast (List.cons_ne_nil _ _))
        · rw [hfr] at hok
          simp only [Bool.false_eq_true, if_false] at hok
          cases hpipe : isPipe ((first :: rest).getLast (List.cons_ne_nil _ _))
          · rw [hpipe] at hok
            simp only [Bool.false_eq_true, if_false, Option.some.injEq] at hok
            have h := (scanArgs_ok_iff rest first false).1 (by rw [hfirst]; exact hok)
            rw [hfr, hpipe] at hlast
            exact ⟨hle, rfl, hlast, h.1, h.2.1⟩
          · rw [hpipe] at hok; simp at hok
        · rw [hfr] at hok; simp at hok
      · rw [hfirst] at hok; simp at hok

theorem isFileRedirect_cases (t : Token) (h : isFileRedirect t = true) :
    t = [OVERWRITE] ∨ t = [APPEND] := by
  unfold isFileRedirect at h
  split at h
  · rename_i c
    simp only [Bool.or_eq_true, decide_eq_true_eq] at h
    rcases h with h | h <;> simp [h]
  · cases h

theorem isRedirect_cases (t : Token) (h : isRedirect t = true) :
    t = [OVERWRITE] ∨ t = [APPEND] ∨ t = [PIPE] := by
  unfold isRedirect at h
  split at h
  · rename_i c
    simp only [Bool.or_eq_true, decide_eq_true_eq] at h
    rcases h with (h | h) | h <;> simp [h]
  · cases h

theorem splitArgs_no_op (y : List Token) :
    ∀ cur, (∀ t ∈ y, isRedirect t = false) → splitArgs y cur = ([cur ++ y], []) := by
  induction y with
  | nil => intro cur _; simp [splitArgs]
  | cons a y ih =>
    intro cur h
    have ha : isRedirect a = false := h a (List.mem_cons_self _ _)
    simp only [splitArgs, ha, Bool.false_eq_true, if_false]
    rw [ih _ (fun t ht => h t (List.mem_cons_of_mem _ ht))]
    simp

theorem splitArgs_append_op (x : List Token) :
    ∀ (cur : List Token) (op : Token) (y : List Token), isRedirect op = true →
      splitArgs (x ++ op :: y) cur
        = ((splitArgs x cur).1 ++ (splitArgs y []).1,
           (splitArgs x cur).2 ++ (op.take 1 ++ (splitArgs y []).2)) := by
  induction x with
  | nil => intro cur op y h; simp [splitArgs, h]
  | cons a x ih =>
    intro cur op y h
    by_cases ha : isRedirect a = true
    · rw [List.cons_append, splitArgs, if_pos ha, ih [] op y h]
      simp [splitArgs, ha]
    · rw [List.cons_append, splitArgs, if_neg ha, ih (cur ++ [a]) op y h]
      simp [splitArgs, ha]

theorem splitArgs_redirects_length (rest : List Token) :
    ∀ cur, (splitArgs rest cur).2.length = (rest.filter isRedirect).length := by
  induction rest with
  | nil => intro cur; simp [splitArgs]
  | cons a rest ih =>
    intro cur
    by_cases ha : isRedirect a = true
    · rcases isRedirect_cases a ha with h | h | h <;> subst h <;>
        simp [splitArgs, isRedirect, ih]
    · simp [splitArgs, ha, ih]

theorem splitArgs_segments_length (rest : List Token) :
    ∀ cur, (splitArgs rest cur).1.length = (rest.filter isRedirect).length + 1 := by
  induction rest with
  | nil => intro cur; simp [splitArgs]
  | cons a rest ih =>
    intro cur
    by_cases ha : isRedirect a = true
    · simp [splitArgs, ha, ih]
    · simp [splitArgs, ha, ih]

theorem splitArgs_pipes (rest : List Token) :
    ∀ cur, (∀ t ∈ rest, isFileRedirect t = false) →
      ∀ c ∈ (splitArgs rest cur).2, c = PIPE := by
  induction rest with
  | nil => intro cur _ c hc; simp [splitArgs] at hc
  | cons a rest ih =>
    intro cur h c hc
    have hrest : ∀ t ∈ rest, isFileRedirect t = false :=
      fun t ht => h t (List.mem_cons_of_mem _ ht)
    have hfa : isFileRedirect a = false := h a (List.mem_cons_self _ _)
    by_cases ha : isRedirect a = true
    · simp only [splitArgs, if_pos ha, List.mem_append] at hc
      rcases hc with hc | hc
      · rcases isRedirect_cases a ha with h1 | h1 | h1
        · rw [h1] at hfa; simp [isFileRedirect] at hfa
        · rw [h1] at hfa; simp [isFileRedirect] at hfa
        · rw [h1] at hc; simpa using hc
      · exact ih [] hrest c hc
    · simp only [splitArgs, if_neg ha] at hc
      exact ih _ hrest c hc

theorem splitArgs_nonempty (rest : List Token) :
    ∀ cur, (cur = [] → ∃ a r, rest = a :: r ∧ isRedirect a = false) →
      rest.Chain' (fun a b => ¬ (isRedirect a = true ∧ isRedirect b = true)) →
      (∀ h : rest ≠ [], isRedirect (rest.getLast h) = false) →
      ∀ seg ∈ (splitArgs rest cur).1, seg ≠ [] := by
  induction rest with
  | nil =>
    intro cur hcur _ _ seg hseg
    simp only [splitArgs, List.mem_singleton] at hseg
    subst hseg
    intro h
    obtain ⟨a, r, h1, _⟩ := hcur h
    cases h1
  | cons a rest ih =>
    intro cur hcur hchain hlast seg hseg
    have hchain' : rest.Chain' (fun a b => ¬ (isRedirect a = true ∧ isRedirect b = true)) :=
      (List.chain'_cons'.1 hchain).2
    have hlast' : ∀ h : rest ≠ [], isRedirect (rest.getLast h) = false := by
      intro h
      have := hlast (List.cons_ne_nil _ _)
      rwa [List.getLast_cons h] at this
    by_cases ha : isRedirect a = true
    · simp only [splitArgs, if_pos ha, List.mem_cons] at hseg
      rcases hseg with hseg | hseg
      · subst hseg
        intro h
        obtain ⟨a', r, h1, h2⟩ := hcur h
        simp only [List.cons.injEq] at h1
        rw [← h1.1, ha] at h2
        cases h2
      · refine ih [] ?_ hchain' hlast' seg hseg
        intro _
        cases rest with
        | nil =>
          have := hlast (List.cons_ne_nil _ _)
          simp only [List.getLast_singleton] at this
          rw [ha] at this; cases this
        | cons b r =>
          refine ⟨b, r, rfl, ?_⟩
          have := (List.chain'_cons.1 hchain).1
          cases hb : isRedirect b
          · rfl
          · exact absurd ⟨ha, hb⟩ this
    · simp only [splitArgs, if_neg ha] at hseg
      exact ih (cur ++ [a]) (by intro h; simp at h) hchain' hlast' seg hseg

theorem splitArgs_mem (rest : List Token) :
    ∀ cur seg, seg ∈ (splitArgs rest cur).1 → ∀ x ∈ seg, x ∈ cur ∨ x ∈ rest := by
  induction rest with
  | nil =>
    intro cur seg hseg x hx
    simp only [splitArgs, List.mem_singleton] at hseg
    subst hseg
    exact Or.inl hx
  | cons a rest ih =>
    intro cur seg hseg x hx
    by_cases ha : isRedirect a = true
    · simp only [splitArgs, if_pos ha, List.mem_cons] at hseg
      rcases hseg with hseg | hseg
      · subst hseg; exact Or.inl hx
      · rcases ih [] seg hseg x hx with h | h
        · cases h
        · exact Or.inr (List.mem_cons_of_mem _ h)
    · simp only [splitArgs, if_neg ha] at hseg
      rcases ih _ seg hseg x hx with h | h
      · rcases List.mem_append.1 h with h | h
        · exact Or.inl h
        · simp only [List.mem_singleton] at h
          subst h
          exact Or.inr (List.mem_cons_self _ _)
      · exact Or.inr (List.mem_cons_of_mem _ h)

/-- Claim C14: for every token sequence accepted by `checkValidArgs`, every Parameter
built by `argsToParameterList` has at least one argument, and its
`parameterName` is its first argument, a token of the sequence (never the
`NULL` terminator). -/
theorem parameters_have_arguments (toks : List Token)
    (hok : checkValidArgs toks (toks.length : Nat) = some .NO_ERRORS) :
    ∀ p ∈ (argsToParameterList toks (countParameters toks)).1,
      p.arguments ≠ [] ∧
      ∃ t, p.parameterName = some t ∧ p.arguments.head? = some t ∧ t ∈ toks := by
  obtain ⟨first, rest, rfl, _, hfirst, hlast, hchain, _⟩ := checkValidArgs_ok_facts toks hok
  intro p hp
  rw [argsToParameterList_eq] at hp
  simp only [List.mem_map] at hp
  obtain ⟨seg, hseg, rfl⟩ := hp
  have hne : seg ≠ [] :=
    splitArgs_nonempty (first :: rest) [] (fun _ => ⟨first, rest, rfl, hfirst⟩) hchain
      (fun _ => hlast) seg hseg
  obtain ⟨t, seg', rfl⟩ := List.exists_cons_of_ne_nil hne
  refine ⟨by simp [mkParam], t, by simp [mkParam], by simp [mkParam], ?_⟩
  rcases splitArgs_mem (first :: rest) [] _ hseg t (List.mem_cons_self _ _) with h | h
  · cases h
  · exact h

/-- The rule of C14 at the tokens of `ls | wc -l > out`. -/
theorem parameters_have_arguments_witness :
    checkValidArgs ["ls".toList, "|".toList, "wc".toList, "-l".toList, ">".toList, "out".toList]
      6 = some .NO_ERRORS ∧
    ∀ p ∈ (argsToParameterList
        ["ls".toList, "|".toList, "wc".toList, "-l".toList, ">".toList, "out".toList]
        (countParameters
          ["ls".toList, "|".toList, "wc".toList, "-l".toList, ">".toList, "out".toList])).1,
      p.arguments ≠ [] ∧
      ∃ t, p.parameterName = some t ∧ p.arguments.head? = some t ∧
        t ∈ ["ls".toList, "|".toList, "wc".toList, "-l".toList, ">".toList, "out".toList] :=
  ⟨by decide,
   parameters_have_arguments
     ["ls".toList, "|".toList, "wc".toList, "-l".toList, ">".toList, "out".toList]
     (by decide)⟩

theorem pairwise_filter_le_one (l : List Token)
    (h : l.Pairwise (fun a b => isFileRedirect a = true → isRedirect b = false)) :
    (l.filter isFileRedirect).length ≤ 1 := by
  induction l with
  | nil => simp
  | cons x l ih =>
    rw [List.pairwise_cons] at h
    by_cases hx : isFileRedirect x = true
    · have : l.filter isFileRedirect = [] := by
        rw [List.filter_eq_nil_iff]
        intro y hy hfy
        have := h.1 y hy hx
        rw [isFileRedirect_imp y hfy] at this
        cases this
      simp [List.filter_cons, hx, this]
    · simp only [List.filter_cons, hx, if_false, Bool.false_eq_true]
      exact ih h.2

theorem splitArgs_no_op_redirects (rest : List Token) :
    ∀ cur, (∀ t ∈ rest, isRedirect t = false) → (splitArgs rest cur).2 = [] := by
  intro cur h
  rw [splitArgs_no_op rest cur h]

theorem splitArgs_file_last (rest : List Token) :
    ∀ cur, rest.Pairwise (fun a b => isFileRedirect a = true → isRedirect b = false) →
      ∀ (i : Nat) (c : Char), (splitArgs rest cur).2[i]? = some c →
        (c = OVERWRITE ∨ c = APPEND) → i + 1 = (splitArgs rest cur).2.length := by
  induction rest with
  | nil => intro cur _ i c h; simp [splitArgs] at h
  | cons a rest ih =>
    intro cur hp i c h hc
    rw [List.pairwise_cons] at hp
    by_cases ha : isRedirect a = true
    · simp only [splitArgs, if_pos ha] at h ⊢
      obtain ⟨c0, hc0⟩ : ∃ c0, a = [c0] := by
        rcases isRedirect_cases a ha with h1 | h1 | h1 <;> exact ⟨_, h1⟩
      subst hc0
      simp only [List.take_succ_cons, List.take_zero, List.singleton_append] at h ⊢
      cases i with
      | zero =>
        simp only [List.getElem?_cons_zero, Option.some.injEq] at h
        subst h
        have hf : isFileRedirect [c0] = true := by
          rcases hc with h1 | h1 <;> subst h1 <;> decide
        rw [splitArgs_no_op_redirects rest [] (fun t ht => hp.1 t ht hf)]
        simp
      | succ j =>
        simp only [List.getElem?_cons_succ] at h
        have := ih [] hp.2 j c h hc
        simp only [List.length_cons]
        omega
    · simp only [splitArgs, if_neg ha] at h ⊢
      exact ih _ hp.2 i c h hc

/-- Claim C16: for every token sequence accepted by `checkValidArgs`, at most one
file-redirect operator occurs and it is the last operator: no operator follows
it and every operator before it is a pipe. In the string of redirect
characters that `argsToParameterList` builds, a file-redirect character can
only stand at index `parameterCount - 2`, the one `main` inspects. -/
theorem file_redirect_is_last_operator (toks : List Token)
    (hok : checkValidArgs toks (toks.length : Nat) = some .NO_ERRORS) :
    (toks.filter isFileRedirect).length ≤ 1 ∧
    (∀ a t b, toks = a ++ t :: b → isFileRedirect t = true →
      (∀ x ∈ b, isRedirect x = false) ∧ (∀ x ∈ a, isRedirect x = true → isPipe x = true)) ∧
    (∀ (i : Nat) (c : Char),
      (argsToParameterList toks (countParameters toks)).2[i]? = some c →
      (c = OVERWRITE ∨ c = APPEND) → (i : Int) = countParameters toks - 2) := by
  obtain ⟨first, rest, rfl, _, hfirst, _, _, hpair⟩ := checkValidArgs_ok_facts toks hok
  have hF : isFileRedirect first = false := by
    cases h : isFileRedirect first
    · rfl
    · rw [isFileRedirect_imp first h] at hfirst; cases hfirst
  have hp : (first :: rest).Pairwise
      (fun a b => isFileRedirect a = true → isRedirect b = false) := by
    rw [List.pairwise_cons]
    exact ⟨fun x _ h => (by rw [hF] at h; cases h), hpair⟩
  refine ⟨pairwise_filter_le_one _ hp, ?_, ?_⟩
  · intro a t b hsplit ht
    rw [hsplit, List.pairwise_append] at hp
    obtain ⟨_, htb, hcross⟩ := hp
    rw [List.pairwise_cons] at htb
    refine ⟨fun x hx => htb.1 x hx ht, ?_⟩
    intro x hx hrx
    have hnf : isFileRedirect x = false := by
      cases h : isFileRedirect x
      · rfl
      · have := hcross x hx t (List.mem_cons_self _ _) h
        rw [isFileRedirect_imp t ht] at this
        cases this
    have := isRedirect_eq x
    rw [hrx, hnf] at this
    simpa using this.symm
  · intro i c hget hc
    rw [argsToParameterList_eq] at hget
    simp only at hget
    have h1 := splitArgs_file_last (first :: rest) [] hp i c hget hc
    have h2 := splitArgs_redirects_length (first :: rest) []
    unfold countParameters
    omega

/-- The rule of C16 at the tokens of `ls | wc > out`. -/
theorem file_redirect_is_last_operator_witness :
    checkValidArgs ["ls".toList, "|".toList, "wc".toList, ">".toList, "out".toList] 5
      = some .NO_ERRORS ∧
    (["ls".toList, "|".toList, "wc".toList, ">".toList, "out".toList].filter
      isFileRedirect).length ≤ 1 ∧
    (argsToParameterList ["ls".toList, "|".toList, "wc".toList, ">".toList, "out".toList]
      (countParameters ["ls".toList, "|".toList, "wc".toList, ">".toList, "out".toList])).2
      = [PIPE, OVERWRITE] :=
  ⟨by decide,
   (file_redirect_is_last_operator
     ["ls".toList, "|".toList, "wc".toList, ">".toList, "out".toList] (by decide)).1,
   by decide⟩

theorem pairwise_split_facts (a b : List Token) (t : Token)
    (hp : (a ++ t :: b).Pairwise (fun a b => isFileRedirect a = true → isRedirect b = false))
    (ht : isFileRedirect t = true) :
    (∀ x ∈ b, isRedirect x = false) ∧ (∀ x ∈ a, isFileRedirect x = false) := by
  rw [List.pairwise_append] at hp
  obtain ⟨_, htb, hcross⟩ := hp
  rw [List.pairwise_cons] at htb
  refine ⟨fun x hx => htb.1 x hx ht, ?_⟩
  intro x hx
  cases h : isFileRedirect x
  · rfl
  · have := hcross x hx t (List.mem_cons_self _ _) h
    rw [isFileRedirect_imp t ht] at this
    cases this

theorem checkValidArgs_ok_pairwise (toks : List Token)
    (hok : checkValidArgs toks (toks.length : Nat) = some .NO_ERRORS) :
    ∃ hne : toks ≠ [], isRedirect (toks.getLast hne) = false ∧
      toks.Pairwise (fun a b => isFileRedirect a = true → isRedirect b = false) := by
  obtain ⟨first, rest, rfl, _, hfirst, hlast, _, hpair⟩ := checkValidArgs_ok_facts toks hok
  have hF : isFileRedirect first = false := by
    cases h : isFileRedirect first
    · rfl
    · rw [isFileRedirect_imp first h] at hfirst; cases hfirst
  refine ⟨List.cons_ne_nil _ _, hlast, ?_⟩
  rw [List.pairwise_cons]
  exact ⟨fun x _ h => (by rw [hF] at h; cases h), hpair⟩

theorem filter_isRedirect_eq_isPipe (l : List Token) (h : ∀ t ∈ l, isFileRedirect t = false) :
    (l.filter isRedirect).length = l.countP isPipe := by
  rw [List.countP_eq_length_filter]
  congr 1
  apply List.filter_congr
  intro x hx
  rw [isRedirect_eq, h x hx]
  simp

theorem readRedirect_last (r : List Char) (c : Char) (n : Int) (hn : n = (r.length : Nat)) :
    readRedirect (r ++ [c]) n = c := by
  unfold readRedirect
  have h0 : ¬ n < 0 := by omega
  have h1 : n.toNat = r.length := by omega
  rw [if_neg h0, h1]
  simp [List.getD]

theorem planOutput_stdout (parameters : List Parameter) (r : List Char) (n : Int)
    (hn : n = (r.length : Nat) + 1) (hr : ∀ c ∈ r, c = PIPE) :
    planOutput parameters r n
      = { outputMode := .WRITE_TO_STDOUT, outputFile := none, parameterCount := n } := by
  have key : (if n > 1 then
      if readRedirect r (n - 2) = APPEND then OutputOptions.APPEND_TO_FILE
      else if readRedirect r (n - 2) = OVERWRITE then OutputOptions.WRITE_TO_FILE
      else OutputOptions.WRITE_TO_STDOUT
    else OutputOptions.WRITE_TO_STDOUT) = OutputOptions.WRITE_TO_STDOUT := by
    by_cases h1 : n > 1
    · rw [if_pos h1]
      rcases List.eq_nil_or_concat r with h | ⟨r', c, h⟩
      · subst h; simp at hn; omega
      · subst h
        have hc : c = PIPE := hr c (by simp)
        have : readRedirect (r' ++ [c]) (n - 2) = c :=
          readRedirect_last r' c (n - 2) (by simp at hn; omega)
        rw [List.concat_eq_append, this, hc, if_neg (by decide), if_neg (by decide)]
    · rw [if_neg h1]
  unfold planOutput
  simp only [key, ne_eq, not_true_eq_false, if_false]

theorem planOutput_file (parameters : List Parameter) (r : List Char) (c : Char) (n : Int)
    (hn : n = (r.length : Nat) + 2) (hc : c = OVERWRITE ∨ c = APPEND) :
    planOutput parameters (r ++ [c]) n
      = { outputMode := if c = APPEND then .APPEND_TO_FILE else .WRITE_TO_FILE,
          outputFile := (parameters[r.length + 1]?).bind (fun p => p.parameterName),
          parameterCount := (r.length : Nat) + 1 } := by
  have h1 : n > 1 := by omega
  have hread : readRedirect (r ++ [c]) (n - 2) = c := readRedirect_last r c (n - 2) (by omega)
  have hidx : (n - 1).toNat = r.length + 1 := by omega
  have hcnt : n - 1 = (r.length : Nat) + 1 := by omega
  unfold planOutput
  simp only [if_pos h1, hread, hidx, hcnt]
  have hne : OVERWRITE ≠ APPEND := by decide
  rcases hc with hc | hc <;> subst hc <;> simp [hne]

/-- The plan of `main` for an accepted token sequence, without and with a file-redirect
operator. -/
theorem plan_of_accepted :
    ∀ toks : List Token, checkValidArgs toks (toks.length : Nat) = some .NO_ERRORS →
      ((∀ t ∈ toks, isFileRedirect t = false) →
        ((argsToParameterList toks (countParameters toks)).1.length = toks.countP isPipe + 1 ∧
         planOutput (argsToParameterList toks (countParameters toks)).1
            (argsToParameterList toks (countParameters toks)).2 (countParameters toks)
          = { outputMode := .WRITE_TO_STDOUT, outputFile := none,
              parameterCount := (toks.countP isPipe : Nat) + 1 })) ∧
      (∀ op ∈ toks, isFileRedirect op = true →
        ∃ a w b, toks = a ++ op :: w :: b ∧ isRedirect w = false ∧
          (argsToParameterList toks (countParameters toks)).1.length
            = toks.countP isPipe + 2 ∧
          (argsToParameterList toks (countParameters toks)).1[toks.countP isPipe + 1]?
            = some (mkParam (w :: b)) ∧
          planOutput (argsToParameterList toks (countParameters toks)).1
              (argsToParameterList toks (countParameters toks)).2 (countParameters toks)
            = { outputMode := if op = [APPEND] then .APPEND_TO_FILE else .WRITE_TO_FILE,
                outputFile := some w,
                parameterCount := (toks.countP isPipe : Nat) + 1 }) := by
  intro toks hok
  obtain ⟨hne, hlast', hp⟩ := checkValidArgs_ok_pairwise toks hok
  rw [argsToParameterList_eq]
  simp only
  constructor
  · intro hnf
    have hlen := splitArgs_redirects_length toks []
    have hseg := splitArgs_segments_length toks []
    have hcnt := filter_isRedirect_eq_isPipe toks hnf
    refine ⟨by rw [List.length_map]; omega, ?_⟩
    have := planOutput_stdout ((splitArgs toks []).1.map mkParam) (splitArgs toks []).2
      (countParameters toks) (by unfold countParameters; omega)
      (splitArgs_pipes toks [] hnf)
    rw [this]
    unfold countParameters
    congr 1
    omega
  · intro op hop hfop
    obtain ⟨a, b', hsplit⟩ := List.append_of_mem hop
    obtain ⟨hb, ha⟩ := pairwise_split_facts a b' op (by rw [← hsplit]; exact hp) hfop
    cases b' with
    | nil =>
      exfalso
      have : toks.getLast hne = op := by
        subst hsplit; simp
      rw [this, isFileRedirect_imp op hfop] at hlast'
      cases hlast'
    | cons w b =>
      refine ⟨a, w, b, hsplit, hb w (List.mem_cons_self _ _), ?_⟩
      have hrop : isRedirect op = true := isFileRedirect_imp op hfop
      have hsp : splitArgs toks [] = ((splitArgs a []).1 ++ [w :: b],
          (splitArgs a []).2 ++ op.take 1) := by
        rw [hsplit, splitArgs_append_op a [] op (w :: b) hrop, splitArgs_no_op (w :: b) [] hb]
        simp
      obtain ⟨c0, hc0, hcc⟩ : ∃ c0, op = [c0] ∧ (c0 = OVERWRITE ∨ c0 = APPEND) := by
        rcases isFileRedirect_cases op hfop with h | h
        · exact ⟨_, h, Or.inl rfl⟩
        · exact ⟨_, h, Or.inr rfl⟩
      have hpa : toks.countP isPipe = ((splitArgs a []).2).length := by
        have h1 : isPipe op = false := by
          subst hc0; rcases hcc with h | h <;> subst h <;> decide
        have h2 : (op :: w :: b).countP isPipe = 0 := by
          rw [List.countP_eq_zero]
          intro x hx hpx
          rcases List.mem_cons.1 hx with hx | hx
          · rw [hx, h1] at hpx; cases hpx
          · have := isRedirect_eq x
            rw [hb x hx, hpx] at this
            simp at this
        rw [splitArgs_redirects_length, filter_isRedirect_eq_isPipe a ha, hsplit,
          List.countP_append, h2, Nat.add_zero]
      have hsegA := splitArgs_segments_length a []
      have hlenA := splitArgs_redirects_length a []
      have hcount : countParameters toks = (((splitArgs a []).2).length : Nat) + 2 := by
        unfold countParameters
        have := splitArgs_redirects_length toks []
        rw [hsp] at this
        subst hc0
        simp at this
        omega
      rw [hsp]
      subst hc0
      simp only [List.take_succ_cons, List.take_zero]
      rw [planOutput_file _ _ c0 _ hcount hcc]
      have hget : (List.map mkParam ((splitArgs a []).1 ++ [w :: b]))[
          ((splitArgs a []).2).length + 1]? = some (mkParam (w :: b)) := by
        rw [List.map_append, List.getElem?_append_right (by simp; omega)]
        simp only [List.length_map, List.map_cons, List.map_nil]
        rw [show (splitArgs a []).2.length + 1 - (splitArgs a []).1.length = 0 by omega]
        rfl
      refine ⟨by simp; omega, by rw [hpa]; exact hget, ?_⟩
      rw [hget, hpa]
      have hmode : (c0 = APPEND) ↔ ([c0] = [APPEND]) := by simp
      simp only [Option.some_bind, mkParam, List.head?_cons, hmode]

/-- Claim C15: for every accepted token sequence with `p` pipe tokens, `main` plans a
pipeline of `p + 1` stages. Without a file-redirect operator the output mode
is `WRITE_TO_STDOUT` and there is no output file. With one, the array has
`p + 2` Parameters, the last of which is left out of the stages; the mode is
`WRITE_TO_FILE` for `>` and `APPEND_TO_FILE` for the Append marker, and the
output file is the token that directly follows the operator. The line
`echo hi | wc -l` gives two stages and no file, the line `ls > out.txt` one
stage and the file `out.txt` in mode `WRITE_TO_FILE`. -/
theorem pipeline_plan :
    (∀ toks : List Token, checkValidArgs toks (toks.length : Nat) = some .NO_ERRORS →
      ((∀ t ∈ toks, isFileRedirect t = false) →
        ((argsToParameterList toks (countParameters toks)).1.length = toks.countP isPipe + 1 ∧
         planOutput (argsToParameterList toks (countParameters toks)).1
            (argsToParameterList toks (countParameters toks)).2 (countParameters toks)
          = { outputMode := .WRITE_TO_STDOUT, outputFile := none,
              parameterCount := (toks.countP isPipe : Nat) + 1 })) ∧
      (∀ op ∈ toks, isFileRedirect op = true →
        ∃ a w b, toks = a ++ op :: w :: b ∧ isRedirect w = false ∧
          (argsToParameterList toks (countParameters toks)).1.length
            = toks.countP isPipe + 2 ∧
          (argsToParameterList toks (countParameters toks)).1[toks.countP isPipe + 1]?
            = some (mkParam (w :: b)) ∧
          planOutput (argsToParameterList toks (countParameters toks)).1
              (argsToParameterList toks (countParameters toks)).2 (countParameters toks)
            = { outputMode := if op = [APPEND] then .APPEND_TO_FILE else .WRITE_TO_FILE,
                outputFile := some w,
                parameterCount := (toks.countP isPipe : Nat) + 1 })) ∧
    mainDispatch "echo hi | wc -l".toList
      = .pipeline [mkParam ["echo".toList, "hi".toList], mkParam ["wc".toList, "-l".toList]]
          { outputMode := .WRITE_TO_STDOUT, outputFile := none, parameterCount := 2 } ∧
    mainDispatch "ls > out.txt".toList
      = .pipeline [mkParam ["ls".toList], mkParam ["out.txt".toList]]
          { outputMode := .WRITE_TO_FILE, outputFile := some "out.txt".toList,
            parameterCount := 1 } ∧
    mainDispatch "ls | wc >> log".toList
      = .pipeline [mkParam ["ls".toList], mkParam ["wc".toList], mkParam ["log".toList]]
          { outputMode := .APPEND_TO_FILE, outputFile := some "log".toList,
            parameterCount := 2 } :=
  ⟨plan_of_accepted, by decide, by decide, by decide⟩

/-- The rule of C15 at the tokens of `ls | wc > out`, which hold one pipe and, after
it, the file redirect `>`. -/
theorem pipeline_plan_witness :
    checkValidArgs ["ls".toList, "|".toList, "wc".toList, ">".toList, "out".toList] 5
      = some .NO_ERRORS ∧
    ∃ a w b,
      ["ls".toList, "|".toList, "wc".toList, ">".toList, "out".toList]
        = a ++ ">".toList :: w :: b ∧ isRedirect w = false ∧
      (argsToParameterList ["ls".toList, "|".toList, "wc".toList, ">".toList, "out".toList]
        (countParameters ["ls".toList, "|".toList, "wc".toList, ">".toList, "out".toList])
        ).1.length
        = ["ls".toList, "|".toList, "wc".toList, ">".toList, "out".toList].countP isPipe + 2 ∧
      (argsToParameterList ["ls".toList, "|".toList, "wc".toList, ">".toList, "out".toList]
        (countParameters ["ls".toList, "|".toList, "wc".toList, ">".toList, "out".toList])
        ).1[["ls".toList, "|".toList, "wc".toList, ">".toList, "out".toList].countP isPipe + 1]?
        = some (mkParam (w :: b)) ∧
      planOutput
        (argsToParameterList ["ls".toList, "|".toList, "wc".toList, ">".toList, "out".toList]
          (countParameters ["ls".toList, "|".toList, "wc".toList, ">".toList, "out".toList])).1
        (argsToParameterList ["ls".toList, "|".toList, "wc".toList, ">".toList, "out".toList]
          (countParameters ["ls".toList, "|".toList, "wc".toList, ">".toList, "out".toList])).2
        (countParameters ["ls".toList, "|".toList, "wc".toList, ">".toList, "out".toList])
        = { outputMode := if ">".toList = [APPEND] then .APPEND_TO_FILE else .WRITE_TO_FILE,
            outputFile := some w,
            parameterCount :=
              (["ls".toList, "|".toList, "wc".toList, ">".toList, "out".toList].countP isPipe
                : Nat) + 1 } :=
  ⟨by decide,
   (pipeline_plan.1 ["ls".toList, "|".toList, "wc".toList, ">".toList, "out".toList]
      (by decide)).2 ">".toList (by decide) (by decide)⟩

/-! ## The words of a line -/

theorem getSubstring_prefix (pre rest : List Char) (left : Nat) (h : left ≤ pre.length) :
    getSubstring (pre ++ rest) left pre.length = pre.drop left := by
  unfold getSubstring
  rw [List.drop_append_of_le_length h, List.take_append_of_le_length (by simp)]
  simp

theorem getSubstring_one (pre rest : List Char) (c : Char) :
    getSubstring (pre ++ c :: rest) pre.length (pre.length + 1) = [c] := by
  unfold getSubstring
  simp

theorem parseArgsLoop_eq_foldl (rest : List Char) :
    ∀ (pre : List Char) (left : Nat) (inQ curArg : Bool) (res : List Token),
      (curArg = true → left ≤ pre.length) →
      parseArgsLoop (pre ++ rest) rest pre.length left inQ curArg res
        = wordsOf (rest.foldl wordStep
            { inQuotation := inQ,
              cur := if curArg = true then some (pre.drop left) else none,
              res := res }) := by
  induction rest with
  | nil =>
    intro pre left inQ curArg res h
    cases curArg
    · simp [parseArgsLoop, wordsOf]
    · have := getSubstring_prefix pre [] left (h rfl)
      rw [List.append_nil] at this
      simp [parseArgsLoop, wordsOf, this]
  | cons c rest ih =>
    intro pre left inQ curArg res h
    have hlist : pre ++ c :: rest = (pre ++ [c]) ++ rest := by simp
    have hlen : (pre ++ [c]).length = pre.length + 1 := by simp
    have key : ∀ (left' : Nat) (inQ' curArg' : Bool) (res' : List Token),
        (curArg' = true → left' ≤ pre.length + 1) →
        parseArgsLoop (pre ++ c :: rest) rest (pre.length + 1) left' inQ' curArg' res'
          = wordsOf (rest.foldl wordStep
              { inQuotation := inQ',
                cur := if curArg' = true then some ((pre ++ [c]).drop left') else none,
                res := res' }) := by
      intro left' inQ' curArg' res' h'
      have := ih (pre ++ [c]) left' inQ' curArg' res' (by rw [hlen]; exact h')
      rw [hlen, ← hlist] at this
      exact this
    have hdrop : curArg = true → (pre ++ [c]).drop left = pre.drop left ++ [c] := by
      intro hc
      rw [List.drop_append_of_le_length (h hc)]
    have hdrop2 : (pre ++ [c]).drop pre.length = [c] := by simp
    have hsub : curArg = true → getSubstring (pre ++ c :: rest) left pre.length = pre.drop left :=
      fun hc => getSubstring_prefix pre (c :: rest) left (h hc)
    have hone := getSubstring_one pre rest c
    simp only [List.foldl_cons]
    conv_lhs => unfold parseArgsLoop
    by_cases hq : c = DQUOTE
    · subst hq
      simp only [if_true]
      rw [key left (!inQ) curArg res (fun hc => Nat.le_succ_of_le (h hc))]
      congr 2
      cases curArg
      · simp [wordStep]
      · simp [wordStep, hdrop rfl]
    · simp only [if_neg hq]
      by_cases hb : c = ' ' ∨ c = '\t'
      · simp only [if_pos hb]
        cases inQ
        · cases curArg
          · simp only [Bool.false_eq_true, if_false]
            rw [key left false false res (by intro hc; cases hc)]
            congr 2
            simp [wordStep, hq, hb]
          · simp only [Bool.false_eq_true, if_false, if_true]
            rw [key left false false _ (by intro hc; cases hc), hsub rfl]
            congr 2
            simp [wordStep, hq, hb]
        · simp only [if_true]
          rw [key left true curArg res (fun hc => Nat.le_succ_of_le (h hc))]
          congr 2
          cases curArg
          · simp [wordStep, hq, hb]
          · simp [wordStep, hq, hb, hdrop rfl]
      · simp only [if_neg hb]
        by_cases ho : c = PIPE ∨ c = OVERWRITE ∨ c = APPEND
        · simp only [if_pos ho]
          rw [key left inQ false _ (by intro hc; cases hc), hone]
          congr 2
          cases curArg
          · simp [wordStep, hq, hb, ho]
          · simp [wordStep, hq, hb, ho, hsub rfl]
        · simp only [if_neg ho]
          cases curArg
          · simp only [Bool.false_eq_true, if_false]
            rw [key pre.length inQ true res (fun _ => Nat.le_succ _)]
            congr 2
            simp [wordStep, hq, hb, ho, hdrop2]
          · simp only [if_true]
            rw [key left inQ true res (fun hc => Nat.le_succ_of_le (h hc))]
            congr 2
            simp [wordStep, hq, hb, ho, hdrop rfl]

theorem skipLeadingBlanks_spec (l : List Char) (res : List Token) :
    ∀ left, ∃ k, skipLeadingBlanks l left = left + k ∧ k ≤ l.length ∧
      (l.drop k).foldl wordStep { inQuotation := false, cur := none, res := res }
        = l.foldl wordStep { inQuotation := false, cur := none, res := res } := by
  induction l with
  | nil => intro left; exact ⟨0, by simp [skipLeadingBlanks], by simp, by simp⟩
  | cons c l ih =>
    intro left
    by_cases h : left < CMDLINE_MAX ∧ (c = ' ' ∨ c = '\t')
    · obtain ⟨k, hk1, hk2, hk3⟩ := ih (left + 1)
      refine ⟨k + 1, ?_, by simp; omega, ?_⟩
      · simp only [skipLeadingBlanks, if_pos h, hk1]; omega
      · have hq : c ≠ DQUOTE := by rcases h.2 with h' | h' <;> rw [h'] <;> decide
        simp only [List.drop_succ_cons, List.foldl_cons, hk3]
        congr 1
        simp [wordStep, hq, h.2]
    · exact ⟨0, by simp [skipLeadingBlanks, h], by simp, by simp⟩

theorem parseArgs_eq_foldl (cmd : List Char) (numArgs : Int) :
    parseArgs cmd numArgs
      = wordsOf (cmd.foldl wordStep { inQuotation := false, cur := none, res := [] }) := by
  obtain ⟨k, hk1, hk2, hk3⟩ := skipLeadingBlanks_spec cmd [] 0
  simp only [Nat.zero_add] at hk1
  unfold parseArgs
  simp only [hk1]
  have := parseArgsLoop_eq_foldl (cmd.drop k) (cmd.take k) k false false []
    (by intro h; cases h)
  rw [List.take_append_drop, List.length_take, Nat.min_eq_left hk2] at this
  rw [this]
  simp only [Bool.false_eq_true, if_false, hk3]

theorem getElem?_done_run (done rest : List Char) (r : Nat) :
    (done ++ (List.replicate r OVERWRITE ++ rest))[done.length + r]? = rest[0]? := by
  rw [getElem?_append_add]
  have := getElem?_append_add (List.replicate r OVERWRITE) rest 0
  simpa using this

theorem parseAppendsLoop_rewrite (rest : List Char) :
    ∀ (done : List Char) (r left fuel : Nat),
      rest.length ≤ fuel → (0 < r → left = done.length) →
      runCode rest r = .NO_ERRORS →
      parseAppendsLoop fuel (done ++ (List.replicate r OVERWRITE ++ rest)) (done.length + r)
          left (decide (0 < r))
        = (.NO_ERRORS, done ++ runRewrite rest r) := by
  induction rest with
  | nil =>
    intro done r left fuel _ _ _
    rw [parseAppendsLoop_end]
    · simp [runRewrite]
    · apply List.getElem?_eq_none; simp
  | cons c rest ih =>
    intro done r left fuel hfuel hleft hcode
    obtain ⟨fuel', rfl⟩ : ∃ f, fuel = f + 1 := ⟨fuel - 1, by simp at hfuel; omega⟩
    have hfuel' : rest.length ≤ fuel' := by simp at hfuel; omega
    have hget : (done ++ (List.replicate r OVERWRITE ++ c :: rest))[done.length + r]? = some c := by
      rw [getElem?_done_run]; simp
    by_cases hc : c = OVERWRITE
    · subst hc
      have hcode' : runCode rest (r + 1) = .NO_ERRORS := by
        simpa [runCode] using hcode
      have hlist : done ++ (List.replicate r OVERWRITE ++ OVERWRITE :: rest)
          = done ++ (List.replicate (r + 1) OVERWRITE ++ rest) := by
        rw [List.replicate_succ']; simp
      rcases Nat.eq_zero_or_pos r with h0 | hpos
      · subst h0
        have := ih done 1 done.length fuel' hfuel' (fun _ => rfl) hcode'
        simp only [Nat.lt_irrefl, decide_False]
        rw [parseAppendsLoop_open _ _ _ _ hget, hlist]
        simpa [runRewrite] using this
      · have hl := hleft hpos
        have := ih done (r + 1) left fuel' hfuel' (fun _ => hl) hcode'
        simp only [hpos, decide_True]
        rw [parseAppendsLoop_more _ _ _ _ hget, hlist]
        simpa [runRewrite, Nat.add_assoc] using this
    · rcases Nat.eq_zero_or_pos r with h0 | hpos
      · subst h0
        have hcode' : runCode rest 0 = .NO_ERRORS := by
          simpa [runCode, hc] using hcode
        have := ih (done ++ [c]) 0 left fuel' hfuel' (by intro h; omega) hcode'
        simp only [Nat.lt_irrefl, decide_False]
        rw [parseAppendsLoop_plain _ _ _ _ c hget hc]
        simpa [runRewrite, hc, pendingOut] using this
      · have hl := hleft hpos
        subst hl
        have hr2 : ¬ r > 2 := by
          intro h
          simp [runCode, hc, h] at hcode
        have hcode' : runCode rest 0 = .NO_ERRORS := by
          simpa [runCode, hc, hr2] using hcode
        simp only [hpos, decide_True]
        rw [parseAppendsLoop_close _ _ _ _ c hget hc]
        have hsub : done.length + r - done.length = r := by omega
        rw [hsub, if_neg hr2]
        by_cases h2 : r = 2
        · subst h2
          rw [if_pos rfl]
          have hset : ((done ++ (List.replicate 2 OVERWRITE ++ c :: rest)).set done.length
              APPEND).set (done.length + 1) ' ' = done ++ APPEND :: ' ' :: c :: rest := by
            have := set_two_append done (c :: rest) OVERWRITE OVERWRITE APPEND ' '
            rw [← this]
            rfl
          rw [hset]
          have := ih (done ++ [APPEND, ' ', c]) 0 done.length fuel' hfuel' (by intro h; omega)
            hcode'
          simp only [Nat.lt_irrefl, decide_False, List.replicate_zero, List.nil_append,
            List.append_assoc, List.cons_append, List.length_append, List.length_cons,
            List.length_nil, Nat.add_zero] at this
          simp only [runRewrite, if_neg hc, pendingOut, if_true]
          simpa [Nat.add_assoc] using this
        · have h1 : r = 1 := by omega
          subst h1
          rw [if_neg (by decide)]
          have := ih (done ++ [OVERWRITE, c]) 0 done.length fuel' hfuel' (by intro h; omega)
            hcode'
          simp only [Nat.lt_irrefl, decide_False, List.replicate_zero, List.nil_append,
            List.append_assoc, List.cons_append, List.length_append, List.length_cons,
            List.length_nil, Nat.add_zero] at this
          simp only [runRewrite, if_neg hc, pendingOut]
          simpa [Nat.add_assoc] using this

theorem parseAppends_code (cmd : List Char) : (parseAppends cmd).1 = runCode cmd 0 := by
  have := parseAppendsLoop_code cmd.length cmd 0 0 false (by omega) (by intro h; cases h)
  simpa [parseAppends] using this

theorem parseAppends_eq (cmd : List Char) (h : runCode cmd 0 = .NO_ERRORS) :
    parseAppends cmd = (.NO_ERRORS, runRewrite cmd 0) := by
  have := parseAppendsLoop_rewrite cmd [] 0 0 cmd.length (le_refl _) (by intro h; omega) h
  simpa [parseAppends] using this

/-- The tokenizer in terms of the three scans: no token sequence when `parseAppends`
reports an error or the number of double quotes is odd, the words of the
rewritten buffer otherwise. -/
theorem tokenize_eq (cmd : List Char) :
    tokenize cmd =
      if runCode cmd 0 ≠ .NO_ERRORS then none
      else if cmd.count DQUOTE % 2 = 1 then none
      else some (wordsOf ((runRewrite cmd 0).foldl wordStep
        { inQuotation := false, cur := none, res := [] })) := by
  by_cases h : runCode cmd 0 = .NO_ERRORS
  · have hq := parseAppends_count cmd
    rw [parseAppends_eq cmd h] at hq
    simp only at hq
    unfold tokenize
    rw [parseAppends_eq cmd h]
    simp only [ne_eq, not_true_eq_false, if_false, h, countArgs_sentinel_iff, hq,
      parseArgs_eq_foldl]
  · have h1 := parseAppends_code cmd
    unfold tokenize
    rcases hres : parseAppends cmd with ⟨code, buf⟩
    rw [hres] at h1
    simp only at h1
    subst h1
    simp [h]

theorem runCode_cons_ne (c : Char) (s : List Char) (r : Nat) (hc : c ≠ OVERWRITE) :
    runCode (c :: s) r = if r > 2 then .MISPLACED_REDIRECT else runCode s 0 := by
  simp [runCode, hc]

theorem runCode_collapse (s : List Char) :
    ∀ (inQ pb : Bool) (r : Nat), (pb = true → r = 0) →
      runCode (collapseBlanks s inQ pb) r = runCode s r := by
  induction s with
  | nil => intro inQ pb r _; simp [collapseBlanks]
  | cons c s ih =>
    intro inQ pb r hpb
    unfold collapseBlanks
    by_cases hq : c = DQUOTE
    · have hc : c ≠ OVERWRITE := by rw [hq]; decide
      rw [if_pos hq, runCode_cons_ne c _ r hc, runCode_cons_ne c _ r hc,
        ih (!inQ) false 0 (fun _ => rfl)]
    · rw [if_neg hq]
      by_cases hb : (c = ' ' ∨ c = '\t') ∧ inQ = false
      · have hc : c ≠ OVERWRITE := by rcases hb.1 with h | h <;> rw [h] <;> decide
        rw [if_pos hb]
        cases pb
        · simp only [Bool.false_eq_true, if_false]
          rw [runCode_cons_ne ' ' _ r (by decide), runCode_cons_ne c _ r hc,
            ih inQ true 0 (fun _ => rfl)]
        · have hr := hpb rfl
          subst hr
          simp only [if_true]
          rw [runCode_cons_ne c _ 0 hc, ih inQ true 0 (fun _ => rfl)]
          simp
      · rw [if_neg hb]
        by_cases hc : c = OVERWRITE
        · subst hc
          simp only [runCode, if_true]
          exact ih inQ false (r + 1) (by intro h; cases h)
        · rw [runCode_cons_ne c _ r hc, runCode_cons_ne c _ r hc,
            ih inQ false 0 (fun _ => rfl)]

theorem count_collapse (s : List Char) :
    ∀ (inQ pb : Bool), (collapseBlanks s inQ pb).count DQUOTE = s.count DQUOTE := by
  induction s with
  | nil => intro inQ pb; simp [collapseBlanks]
  | cons c s ih =>
    intro inQ pb
    unfold collapseBlanks
    by_cases hq : c = DQUOTE
    · rw [if_pos hq]
      simp only [List.count_cons, ih]
    · rw [if_neg hq]
      have hcq : (c == DQUOTE) = false := by simpa using hq
      by_cases hb : (c = ' ' ∨ c = '\t') ∧ inQ = false
      · rw [if_pos hb]
        cases pb
        · have hs : (' ' == DQUOTE) = false := by decide
          simp only [Bool.false_eq_true, if_false, List.count_cons, ih, hcq, hs]
        · simp only [if_true, List.count_cons, ih, hcq]
          simp
      · rw [if_neg hb]
        simp only [List.count_cons, ih]

theorem wordStep_inQuotation (st : WordState) (c : Char) (hc : c ≠ DQUOTE) :
    (wordStep st c).inQuotation = st.inQuotation := by
  unfold wordStep
  rw [if_neg hc]
  split
  · split
    · rfl
    · split <;> rfl
  · split <;> rfl

theorem foldl_wordStep_inQuotation (l : List Char) :
    ∀ st : WordState, (∀ c ∈ l, c ≠ DQUOTE) →
      (l.foldl wordStep st).inQuotation = st.inQuotation := by
  induction l with
  | nil => intro st _; rfl
  | cons c l ih =>
    intro st h
    rw [List.foldl_cons, ih _ (fun x hx => h x (List.mem_cons_of_mem _ hx)),
      wordStep_inQuotation st c (h c (List.mem_cons_self _ _))]

theorem pendingOut_no_quote (r : Nat) : ∀ c ∈ pendingOut r, c ≠ DQUOTE := by
  intro c hc
  unfold pendingOut at hc
  split at hc
  · simp only [List.mem_cons, List.mem_singleton, List.mem_nil_iff, or_false] at hc
    rcases hc with h | h <;> rw [h] <;> decide
  · rw [List.eq_of_mem_replicate hc]; decide

theorem wordStep_blank (st : WordState) (c : Char) (hb : c = ' ' ∨ c = '\t')
    (hq : st.inQuotation = false) :
    wordStep st c = { inQuotation := false, cur := none, res := wordsOf st } := by
  have hc : c ≠ DQUOTE := by rcases hb with h | h <;> rw [h] <;> decide
  unfold wordStep wordsOf
  rw [if_neg hc, if_pos hb, hq]
  simp only [Bool.false_eq_true, if_false]
  cases h : st.cur
  · cases st; simp_all
  · simp

/-- The words of the buffer that `parseAppends` leaves for the characters `s` after a
run of `r` characters `>`, scanned from the state `st`. -/
theorem foldl_runRewrite_cons_ne (c : Char) (s : List Char) (r : Nat) (st : WordState)
    (hc : c ≠ OVERWRITE) :
    (runRewrite (c :: s) r).foldl wordStep st
      = (runRewrite s 0).foldl wordStep (wordStep ((pendingOut r).foldl wordStep st) c) := by
  simp [runRewrite, hc, List.foldl_append]

theorem foldl_collapse (s : List Char) :
    ∀ (inQ pb : Bool) (r : Nat) (st : WordState), st.inQuotation = inQ →
      (pb = true → r = 0 ∧ st.cur = none ∧ inQ = false) →
      (runRewrite (collapseBlanks s inQ pb) r).foldl wordStep st
        = (runRewrite s r).foldl wordStep st := by
  induction s with
  | nil => intro inQ pb r st _ _; simp [collapseBlanks]
  | cons c s ih =>
    intro inQ pb r st hst hpb
    have hpend : ((pendingOut r).foldl wordStep st).inQuotation = inQ := by
      rw [foldl_wordStep_inQuotation _ _ (pendingOut_no_quote r), hst]
    unfold collapseBlanks
    by_cases hq : c = DQUOTE
    · have hc : c ≠ OVERWRITE := by rw [hq]; decide
      rw [if_pos hq, foldl_runRewrite_cons_ne c _ r st hc, foldl_runRewrite_cons_ne c _ r st hc]
      apply ih (!inQ) false 0
      · subst hq
        simp [wordStep, hpend]
      · intro h; cases h
    · rw [if_neg hq]
      by_cases hb : (c = ' ' ∨ c = '\t') ∧ inQ = false
      · have hc : c ≠ OVERWRITE := by rcases hb.1 with h | h <;> rw [h] <;> decide
        have hinq := hb.2
        subst hinq
        rw [if_pos hb, foldl_runRewrite_cons_ne c _ r st hc,
          wordStep_blank _ c hb.1 hpend]
        cases pb
        · simp only [Bool.false_eq_true, if_false]
          rw [foldl_runRewrite_cons_ne ' ' _ r st (by decide),
            wordStep_blank _ ' ' (Or.inl rfl) hpend]
          exact ih false true 0 _ rfl (fun _ => ⟨rfl, rfl, rfl⟩)
        · obtain ⟨hr, hcur, _⟩ := hpb rfl
          subst hr
          simp only [if_true]
          have hst' : WordState.mk false none (wordsOf ((pendingOut 0).foldl wordStep st))
              = st := by
            cases st
            simp_all [pendingOut, wordsOf]
          rw [hst']
          exact ih false true 0 st hst (fun _ => ⟨rfl, hcur, rfl⟩)
      · rw [if_neg hb]
        by_cases hc : c = OVERWRITE
        · subst hc
          simp only [runRewrite, if_true]
          exact ih inQ false (r + 1) st hst (by intro h; cases h)
        · rw [foldl_runRewrite_cons_ne c _ r st hc, foldl_runRewrite_cons_ne c _ r st hc]
          apply ih inQ false 0
          · rw [wordStep_inQuotation _ c hq, hpend]
          · intro h; cases h

theorem wordStep_nonempty (st : WordState) (c : Char)
    (h1 : ∀ t ∈ st.res, t ≠ []) (h2 : ∀ w, st.cur = some w → w ≠ []) :
    (∀ t ∈ (wordStep st c).res, t ≠ []) ∧ (∀ w, (wordStep st c).cur = some w → w ≠ []) := by
  unfold wordStep
  cases hcur : st.cur with
  | none =>
    split
    · simp [hcur]; exact h1
    · split
      · split
        · simp [hcur]; exact h1
        · simp [hcur]; exact h1
      · split
        · simp only [List.mem_append, List.mem_singleton]
          refine ⟨?_, by simp⟩
          intro t ht
          rcases ht with ht | ht
          · exact h1 t ht
          · rw [ht]; simp
        · simp; exact h1
  | some w =>
    have hw := h2 w hcur
    split
    · simp [hcur]; exact h1
    · split
      · split
        · simp [hcur]; exact h1
        · simp only [List.mem_append, List.mem_singleton]
          refine ⟨?_, by simp⟩
          intro t ht
          rcases ht with ht | ht
          · exact h1 t ht
          · rw [ht]; exact hw
      · split
        · simp only [List.mem_append, List.mem_singleton]
          refine ⟨?_, by simp⟩
          intro t ht
          rcases ht with (ht | ht) | ht
          · exact h1 t ht
          · rw [ht]; exact hw
          · rw [ht]; simp
        · simp; exact h1

theorem foldl_wordStep_nonempty (l : List Char) :
    ∀ st : WordState, (∀ t ∈ st.res, t ≠ []) → (∀ w, st.cur = some w → w ≠ []) →
      ∀ t ∈ wordsOf (l.foldl wordStep st), t ≠ [] := by
  induction l with
  | nil =>
    intro st h1 h2 t ht
    unfold wordsOf at ht
    simp only [List.foldl_nil] at ht
    cases hcur : st.cur with
    | none => rw [hcur] at ht; exact h1 t ht
    | some w =>
      rw [hcur] at ht
      simp only [List.mem_append, List.mem_singleton] at ht
      rcases ht with ht | ht
      · exact h1 t ht
      · rw [ht]; exact h2 w hcur
  | cons c l ih =>
    intro st h1 h2
    rw [List.foldl_cons]
    exact ih _ (wordStep_nonempty st c h1 h2).1 (wordStep_nonempty st c h1 h2).2

/-- Claim C12: replacing every run of spaces and tabs outside quotation by one space
leaves the result of the tokenizer unchanged, and no token that the tokenizer
emits is the empty string. -/
theorem blank_runs_collapse :
    (∀ line : List Char, tokenize (collapseBlanks line false false) = tokenize line) ∧
    (∀ (line : List Char) (toks : List Token), tokenize line = some toks →
      ∀ t ∈ toks, t ≠ []) ∧
    collapseBlanks "a \t  \"b  c\"  |d".toList false false = "a \"b  c\" |d".toList ∧
    tokenize "a \t  \"b  c\"  |d".toList
      = some ["a".toList, "b  c\"".toList, "|".toList, "d".toList] := by
  refine ⟨?_, ?_, by decide, by decide⟩
  · intro line
    rw [tokenize_eq, tokenize_eq, runCode_collapse line false false 0 (fun _ => rfl),
      count_collapse, foldl_collapse line false false 0 _ rfl (by intro h; cases h)]
  · intro line toks h t ht
    rw [tokenize_eq] at h
    split at h
    · cases h
    · split at h
      · cases h
      · simp only [Option.some.injEq] at h
        subst h
        exact foldl_wordStep_nonempty _ _ (by simp) (by simp) t ht

/-- The rules of C12 at the line `ls   -l  |  wc`, which the tokenizer accepts. -/
theorem blank_runs_collapse_witness :
    tokenize "ls   -l \t|  wc".toList
      = some ["ls".toList, "-l".toList, "|".toList, "wc".toList] ∧
    tokenize (collapseBlanks "ls   -l \t|  wc".toList false false)
      = tokenize "ls   -l \t|  wc".toList ∧
    ∀ t ∈ ["ls".toList, "-l".toList, "|".toList, "wc".toList], t ≠ [] :=
  ⟨by decide, blank_runs_collapse.1 _,
   blank_runs_collapse.2.1 "ls   -l \t|  wc".toList _ (by decide)⟩

theorem wordStep_op (st : WordState) (c : Char) (hc : c = PIPE ∨ c = OVERWRITE ∨ c = APPEND) :
    wordStep st c = { inQuotation := st.inQuotation, cur := none, res := wordsOf st ++ [[c]] } := by
  have hq : c ≠ DQUOTE := by rcases hc with h | h | h <;> rw [h] <;> decide
  have hb : ¬ (c = ' ' ∨ c = '\t') := by rcases hc with h | h | h <;> rw [h] <;> decide
  unfold wordStep wordsOf
  rw [if_neg hq, if_neg hb, if_pos hc]

theorem wordStep_plain (st : WordState) (c : Char) (hc : PlainChar c) :
    wordStep st c
      = { inQuotation := st.inQuotation, cur := some (st.cur.getD [] ++ [c]), res := st.res } := by
  obtain ⟨h1, h2, h3, h4, h5, h6⟩ := hc
  unfold wordStep
  rw [if_neg h3, if_neg (by simp [h1, h2]), if_neg (by simp [h4, h5, h6])]
  cases st.cur <;> simp

theorem countArgsLoop_eq_foldl (l : List Char) :
    ∀ (st : WordState) (curArg : Bool) (n : Int),
      curArg = st.cur.isSome → n = (st.res.length : Nat) →
      countArgsLoop l st.inQuotation curArg n
        = if (l.foldl wordStep st).inQuotation = true then (-1 : Int)
          else (((wordsOf (l.foldl wordStep st)).length : Nat) : Int) := by
  induction l with
  | nil =>
    intro st curArg n h1 h2
    obtain ⟨inQ, cur, res⟩ := st
    cases cur <;> cases inQ <;> simp_all [countArgsLoop, wordsOf]
  | cons c l ih =>
    intro st curArg n h1 h2
    obtain ⟨inQ, cur, res⟩ := st
    simp only at h1 h2
    rw [List.foldl_cons]
    unfold countArgsLoop
    by_cases hq : c = DQUOTE
    · rw [if_pos hq]
      have hs : wordStep ⟨inQ, cur, res⟩ c = ⟨!inQ, cur.map (fun w => w ++ [c]), res⟩ := by
        simp [wordStep, hq]
      rw [hs]
      exact ih ⟨!inQ, cur.map (fun w => w ++ [c]), res⟩ curArg n (by simp [h1]) h2
    · rw [if_neg hq]
      by_cases hb : c = ' ' ∨ c = '\t'
      · rw [if_pos hb]
        cases inQ
        · rw [wordStep_blank _ c hb rfl]
          cases cur with
          | none =>
            simp only [Option.isSome_none] at h1
            subst h1
            simp only [Bool.false_eq_true, if_false]
            exact ih ⟨false, none, res⟩ false n rfl h2
          | some w =>
            simp only [Option.isSome_some] at h1
            subst h1
            simp only [Bool.false_eq_true, if_false, if_true]
            exact ih ⟨false, none, res ++ [w]⟩ false (n + 1) rfl (by simp [h2])
        · simp only [if_true]
          have hs : wordStep ⟨true, cur, res⟩ c = ⟨true, cur.map (fun w => w ++ [c]), res⟩ := by
            simp [wordStep, hq, hb]
          rw [hs]
          exact ih ⟨true, cur.map (fun w => w ++ [c]), res⟩ curArg n (by simp [h1]) h2
      · rw [if_neg hb]
        by_cases ho : c = PIPE ∨ c = OVERWRITE ∨ c = APPEND
        · rw [if_pos ho, wordStep_op _ c ho]
          cases cur with
          | none =>
            simp only [Option.isSome_none] at h1
            subst h1
            simp only [Bool.false_eq_true, if_false]
            exact ih ⟨inQ, none, res ++ [[c]]⟩ false (n + 1) rfl (by simp [h2])
          | some w =>
            simp only [Option.isSome_some] at h1
            subst h1
            simp only [if_true]
            exact ih ⟨inQ, none, res ++ [w] ++ [[c]]⟩ false (n + 1 + 1) rfl (by simp [h2]; omega)
        · rw [if_neg ho]
          have hp : PlainChar c := by
            simp only [not_or] at hb ho
            exact ⟨hb.1, hb.2, hq, ho.1, ho.2.1, ho.2.2⟩
          rw [wordStep_plain _ c hp]
          exact ih ⟨inQ, some (cur.getD [] ++ [c]), res⟩ true n rfl h2

theorem countArgs_eq_length (cmd : List Char) (numArgs : Int) (h : countArgs cmd ≠ -1) :
    countArgs cmd = ((parseArgs cmd numArgs).length : Nat) := by
  have := countArgsLoop_eq_foldl cmd ⟨false, none, []⟩ false 0 rfl rfl
  unfold countArgs at h ⊢
  simp only at this
  rw [this] at h ⊢
  split at h
  · exact absurd rfl h
  · rename_i hq
    rw [if_neg hq, parseArgs_eq_foldl]

/-- The `NO_ERRORS` path of `getParametersAndRedirects`: the tokenizer yields a token
sequence that `checkValidArgs` accepts, and the out-parameters are built from
it. -/
theorem getParametersAndRedirects_ok (line : List Char) (out : ParseOutput)
    (h : getParametersAndRedirects line = some (.NO_ERRORS, some out)) :
    ∃ toks, tokenize line = some toks ∧
      checkValidArgs toks (toks.length : Nat) = some .NO_ERRORS ∧
      out = { parameters := (argsToParameterList toks (countParameters toks)).1,
              redirects := (argsToParameterList toks (countParameters toks)).2,
              argArray := toks,
              parameterCount := countParameters toks } := by
  unfold getParametersAndRedirects at h
  unfold tokenize
  rcases hres : parseAppends line with ⟨code, buf⟩
  rw [hres] at h
  simp only at h ⊢
  by_cases hcode : code = .NO_ERRORS
  · subst hcode
    simp only [ne_eq, not_true_eq_false, if_false] at h ⊢
    by_cases hq : countArgs buf = -1
    · rw [if_pos hq] at h; simp at h
    · rw [if_neg hq] at h ⊢
      have hlen := countArgs_eq_length buf (countArgs buf) hq
      refine ⟨parseArgs buf (countArgs buf), rfl, ?_⟩
      cases hchk : checkValidArgs (parseArgs buf (countArgs buf)) (countArgs buf) with
      | none => rw [hchk] at h; simp at h
      | some r =>
        rw [hchk] at h
        simp only at h
        by_cases hr : r = .NO_ERRORS
        · subst hr
          simp only [ne_eq, not_true_eq_false, if_false, Option.some.injEq, Prod.mk.injEq,
            true_and] at h
          rw [hlen] at hchk
          exact ⟨hchk, h.symm⟩
        · rw [if_pos hr] at h
          simp only [Option.some.injEq, Prod.mk.injEq] at h
          exact absurd h.1 hr
  · rw [if_pos hcode] at h
    simp only [Option.some.injEq, Prod.mk.injEq] at h
    exact absurd h.1 hcode

theorem foldl_replicate_overwrite (r : Nat) :
    ∀ st : WordState, (List.replicate (r + 1) OVERWRITE).foldl wordStep st
      = { inQuotation := st.inQuotation, cur := none,
          res := wordsOf st ++ List.replicate (r + 1) [OVERWRITE] } := by
  induction r with
  | zero =>
    intro st
    simp [wordStep_op st OVERWRITE (Or.inr (Or.inl rfl))]
  | succ r ih =>
    intro st
    rw [List.replicate_succ, List.foldl_cons, ih,
      wordStep_op st OVERWRITE (Or.inr (Or.inl rfl))]
    simp [wordsOf, List.replicate_succ]

theorem foldl_pendingOut (r : Nat) (st : WordState) (hr : 0 < r)
    (hq : st.inQuotation = false) :
    (pendingOut r).foldl wordStep st
      = { inQuotation := false, cur := none, res := wordsOf st ++ pendingTokens r } := by
  unfold pendingOut pendingTokens
  by_cases h2 : r = 2
  · rw [if_pos h2, if_pos h2]
    simp only [List.foldl_cons, List.foldl_nil]
    rw [wordStep_op st APPEND (Or.inr (Or.inr rfl))]
    exact (wordStep_blank ⟨st.inQuotation, none, wordsOf st ++ [[APPEND]]⟩ ' ' (Or.inl rfl)
      hq).trans (by simp [wordsOf])
  · rw [if_neg h2, if_neg h2]
    obtain ⟨r', rfl⟩ : ∃ r', r = r' + 1 := ⟨r - 1, by omega⟩
    rw [foldl_replicate_overwrite, hq]

theorem pendingTokens_filter (r : Nat) :
    (pendingTokens r).filter (fun t => !isRedirect t) = [] := by
  rw [List.filter_eq_nil_iff]
  intro t ht
  unfold pendingTokens at ht
  split at ht
  · simp only [List.mem_singleton] at ht
    subst ht; decide
  · rw [List.eq_of_mem_replicate ht]; decide

theorem plain_word_not_redirect (w : List Char) (hw : ∀ c ∈ w, PlainChar c) :
    isRedirect w = false := by
  unfold isRedirect
  split
  · rename_i c
    have := hw c (List.mem_singleton_self c)
    obtain ⟨_, _, _, h4, h5, h6⟩ := this
    simp [h4, h5, h6]
  · rfl

theorem wordsOf_filter (st : WordState) (hcur : ∀ w, st.cur = some w → ∀ c ∈ w, PlainChar c) :
    (wordsOf st).filter (fun t => !isRedirect t)
      = st.res.filter (fun t => !isRedirect t) ++ st.cur.toList := by
  unfold wordsOf
  cases h : st.cur with
  | none => simp
  | some w =>
    simp [List.filter_append, plain_word_not_redirect w (hcur w h)]

theorem wordsOf_mk_none (q : Bool) (res : List Token) :
    wordsOf { inQuotation := q, cur := none, res := res } = res := rfl

theorem specWordsLoop_sep (c : Char) (s : List Char) (cur : Option (List Char))
    (hc : c = ' ' ∨ c = '\t' ∨ c = PIPE ∨ c = OVERWRITE) :
    specWordsLoop (c :: s) false cur = cur.toList ++ specWordsLoop s false none := by
  have hq : c ≠ DQUOTE := by rcases hc with h | h | h | h <;> rw [h] <;> decide
  conv_lhs => unfold specWordsLoop
  rw [if_neg hq, if_neg (by simp)]
  rcases hc with h | h | h | h
  · rw [if_pos (Or.inl h)]
  · rw [if_pos (Or.inr h)]
  · subst h
    rw [if_neg (by decide), if_pos (Or.inl rfl)]
  · subst h
    rw [if_neg (by decide), if_pos (Or.inr rfl)]

theorem specWordsLoop_plain (c : Char) (s : List Char) (cur : Option (List Char))
    (hc : PlainChar c) :
    specWordsLoop (c :: s) false cur = specWordsLoop s false (some (cur.getD [] ++ [c])) := by
  obtain ⟨h1, h2, h3, h4, h5, _⟩ := hc
  conv_lhs => unfold specWordsLoop
  rw [if_neg h3, if_neg (by simp), if_neg (by simp [h1, h2]), if_neg (by simp [h4, h5])]

theorem words_eq_spec (s : List Char) :
    ∀ (r : Nat) (st : WordState), (∀ c ∈ s, c ≠ DQUOTE ∧ c ≠ APPEND) →
      st.inQuotation = false →
      (∀ w, st.cur = some w → ∀ c ∈ w, PlainChar c) →
      (wordsOf ((runRewrite s r).foldl wordStep st)).filter (fun t => !isRedirect t)
        = st.res.filter (fun t => !isRedirect t) ++ (if r = 0 then [] else st.cur.toList)
          ++ specWordsLoop s false (if r = 0 then st.cur else none) := by
  induction s with
  | nil =>
    intro r st _ hq hcur
    simp only [runRewrite, specWordsLoop]
    rcases Nat.eq_zero_or_pos r with h0 | hpos
    · subst h0
      simp [wordsOf_filter st hcur]
    · obtain ⟨r', rfl⟩ : ∃ r', r = r' + 1 := ⟨r - 1, by omega⟩
      rw [foldl_replicate_overwrite]
      have hrep : (List.replicate (r' + 1) [OVERWRITE]).filter (fun t => !isRedirect t) = [] := by
        rw [List.filter_eq_nil_iff]
        intro t ht
        rw [List.eq_of_mem_replicate ht]; decide
      simp [wordsOf_mk_none, List.filter_append, hrep, wordsOf_filter st hcur]
  | cons c s ih =>
    intro r st hs hq hcur
    have hs' : ∀ x ∈ s, x ≠ DQUOTE ∧ x ≠ APPEND := fun x hx => hs x (List.mem_cons_of_mem _ hx)
    obtain ⟨hcq, hcn⟩ := hs c (List.mem_cons_self _ _)
    by_cases hc : c = OVERWRITE
    · subst hc
      simp only [runRewrite, if_true]
      rw [ih (r + 1) st hs' hq hcur]
      rw [specWordsLoop_sep OVERWRITE s _ (Or.inr (Or.inr (Or.inr rfl)))]
      rcases Nat.eq_zero_or_pos r with h0 | hpos
      · subst h0; simp
      · have hr0 : r ≠ 0 := by omega
        simp [hr0]
    · rw [foldl_runRewrite_cons_ne c s r st hc]
      -- the state after the pending run
      obtain ⟨st1, hst1, hq1, hres1, hcur1⟩ : ∃ st1 : WordState,
          (pendingOut r).foldl wordStep st = st1 ∧ st1.inQuotation = false ∧
          st1.res.filter (fun t => !isRedirect t)
            = st.res.filter (fun t => !isRedirect t) ++ (if r = 0 then [] else st.cur.toList) ∧
          st1.cur = (if r = 0 then st.cur else none) := by
        rcases Nat.eq_zero_or_pos r with h0 | hpos
        · subst h0
          exact ⟨st, by simp [pendingOut], hq, by simp, by simp⟩
        · have hr0 : r ≠ 0 := by omega
          refine ⟨_, foldl_pendingOut r st hpos hq, rfl, ?_, by simp [hr0]⟩
          simp [List.filter_append, pendingTokens_filter, wordsOf_filter st hcur, hr0]
      have hcur1' : ∀ w, st1.cur = some w → ∀ x ∈ w, PlainChar x := by
        intro w hw
        rw [hcur1] at hw
        split at hw
        · exact hcur w hw
        · cases hw
      rw [hst1]
      by_cases hb : c = ' ' ∨ c = '\t'
      · rw [wordStep_blank st1 c hb hq1, ih 0 _ hs' rfl (by intro w hw; cases hw)]
        have hsep : c = ' ' ∨ c = '\t' ∨ c = PIPE ∨ c = OVERWRITE := by
          rcases hb with h | h
          · exact Or.inl h
          · exact Or.inr (Or.inl h)
        rw [specWordsLoop_sep c s _ hsep]
        simp only [if_true, List.append_nil, wordsOf_filter st1 hcur1', hres1, hcur1]
        simp
      · by_cases ho : c = PIPE
        · subst ho
          rw [wordStep_op st1 PIPE (Or.inl rfl),
            ih 0 ⟨st1.inQuotation, none, wordsOf st1 ++ [[PIPE]]⟩ hs' hq1
              (by intro w hw; cases hw),
            specWordsLoop_sep PIPE s _ (Or.inr (Or.inr (Or.inl rfl)))]
          have hpipe : [[PIPE]].filter (fun t => !isRedirect t) = [] := by decide
          simp only [if_true, List.append_nil, List.filter_append, wordsOf_filter st1 hcur1',
            hres1, hcur1, hpipe]
          simp
        · have hp : PlainChar c := by
            simp only [not_or] at hb
            exact ⟨hb.1, hb.2, hcq, ho, hc, hcn⟩
          rw [wordStep_plain st1 c hp,
            ih 0 ⟨st1.inQuotation, some (st1.cur.getD [] ++ [c]), st1.res⟩ hs' hq1 (by
            intro w hw x hx
            simp only [Option.some.injEq] at hw
            subst hw
            rcases List.mem_append.1 hx with hx | hx
            · cases h : st1.cur with
              | none => rw [h] at hx; simp at hx
              | some w' =>
                rw [h] at hx
                exact hcur1' w' h x (by simpa using hx)
            · simp only [List.mem_singleton] at hx
              subst hx; exact hp)]
          rw [specWordsLoop_plain c s _ hp]
          simp only [if_true, List.append_nil, hres1, hcur1]

theorem splitArgs_flatten (rest : List Token) :
    ∀ cur, (splitArgs rest cur).1.flatten = cur ++ rest.filter (fun t => !isRedirect t) := by
  induction rest with
  | nil => intro cur; simp [splitArgs]
  | cons a rest ih =>
    intro cur
    by_cases ha : isRedirect a = true
    · simp [splitArgs, ha, ih]
    · simp [splitArgs, ha, ih]

theorem arguments_flatten (toks : List Token) (n : Int) :
    ((argsToParameterList toks n).1.map (fun p => p.arguments)).flatten
      = toks.filter (fun t => !isRedirect t) := by
  rw [argsToParameterList_eq]
  simp only [List.map_map]
  have : (fun p : Parameter => p.arguments) ∘ mkParam = id := by
    funext x; rfl
  rw [this, List.map_id, splitArgs_flatten]
  simp

theorem drop_last_of_length (l : List Parameter) (k : Nat) (p : Parameter)
    (hlen : l.length = k + 1) (hget : l[k]? = some p) : l.drop k = [p] := by
  obtain ⟨hlt, hp⟩ := List.getElem?_eq_some.mp hget
  rw [List.drop_eq_getElem_cons hlt, hp, List.drop_eq_nil_of_le (by omega)]

/-- Claim C17 fails as stated. The line `ls > a b` is accepted, its words are `ls`, `a`,
`b`, and the stage argument lists followed by the redirect target are `ls`,
`a`. The line `echo "a b"` is accepted, its words with quotes removed are
`echo`, `a b`, and the stage argument lists are `echo`, `a b"`. -/
theorem round_trip_counterexample :
    parseRetval "ls > a b".toList = some .NO_ERRORS ∧
    roundTrip "ls > a b".toList = some ["ls".toList, "a".toList] ∧
    specWords "ls > a b".toList = ["ls".toList, "a".toList, "b".toList] ∧
    roundTrip "ls > a b".toList ≠ some (specWords "ls > a b".toList) ∧
    parseRetval "echo \"a b\"".toList = some .NO_ERRORS ∧
    roundTrip "echo \"a b\"".toList = some ["echo".toList, "a b\"".toList] ∧
    specWords "echo \"a b\"".toList = ["echo".toList, "a b".toList] := by
  decide

/-- Claim C17, amended: for every accepted line without double quotes, the Parameters
are the stages followed, when there is a file redirect, by one Parameter whose
first argument is the redirect target; concatenating in order the argument
lists of the stages and then of that Parameter reproduces exactly the words
of the line; and when that Parameter has a single argument, the stage
argument lists followed by the redirect target reproduce them. -/
theorem round_trip_plain (line : List Char) (hq : DQUOTE ∉ line) (hn : APPEND ∉ line)
    (out : ParseOutput)
    (hok : getParametersAndRedirects line = some (.NO_ERRORS, some out)) :
    ((out.parameters.take (planOf out).parameterCount.toNat).map
        (fun p => p.arguments)).flatten
      ++ ((out.parameters.drop (planOf out).parameterCount.toNat).map
        (fun p => p.arguments)).flatten = specWords line ∧
    (((planOf out).outputFile = none ∧
        out.parameters.drop (planOf out).parameterCount.toNat = []) ∨
      ∃ p f, out.parameters.drop (planOf out).parameterCount.toNat = [p] ∧
        p.arguments.head? = some f ∧ (planOf out).outputFile = some f) ∧
    ((∀ p ∈ out.parameters.drop (planOf out).parameterCount.toNat, p.arguments.length = 1) →
      roundTrip line = some (specWords line)) := by
  obtain ⟨toks, htok, hchk, rfl⟩ := getParametersAndRedirects_ok line out hok
  have hwords : ((argsToParameterList toks (countParameters toks)).1.map
      (fun p => p.arguments)).flatten = specWords line := by
    rw [arguments_flatten]
    rw [tokenize_eq] at htok
    split at htok
    · cases htok
    · split at htok
      · cases htok
      · simp only [Option.some.injEq] at htok
        subst htok
        have := words_eq_spec line 0 ⟨false, none, []⟩
          (fun c hc => ⟨fun h => hq (h ▸ hc), fun h => hn (h ▸ hc)⟩) rfl
          (by intro w hw; cases hw)
        simpa [specWords] using this
  have hsplit : ∀ k : Nat,
      ((List.take k (argsToParameterList toks (countParameters toks)).1).map
        (fun p => p.arguments)).flatten
      ++ ((List.drop k (argsToParameterList toks (countParameters toks)).1).map
        (fun p => p.arguments)).flatten = specWords line := by
    intro k
    rw [← List.flatten_append, ← List.map_append, List.take_append_drop, hwords]
  have hplan := plan_of_accepted toks hchk
  have hcase : ((planOf
        { parameters := (argsToParameterList toks (countParameters toks)).1,
          redirects := (argsToParameterList toks (countParameters toks)).2,
          argArray := toks, parameterCount := countParameters toks }).outputFile = none ∧
        (argsToParameterList toks (countParameters toks)).1.drop (planOf
        { parameters := (argsToParameterList toks (countParameters toks)).1,
          redirects := (argsToParameterList toks (countParameters toks)).2,
          argArray := toks, parameterCount := countParameters toks }).parameterCount.toNat
          = []) ∨
      ∃ p f, (argsToParameterList toks (countParameters toks)).1.drop (planOf
        { parameters := (argsToParameterList toks (countParameters toks)).1,
          redirects := (argsToParameterList toks (countParameters toks)).2,
          argArray := toks, parameterCount := countParameters toks }).parameterCount.toNat
          = [p] ∧
        p.arguments.head? = some f ∧ (planOf
        { parameters := (argsToParameterList toks (countParameters toks)).1,
          redirects := (argsToParameterList toks (countParameters toks)).2,
          argArray := toks, parameterCount := countParameters toks }).outputFile = some f := by
    unfold planOf
    simp only
    by_cases hex : ∃ op ∈ toks, isFileRedirect op = true
    · obtain ⟨op, hop, hfop⟩ := hex
      obtain ⟨a, w, b, _, _, hlen, hget, hpl⟩ := hplan.2 op hop hfop
      right
      refine ⟨mkParam (w :: b), w, ?_, by simp [mkParam], by rw [hpl]⟩
      rw [hpl]
      simp only
      have : ((toks.countP isPipe : Nat) + 1 : Int).toNat = toks.countP isPipe + 1 := by omega
      rw [this]
      exact drop_last_of_length _ _ _ hlen hget
    · left
      have hnf : ∀ t ∈ toks, isFileRedirect t = false := by
        intro t ht
        cases h : isFileRedirect t
        · rfl
        · exact absurd ⟨t, ht, h⟩ hex
      obtain ⟨hlen, hpl⟩ := hplan.1 hnf
      rw [hpl]
      simp only
      have : ((toks.countP isPipe : Nat) + 1 : Int).toNat = toks.countP isPipe + 1 := by omega
      rw [this]
      exact ⟨trivial, List.drop_eq_nil_of_le (by omega)⟩
  refine ⟨hsplit _, hcase, ?_⟩
  intro hone
  unfold roundTrip
  rw [hok]
  simp only [Option.some.injEq]
  unfold reserialize
  rw [← hsplit (planOf
        { parameters := (argsToParameterList toks (countParameters toks)).1,
          redirects := (argsToParameterList toks (countParameters toks)).2,
          argArray := toks, parameterCount := countParameters toks }).parameterCount.toNat]
  unfold planOf at hcase hone ⊢
  simp only at hcase hone ⊢
  congr 1
  rcases hcase with ⟨h1, h2⟩ | ⟨p, f, h1, h2, h3⟩
  · rw [h1, h2]; rfl
  · rw [h1, h3]
    have hp := hone p (by rw [h1]; exact List.mem_singleton_self p)
    obtain ⟨x, hx⟩ := List.length_eq_one.1 hp
    rw [hx] at h2
    simp only [List.head?_cons, Option.some.injEq] at h2
    subst h2
    simp [hx]

/-- The amended round trip at the line `cat f | sort >> out`. -/
theorem round_trip_plain_witness :
    DQUOTE ∉ "cat f | sort >> out".toList ∧ APPEND ∉ "cat f | sort >> out".toList ∧
    roundTrip "cat f | sort >> out".toList
      = some ["cat".toList, "f".toList, "sort".toList, "out".toList] ∧
    specWords "cat f | sort >> out".toList
      = ["cat".toList, "f".toList, "sort".toList, "out".toList] ∧
    roundTrip "cat f | sort >> out".toList = some (specWords "cat f | sort >> out".toList) :=
  ⟨by decide, by decide, by decide, by decide,
   (round_trip_plain "cat f | sort >> out".toList (by decide) (by decide)
      { parameters := [mkParam ["cat".toList, "f".toList], mkParam ["sort".toList],
          mkParam ["out".toList]],
        redirects := [PIPE, APPEND],
        argArray := ["cat".toList, "f".toList, [PIPE], "sort".toList, [APPEND], "out".toList],
        parameterCount := 3 }
      (by decide)).2.2 (by decide)⟩

/-! ## The loop of `main` and the pipeline -/

theorem isEmptyCommand_cases (cmd : List Char) :
    isEmptyCommand cmd = 0 ∨ isEmptyCommand cmd = 1 := by
  induction cmd with
  | nil => right; rfl
  | cons c cmd ih =>
    unfold isEmptyCommand
    split
    · left; rfl
    · exact ih

theorem isEmptyCommand_iff (cmd : List Char) :
    isEmptyCommand cmd = 1 ↔ ∀ c ∈ cmd, c = ' ' ∨ c = '\t' := by
  induction cmd with
  | nil => simp [isEmptyCommand]
  | cons c cmd ih =>
    unfold isEmptyCommand
    by_cases h : c ≠ ' ' ∧ c ≠ '\t'
    · rw [if_pos h]
      constructor
      · intro h0; cases h0
      · intro hall
        have := hall c (List.mem_cons_self _ _)
        rcases this with h1 | h1
        · exact absurd h1 h.1
        · exact absurd h1 h.2
    · rw [if_neg h, ih]
      have hc : c = ' ' ∨ c = '\t' := by
        by_contra hn
        simp only [not_or] at hn
        exact h hn
      simp [hc]

theorem mainDispatch_skip_iff (cmd : List Char) :
    mainDispatch cmd = .skip ↔ isEmptyCommand cmd = 1 := by
  unfold mainDispatch
  rcases isEmptyCommand_cases cmd with h | h
  · rw [h]
    simp only [ne_eq, not_true_eq_false, if_false]
    constructor
    · intro hd
      exfalso
      revert hd
      split
      · simp
      · split
        · simp
        · split
          · simp
          · split
            · simp
            · split
              · simp
              · split
                · split <;> simp
                · split
                  · simp
                  · split <;> simp
    · intro h1; cases h1
  · rw [h]
    simp

/-- Claim C13: `isEmptyCommand` returns 1 if and only if every character of the line is
a space or a tab (the empty line included); the loop of `main` skips parsing
for exactly those lines, and then writes nothing to standard error and forks
no child. -/
theorem empty_command_skipped :
    (∀ cmd : List Char, isEmptyCommand cmd = 1 ↔ ∀ c ∈ cmd, c = ' ' ∨ c = '\t') ∧
    (∀ cmd : List Char, mainDispatch cmd = .skip ↔ isEmptyCommand cmd = 1) ∧
    (∀ (k : Kernel) (t : FdTable) (cmd : List Char), isEmptyCommand cmd = 1 →
      (mainIteration k t cmd).dispatch = .skip ∧
      (mainIteration k t cmd).stderr = [] ∧
      (mainIteration k t cmd).child.isNone = true) ∧
    isEmptyCommand "".toList = 1 ∧ isEmptyCommand " \t ".toList = 1 ∧
    isEmptyCommand " \"\" ".toList = 0 := by
  refine ⟨isEmptyCommand_iff, mainDispatch_skip_iff, ?_, by decide, by decide, by decide⟩
  intro k t cmd h
  have hd := (mainDispatch_skip_iff cmd).2 h
  unfold mainIteration
  rw [hd]
  exact ⟨rfl, rfl, rfl⟩

/-- The rule of C13 at the line of two spaces and a tab. -/
theorem empty_command_skipped_witness :
    isEmptyCommand "  \t".toList = 1 ∧
    (mainIteration (kernelOk [] []) stdTable "  \t".toList).dispatch = .skip ∧
    (mainIteration (kernelOk [] []) stdTable "  \t".toList).stderr = [] ∧
    (mainIteration (kernelOk [] []) stdTable "  \t".toList).child.isNone = true :=
  ⟨by decide, empty_command_skipped.2.2.1 (kernelOk [] []) stdTable "  \t".toList (by decide)⟩

theorem createPipes_ok (k : Kernel) (n : Nat) :
    ∀ (i : Nat) (t : FdTable) (acc : List (Nat × Nat)),
      (∀ m, m < n → k.pipeFds (i + m) ≠ none) → (createPipes k n i t acc).1 = true := by
  induction n with
  | zero => intro i t acc _; rfl
  | succ n ih =>
    intro i t acc h
    unfold createPipes
    cases hp : k.pipeFds i with
    | none => exact absurd hp (by simpa using h 0 (Nat.succ_pos _))
    | some fds =>
      simp only
      apply ih
      intro m hm
      have := h (m + 1) (by omega)
      rwa [show i + (m + 1) = i + 1 + m by omega] at this

theorem spawnStages_ok (k : Kernel) (commands : List Parameter) (pipefds : List (Nat × Nat))
    (numCommands : Nat) (t : FdTable) (n : Nat) :
    ∀ (i : Nat) (acc : List StageProc),
      (∀ m, m < n → k.stageForkOk (i + m) = true) →
      spawnStages k commands pipefds numCommands t n i acc
        = (true, acc ++ (List.range' i n).map (fun j =>
            { stage := j, table := childSetup pipefds numCommands j t,
              command := commands[j]? })) := by
  induction n with
  | zero => intro i acc _; simp [spawnStages]
  | succ n ih =>
    intro i acc h
    unfold spawnStages
    rw [if_pos (by simpa using h 0 (Nat.succ_pos _))]
    rw [ih (i + 1) _ (by
      intro m hm
      have := h (m + 1) (by omega)
      rwa [show i + (m + 1) = i + 1 + m by omega] at this)]
    simp [List.range'_succ]

theorem waitAll_codes (k : Kernel) (codes : List Nat) :
    ∀ (i : Nat) (acc : List Nat),
      (∀ m, m < codes.length → waitpid k (i + m) = some (256 * codes.getD m 0)) →
      waitAll k codes.length i acc = some (acc ++ codes.map (fun c => 256 * c)) := by
  induction codes with
  | nil => intro i acc _; simp [waitAll]
  | cons c cs ih =>
    intro i acc h
    have h0 := h 0 (by simp)
    simp only [Nat.add_zero, List.getD_cons_zero] at h0
    simp only [List.length_cons, waitAll, h0]
    rw [ih (i + 1) _ (by
      intro m hm
      have := h (m + 1) (by simp; omega)
      rw [show i + (m + 1) = i + 1 + m by omega] at this
      simpa using this)]
    simp

theorem WEXITSTATUS_exit (c : Nat) (hc : c < 256) : WEXITSTATUS (256 * c) = c := by
  unfold WEXITSTATUS
  omega

theorem find?_perm (i : Nat) (l l' : List (Nat × Nat)) (hp : l.Perm l')
    (hnd : (l.map Prod.fst).Nodup) :
    l.find? (fun e => e.1 = i) = l'.find? (fun e => e.1 = i) := by
  induction hp with
  | nil => rfl
  | cons x _ ih =>
    simp only [List.map_cons, List.nodup_cons] at hnd
    simp only [List.find?_cons, ih hnd.2]
  | swap x y l =>
    simp only [List.map_cons, List.nodup_cons, List.mem_cons, not_or] at hnd
    simp only [List.find?_cons]
    by_cases hx : x.1 = i
    · by_cases hy : y.1 = i
      · exact absurd (hy.trans hx.symm) hnd.1.1
      · simp [hx, hy]
    · by_cases hy : y.1 = i
      · simp [hx, hy]
      · simp [hx, hy]
  | trans h1 _ ih1 ih2 =>
    rw [ih1 hnd, ih2 ((h1.map Prod.fst).nodup_iff.1 hnd)]

theorem createPipes_congr (k k' : Kernel) (h : k'.pipeFds = k.pipeFds) (n : Nat) :
    ∀ (i : Nat) (t : FdTable) (acc : List (Nat × Nat)),
      createPipes k' n i t acc = createPipes k n i t acc := by
  induction n with
  | zero => intro i t acc; rfl
  | succ n ih =>
    intro i t acc
    simp only [createPipes, h, ih]

theorem spawnStages_congr (k k' : Kernel) (h : k'.stageForkOk = k.stageForkOk)
    (commands : List Parameter) (pipefds : List (Nat × Nat)) (numCommands : Nat)
    (t : FdTable) (n : Nat) :
    ∀ (i : Nat) (acc : List StageProc),
      spawnStages k' commands pipefds numCommands t n i acc
        = spawnStages k commands pipefds numCommands t n i acc := by
  induction n with
  | zero => intro i acc; rfl
  | succ n ih =>
    intro i acc
    simp only [spawnStages, h, ih]

theorem waitAll_congr (k k' : Kernel) (h : ∀ i, waitpid k' i = waitpid k i) (n : Nat) :
    ∀ (i : Nat) (acc : List Nat), waitAll k' n i acc = waitAll k n i acc := by
  induction n with
  | zero => intro i acc; rfl
  | succ n ih =>
    intro i acc
    simp only [waitAll, h, ih]

/-- Claim C19: when every pipe and fork succeeds and stage `i` terminates with exit code
`codes[i]`, `executePipeline` completes and writes exactly
`+ completed '<cmd>' [c_0]...[c_{N-1}]` and a newline, one bracketed code per
stage in stage order, `cmd` being the string it is given; the trace does not
depend on the order in which the stages terminate; and `main` gives it the
line as typed, so `>>` stands in the report. -/
theorem completion_report_format :
    (∀ (k : Kernel) (t : FdTable) (commands : List Parameter) (cmd : List Char)
      (codes : List Nat),
      (∀ c ∈ codes, c < 256) →
      (∀ i, i < codes.length - 1 → k.pipeFds i ≠ none) →
      (∀ i, i < codes.length → k.stageForkOk i = true) →
      (∀ i, i < codes.length → waitpid k i = some (256 * codes.getD i 0)) →
      (executePipeline k t commands codes.length cmd).outcome = .completed ∧
      (executePipeline k t commands codes.length cmd).report
        = "+ completed '".toList ++ cmd ++ "' ".toList
          ++ (codes.map (fun c => "[".toList ++ (Nat.repr c).toList ++ "]".toList)).flatten
          ++ "\n".toList) ∧
    (∀ (k : Kernel) (order : List (Nat × Nat)) (t : FdTable) (commands : List Parameter)
      (numCommands : Nat) (cmd : List Char),
      k.exits.Perm order → (k.exits.map Prod.fst).Nodup →
      (executePipeline { k with exits := order } t commands numCommands cmd).report
        = (executePipeline k t commands numCommands cmd).report ∧
      (executePipeline { k with exits := order } t commands numCommands cmd).retvals
        = (executePipeline k t commands numCommands cmd).retvals) ∧
    ((mainIteration (kernelOk [0, 3] [1, 0]) stdTable "cat f | wc >> out".toList).child.map
        (fun c => (c.stderr, c.exitStatus)))
      = some ("+ completed 'cat f | wc >> out' [0][3]\n".toList, some 0) := by
  refine ⟨?_, ?_, by decide⟩
  · intro k t commands cmd codes hcodes hpipe hfork hwait
    have h1 : ∀ (t0 : FdTable), (createPipes k (codes.length - 1) 0 t0 []).1 = true :=
      fun t0 => createPipes_ok k _ 0 t0 [] (by intro m hm; simpa using hpipe m hm)
    have h3 := waitAll_codes k codes 0 [] (by intro m hm; simpa using hwait m hm)
    unfold executePipeline
    rcases hc : createPipes k (codes.length - 1) 0 t [] with ⟨b, t', fds⟩
    have hb : b = true := by have := h1 t; rw [hc] at this; exact this
    subst hb
    simp only
    rw [spawnStages_ok k commands fds codes.length t' codes.length 0 []
      (by intro m hm; simpa using hfork m hm)]
    simp only [h3, List.nil_append]
    refine ⟨trivial, ?_⟩
    unfold completionReport
    rw [List.map_map]
    congr 3
    apply List.map_congr_left
    intro c hc
    simp [WEXITSTATUS_exit c (hcodes c hc)]
  · intro k order t commands numCommands cmd hperm hnd
    have hw : ∀ i, waitpid { k with exits := order } i = waitpid k i := by
      intro i
      unfold waitpid
      simp only
      rw [find?_perm i k.exits order hperm hnd]
    have hwa := waitAll_congr k { k with exits := order } hw numCommands 0 []
    unfold executePipeline
    rw [createPipes_congr k { k with exits := order } rfl]
    rcases createPipes k (numCommands - 1) 0 t [] with ⟨b, t', fds⟩
    cases b
    · exact ⟨rfl, rfl⟩
    · simp only
      rw [spawnStages_congr k { k with exits := order } rfl]
      rcases spawnStages k commands fds numCommands t' numCommands 0 [] with ⟨b2, procs⟩
      cases b2
      · exact ⟨rfl, rfl⟩
      · simp only [hwa]
        cases waitAll k numCommands 0 [] <;> simp

/-- The format of C19 for two stages that end with the codes 0 and 3, the second stage
terminating first. -/
theorem completion_report_format_witness :
    (∀ c ∈ [0, 3], c < 256) ∧
    (executePipeline (kernelOk [0, 3] [1, 0]) stdTable [] [0, 3].length
      "ls | wc".toList).outcome = .completed ∧
    (executePipeline (kernelOk [0, 3] [1, 0]) stdTable [] [0, 3].length
      "ls | wc".toList).report = "+ completed 'ls | wc' [0][3]\n".toList :=
  ⟨by decide,
   (completion_report_format.1 (kernelOk [0, 3] [1, 0]) stdTable [] "ls | wc".toList [0, 3]
      (by decide) (by decide) (by decide) (by decide)).1,
   (completion_report_format.1 (kernelOk [0, 3] [1, 0]) stdTable [] "ls | wc".toList [0, 3]
      (by decide) (by decide) (by decide) (by decide)).2.trans (by decide)⟩

/-- Claim C20 fails as stated: when `open` fails for the line `ls | wc > out`, the child
that `main` forks prints the message and exits with status 1 before
`executePipeline` is called, so no stage is spawned, the first one included. -/
theorem open_failure_counterexample :
    ((mainIteration { kernelOk [0, 0] [0, 1] with openFd := none } stdTable
        "ls | wc > out".toList).child.map
      (fun c => (c.stderr, c.exitStatus, c.pipeline.isSome)))
      = some ("Error: cannot open output file\n".toList, some 1, false) ∧
    ((mainIteration (kernelOk [0, 0] [0, 1]) stdTable "ls | wc > out".toList).child.map
      (fun c => (c.stderr, c.exitStatus, c.pipeline.map (fun p => p.procs.map
        (fun s => s.stage)))))
      = some ("+ completed 'ls | wc > out' [0][0]\n".toList, some 0, some [0, 1]) := by
  decide

/-- Claim C20, amended: when the plan has a file redirect and `open` fails, the child that
`main` forks to run the pipeline writes `Error: cannot open output file` and
exits with status 1 without calling `executePipeline`: no stage is spawned
and no completion report is written. -/
theorem open_failure_aborts_pipeline (k : Kernel) (t : FdTable) (parameters : List Parameter)
    (plan : ExecPlan) (cmd : List Char)
    (hmode : plan.outputMode ≠ .WRITE_TO_STDOUT) (hopen : k.openFd = none) :
    (pipelineChild k t parameters plan cmd).stderr = "Error: cannot open output file\n".toList ∧
    (pipelineChild k t parameters plan cmd).exitStatus = some 1 ∧
    (pipelineChild k t parameters plan cmd).pipeline.isNone = true := by
  unfold pipelineChild stdoutRedirect
  rw [if_pos hmode, hopen]
  simp

/-- The amended rule of C20 for the plan of `ls | wc > out`. -/
theorem open_failure_aborts_pipeline_witness :
    (pipelineChild { kernelOk [] [] with openFd := none } stdTable
      [mkParam ["ls".toList], mkParam ["wc".toList], mkParam ["out".toList]]
      { outputMode := .WRITE_TO_FILE, outputFile := some "out".toList, parameterCount := 2 }
      "ls | wc > out".toList).stderr = "Error: cannot open output file\n".toList ∧
    (pipelineChild { kernelOk [] [] with openFd := none } stdTable
      [mkParam ["ls".toList], mkParam ["wc".toList], mkParam ["out".toList]]
      { outputMode := .WRITE_TO_FILE, outputFile := some "out".toList, parameterCount := 2 }
      "ls | wc > out".toList).exitStatus = some 1 ∧
    (pipelineChild { kernelOk [] [] with openFd := none } stdTable
      [mkParam ["ls".toList], mkParam ["wc".toList], mkParam ["out".toList]]
      { outputMode := .WRITE_TO_FILE, outputFile := some "out".toList, parameterCount := 2 }
      "ls | wc > out".toList).pipeline.isNone = true :=
  open_failure_aborts_pipeline _ stdTable _ _ _ (by decide) rfl

theorem sysClose_apply (t : FdTable) (x fd : Nat) :
    sysClose t x fd = if fd = x then none else t fd := by
  simp [sysClose, Function.update_apply]

theorem sysDup2_some (t : FdTable) (oldfd newfd : Nat) (o : FdObject) (h : t oldfd = some o) :
    sysDup2 t oldfd newfd = Function.update t newfd (some o) := by
  unfold sysDup2
  rw [h]

theorem closeOthers_none (fds : List (Nat × Nat)) (i fd : Nat) :
    ∀ (n j : Nat) (t : FdTable), t fd = none → closeOthers fds i n j t fd = none := by
  intro n
  induction n with
  | zero => intro j t h; exact h
  | succ n ih =>
    intro j t h
    unfold closeOthers
    split
    · apply ih
      simp [sysClose_apply, h]
    · exact ih _ _ h

theorem closeOthers_other (fds : List (Nat × Nat)) (i fd : Nat) :
    ∀ (n j0 : Nat) (t : FdTable),
      (∀ j, j0 ≤ j → j < j0 + n → j ≠ i → fd ≠ readEnd fds j ∧ fd ≠ writeEnd fds j) →
      closeOthers fds i n j0 t fd = t fd := by
  intro n
  induction n with
  | zero => intro j0 t _; rfl
  | succ n ih =>
    intro j0 t h
    have hrec : ∀ j, j0 + 1 ≤ j → j < j0 + 1 + n → j ≠ i →
        fd ≠ readEnd fds j ∧ fd ≠ writeEnd fds j :=
      fun j h1 h2 h3 => h j (by omega) (by omega) h3
    unfold closeOthers
    split
    · rename_i hne
      rw [ih _ _ hrec]
      have := h j0 (le_refl _) (by omega) hne
      simp [sysClose_apply, this.1, this.2]
    · exact ih _ _ hrec

theorem closeOthers_closed (fds : List (Nat × Nat)) (i fd : Nat) :
    ∀ (n j0 : Nat) (t : FdTable) (j : Nat), j0 ≤ j → j < j0 + n → j ≠ i →
      (fd = readEnd fds j ∨ fd = writeEnd fds j) →
      closeOthers fds i n j0 t fd = none := by
  intro n
  induction n with
  | zero => intro j0 t j h1 h2; omega
  | succ n ih =>
    intro j0 t j h1 h2 h3 h4
    unfold closeOthers
    by_cases hj : j = j0
    · subst hj
      rw [if_pos h3]
      apply closeOthers_none
      rcases h4 with h4 | h4 <;> simp [sysClose_apply, h4]
    · split
      · exact ih _ _ j (by omega) (by omega) h3 h4
      · exact ih _ _ j (by omega) (by omega) h3 h4

theorem closeAll_eq_closeOthers (fds : List (Nat × Nat)) :
    ∀ (n j : Nat) (t : FdTable), closeAll fds n j t = closeOthers fds (j + n) n j t := by
  intro n
  induction n with
  | zero => intro j t; rfl
  | succ n ih =>
    intro j t
    unfold closeAll closeOthers
    rw [if_pos (by omega), ih, show j + 1 + n = j + (n + 1) by omega]

theorem readEnd_getElem (fds : List (Nat × Nat)) (j : Nat) (h : j < fds.length) :
    readEnd fds j = fds[j].1 := by
  simp [readEnd, List.getElem?_eq_getElem h]

theorem writeEnd_getElem (fds : List (Nat × Nat)) (j : Nat) (h : j < fds.length) :
    writeEnd fds j = fds[j].2 := by
  simp [writeEnd, List.getElem?_eq_getElem h]

theorem ends_distinct (fds : List (Nat × Nat))
    (hnd : (fds.map Prod.fst ++ fds.map Prod.snd).Nodup) :
    ∀ j j', j < fds.length → j' < fds.length →
      (readEnd fds j = readEnd fds j' → j = j') ∧
      (writeEnd fds j = writeEnd fds j' → j = j') ∧
      readEnd fds j ≠ writeEnd fds j' := by
  intro j j' hj hj'
  rw [List.nodup_append] at hnd
  obtain ⟨h1, h2, h3⟩ := hnd
  have hj1 : j < (fds.map Prod.fst).length := by simpa using hj
  have hj1' : j' < (fds.map Prod.fst).length := by simpa using hj'
  have hj2 : j < (fds.map Prod.snd).length := by simpa using hj
  have hj2' : j' < (fds.map Prod.snd).length := by simpa using hj'
  have e1 : readEnd fds j = (fds.map Prod.fst)[j] := by
    rw [readEnd_getElem fds j hj, List.getElem_map]
  have e1' : readEnd fds j' = (fds.map Prod.fst)[j'] := by
    rw [readEnd_getElem fds j' hj', List.getElem_map]
  have e2 : writeEnd fds j = (fds.map Prod.snd)[j] := by
    rw [writeEnd_getElem fds j hj, List.getElem_map]
  have e2' : writeEnd fds j' = (fds.map Prod.snd)[j'] := by
    rw [writeEnd_getElem fds j' hj', List.getElem_map]
  refine ⟨fun h => ?_, fun h => ?_, ?_⟩
  · rw [e1, e1'] at h
    exact (h1.getElem_inj_iff).1 h
  · rw [e2, e2'] at h
    exact (h2.getElem_inj_iff).1 h
  · intro h
    have m1 : readEnd fds j ∈ fds.map Prod.fst := e1 ▸ List.getElem_mem hj1
    have m2 : writeEnd fds j' ∈ fds.map Prod.snd := e2' ▸ List.getElem_mem hj2'
    rw [h] at m1
    exact h3 m1 m2

theorem ends_ge_two (fds : List (Nat × Nat)) (h2 : ∀ p ∈ fds, 2 ≤ p.1 ∧ 2 ≤ p.2) :
    ∀ j, j < fds.length → 2 ≤ readEnd fds j ∧ 2 ≤ writeEnd fds j := by
  intro j hj
  rw [readEnd_getElem fds j hj, writeEnd_getElem fds j hj]
  exact h2 fds[j] (List.getElem_mem _)

theorem createPipes_table (k : Kernel) (fds : List (Nat × Nat))
    (hd : ∀ j j', j < fds.length → j' < fds.length →
      (readEnd fds j = readEnd fds j' → j = j') ∧
      (writeEnd fds j = writeEnd fds j' → j = j') ∧
      readEnd fds j ≠ writeEnd fds j') :
    ∀ (n i : Nat) (t : FdTable), i + n = fds.length →
      (∀ m, m < n → k.pipeFds (i + m) = fds[i + m]?) →
      ∃ T, createPipes k n i t (fds.take i) = (true, T, fds) ∧
        (∀ fd, (∀ j, i ≤ j → j < fds.length → fd ≠ readEnd fds j ∧ fd ≠ writeEnd fds j) →
          T fd = t fd) ∧
        (∀ j, i ≤ j → j < fds.length →
          T (readEnd fds j) = some (.pipeRead j) ∧ T (writeEnd fds j) = some (.pipeWrite j)) := by
  intro n
  induction n with
  | zero =>
    intro i t hlen _
    refine ⟨t, ?_, fun _ _ => rfl, fun j h1 h2 => by omega⟩
    simp only [Nat.add_zero] at hlen
    simp [createPipes, hlen]
  | succ n ih =>
    intro i t hlen hk
    have hi : i < fds.length := by omega
    have hk0 := hk 0 (Nat.succ_pos _)
    rw [Nat.add_zero, List.getElem?_eq_getElem hi] at hk0
    have hpair : fds[i] = (readEnd fds i, writeEnd fds i) := by
      rw [readEnd_getElem fds i hi, writeEnd_getElem fds i hi]
    obtain ⟨T, hT, hother, hends⟩ := ih (i + 1) (sysPipe t i fds[i]) (by omega) (by
      intro m hm
      have := hk (m + 1) (by omega)
      rwa [show i + (m + 1) = i + 1 + m by omega] at this)
    refine ⟨T, ?_, ?_, ?_⟩
    · unfold createPipes
      rw [hk0]
      simp only
      rw [← hT, List.take_succ, List.getElem?_eq_getElem hi]
      rfl
    · intro fd hfd
      rw [hother fd (fun j h1 h2 => hfd j (by omega) h2)]
      have := hfd i (le_refl _) hi
      rw [hpair]
      simp [sysPipe, Function.update_apply, this.1, this.2]
    · intro j h1 h2
      by_cases hj : j = i
      · subst hj
        have hne := (hd j j h2 h2).2.2
        constructor
        · rw [hother _ (fun j' h1' h2' => ⟨fun h => by have := (hd j j' h2 h2').1 h; omega,
            (hd j j' h2 h2').2.2⟩)]
          rw [hpair]
          simp [sysPipe, Function.update_apply, hne]
        · rw [hother _ (fun j' h1' h2' => ⟨fun h => (hd j' j h2' h2).2.2 h.symm,
            fun h => by have := (hd j j' h2 h2').2.1 h; omega⟩)]
          rw [hpair]
          simp [sysPipe, Function.update_apply]
      · exact hends j (by omega) h2

theorem childSetup_spec (fds : List (Nat × Nat)) (N i : Nat) (T : FdTable)
    (hlen : fds.length = N - 1) (hi : i < N)
    (hd : ∀ j j', j < fds.length → j' < fds.length →
      (readEnd fds j = readEnd fds j' → j = j') ∧
      (writeEnd fds j = writeEnd fds j' → j = j') ∧
      readEnd fds j ≠ writeEnd fds j')
    (h2 : ∀ j, j < fds.length → 2 ≤ readEnd fds j ∧ 2 ≤ writeEnd fds j)
    (hT : ∀ j, j < fds.length →
      T (readEnd fds j) = some (.pipeRead j) ∧ T (writeEnd fds j) = some (.pipeWrite j)) :
    (i < N - 1 → childSetup fds N i T 1 = some (.pipeWrite i)) ∧
    (¬ i < N - 1 → childSetup fds N i T 1 = T 1) ∧
    (0 < i → childSetup fds N i T 0 = some (.pipeRead (i - 1))) ∧
    (i = 0 → childSetup fds N i T 0 = T 0) ∧
    (∀ j, j < fds.length →
      childSetup fds N i T (readEnd fds j) = none ∧
      childSetup fds N i T (writeEnd fds j) = none) ∧
    (∀ fd, 2 ≤ fd → (∀ j, j < fds.length → fd ≠ readEnd fds j ∧ fd ≠ writeEnd fds j) →
      childSetup fds N i T fd = T fd) := by
  obtain ⟨T1, hT1def⟩ : ∃ T1 : FdTable, T1 =
      if i < N - 1 then
        sysClose (sysDup2 (sysClose T (readEnd fds i)) (writeEnd fds i) 1) (writeEnd fds i)
      else T := ⟨_, rfl⟩
  obtain ⟨T2, hT2def⟩ : ∃ T2 : FdTable, T2 =
      if i > 0 then
        sysClose (sysDup2 (sysClose T1 (writeEnd fds (i - 1))) (readEnd fds (i - 1)) 0)
          (readEnd fds (i - 1))
      else T1 := ⟨_, rfl⟩
  have hcs : childSetup fds N i T = closeOthers fds i (N - 1) 0 T2 := by
    rw [hT2def, hT1def]
    rfl
  have hT1 : ∀ fd, T1 fd =
      if i < N - 1 then
        (if fd = writeEnd fds i then none
         else if fd = 1 then some (.pipeWrite i)
         else if fd = readEnd fds i then none else T fd)
      else T fd := by
    intro fd
    rw [hT1def]
    by_cases h : i < N - 1
    · have hif : i < fds.length := by omega
      have hsrc : (sysClose T (readEnd fds i)) (writeEnd fds i) = some (.pipeWrite i) := by
        rw [sysClose_apply, if_neg (fun h => (hd i i hif hif).2.2 h.symm)]
        exact (hT i hif).2
      rw [if_pos h, if_pos h, sysDup2_some _ _ _ _ hsrc]
      simp only [sysClose_apply, Function.update_apply]
    · rw [if_neg h, if_neg h]
  have hT2 : ∀ fd, T2 fd =
      if 0 < i then
        (if fd = readEnd fds (i - 1) then none
         else if fd = 0 then some (.pipeRead (i - 1))
         else if fd = writeEnd fds (i - 1) then none else T1 fd)
      else T1 fd := by
    intro fd
    rw [hT2def]
    by_cases h : 0 < i
    · have hif : i - 1 < fds.length := by omega
      have hr2 := (h2 (i - 1) hif).1
      have hsrc : (sysClose T1 (writeEnd fds (i - 1))) (readEnd fds (i - 1))
          = some (.pipeRead (i - 1)) := by
        rw [sysClose_apply, if_neg (hd (i - 1) (i - 1) hif hif).2.2, hT1]
        by_cases h' : i < N - 1
        · have hif' : i < fds.length := by omega
          rw [if_pos h', if_neg (hd (i - 1) i hif hif').2.2, if_neg (by omega),
            if_neg (fun h => by have := (hd (i - 1) i hif hif').1 h; omega)]
          exact (hT _ hif).1
        · rw [if_neg h']
          exact (hT _ hif).1
      rw [if_pos h, if_pos h, sysDup2_some _ _ _ _ hsrc]
      simp only [sysClose_apply, Function.update_apply]
    · rw [if_neg h, if_neg h]
  have hlow : ∀ fd, fd < 2 → ∀ j, 0 ≤ j → j < 0 + (N - 1) → j ≠ i →
      fd ≠ readEnd fds j ∧ fd ≠ writeEnd fds j := by
    intro fd hfd j _ hj _
    have := h2 j (by omega)
    omega
  refine ⟨?_, ?_, ?_, ?_, ?_, ?_⟩
  · intro h
    have hif : i < fds.length := by omega
    have hw := h2 i hif
    rw [hcs, closeOthers_other _ _ _ _ _ _ (hlow 1 (by omega)), hT2, hT1, if_pos h]
    by_cases h0 : 0 < i
    · have hp := h2 (i - 1) (by omega)
      rw [if_pos h0, if_neg (by omega), if_neg (by omega), if_neg (by omega),
        if_neg (by omega), if_pos rfl]
    · rw [if_neg h0, if_neg (by omega), if_pos rfl]
  · intro h
    rw [hcs, closeOthers_other _ _ _ _ _ _ (hlow 1 (by omega)), hT2, hT1, if_neg h]
    by_cases h0 : 0 < i
    · have hp := h2 (i - 1) (by omega)
      rw [if_pos h0, if_neg (by omega), if_neg (by omega), if_neg (by omega)]
    · rw [if_neg h0]
  · intro h0
    have hp := h2 (i - 1) (by omega)
    rw [hcs, closeOthers_other _ _ _ _ _ _ (hlow 0 (by omega)), hT2, if_pos h0,
      if_neg (by omega), if_pos rfl]
  · intro h0
    rw [hcs, closeOthers_other _ _ _ _ _ _ (hlow 0 (by omega)), hT2, if_neg (by omega), hT1]
    by_cases h : i < N - 1
    · have hw := h2 i (by omega)
      rw [if_pos h, if_neg (by omega), if_neg (by omega), if_neg (by omega)]
    · rw [if_neg h]
  · intro j hj
    by_cases hji : j = i
    · subst hji
      have h : j < N - 1 := by omega
      have hw := h2 j hj
      have hne := (hd j j hj hj).2.2
      rw [hcs]
      constructor
      · apply closeOthers_none
        rw [hT2, hT1, if_pos h]
        by_cases h0 : 0 < j
        · have hp := h2 (j - 1) (by omega)
          rw [if_pos h0]
          rw [if_neg (fun h => by have := (hd j (j - 1) hj (by omega)).1 h; omega),
            if_neg (by omega), if_neg (hd j (j - 1) hj (by omega)).2.2, if_neg hne,
            if_neg (by omega), if_pos rfl]
        · rw [if_neg h0, if_neg hne, if_neg (by omega), if_pos rfl]
      · apply closeOthers_none
        rw [hT2, hT1, if_pos h]
        by_cases h0 : 0 < j
        · have hp := h2 (j - 1) (by omega)
          rw [if_pos h0]
          rw [if_neg (fun h => (hd (j - 1) j (by omega) hj).2.2 h.symm),
            if_neg (by omega),
            if_neg (fun h => by have := (hd j (j - 1) hj (by omega)).2.1 h; omega),
            if_pos rfl]
        · rw [if_neg h0, if_pos rfl]
    · rw [hcs]
      exact ⟨closeOthers_closed _ _ _ _ _ _ j (Nat.zero_le _) (by omega) hji (Or.inl rfl),
        closeOthers_closed _ _ _ _ _ _ j (Nat.zero_le _) (by omega) hji (Or.inr rfl)⟩
  · intro fd hfd hother
    rw [hcs, closeOthers_other _ _ _ _ _ _ (fun j _ hj _ => hother j (by omega)), hT2, hT1]
    by_cases h0 : 0 < i
    · have hp := hother (i - 1) (by omega)
      rw [if_pos h0, if_neg hp.1, if_neg (by omega), if_neg hp.2]
      by_cases h : i < N - 1
      · have hw := hother i (by omega)
        rw [if_pos h, if_neg hw.2, if_neg (by omega), if_neg hw.1]
      · rw [if_neg h]
    · rw [if_neg h0]
      by_cases h : i < N - 1
      · have hw := hother i (by omega)
        rw [if_pos h, if_neg hw.2, if_neg (by omega), if_neg hw.1]
      · rw [if_neg h]

theorem executePipeline_spawned (k : Kernel) (t T : FdTable) (commands : List Parameter)
    (numCommands : Nat) (cmd : List Char) (fds : List (Nat × Nat))
    (hc : createPipes k (numCommands - 1) 0 t [] = (true, T, fds))
    (hfork : ∀ i, i < numCommands → k.stageForkOk i = true) :
    (executePipeline k t commands numCommands cmd).pipefds = fds ∧
    (executePipeline k t commands numCommands cmd).procs
      = (List.range' 0 numCommands).map (fun j =>
          { stage := j, table := childSetup fds numCommands j T, command := commands[j]? }) ∧
    (executePipeline k t commands numCommands cmd).parentTable
      = closeAll fds (numCommands - 1) 0 T := by
  unfold executePipeline
  rw [hc]
  simp only
  rw [spawnStages_ok k commands fds numCommands T numCommands 0 []
    (by intro m hm; simpa using hfork m hm)]
  simp only [List.nil_append]
  cases waitAll k numCommands 0 [] <;> exact ⟨rfl, rfl, rfl⟩

/-- Claim C18: when the `numCommands - 1` calls of `pipe` store the pairwise distinct
descriptors `fds`, none of them 0 or 1, and every `fork` succeeds,
`executePipeline` creates exactly these `numCommands - 1` pipes and spawns
`numCommands` stages; at its `execvp`, stage `i` has the write end of pipe
`i` as descriptor 1 exactly when `i < numCommands - 1` (the last stage keeps
the descriptor 1 of the caller), the read end of pipe `i - 1` as descriptor
0 exactly when `0 < i` (the first stage keeps the descriptor 0 of the
caller), every descriptor of `fds` closed and no end of a pipe open on a
descriptor other than 0 and 1; and when the parent starts waiting, every
descriptor of `fds` is closed in it and it has no end of a pipe open. -/
theorem pipeline_wiring (k : Kernel) (t : FdTable) (commands : List Parameter)
    (numCommands : Nat) (cmd : List Char) (fds : List (Nat × Nat))
    (hlen : fds.length = numCommands - 1)
    (hpipe : ∀ i, i < numCommands - 1 → k.pipeFds i = fds[i]?)
    (hfork : ∀ i, i < numCommands → k.stageForkOk i = true)
    (hnd : (fds.map Prod.fst ++ fds.map Prod.snd).Nodup)
    (h2 : ∀ q ∈ fds, 2 ≤ q.1 ∧ 2 ≤ q.2)
    (ht : ∀ fd, isPipeEnd (t fd) = false) :
    (executePipeline k t commands numCommands cmd).pipefds = fds ∧
    (executePipeline k t commands numCommands cmd).pipefds.length = numCommands - 1 ∧
    (executePipeline k t commands numCommands cmd).procs.length = numCommands ∧
    (∀ i, i < numCommands → ∃ p,
      (executePipeline k t commands numCommands cmd).procs[i]? = some p ∧
      p.stage = i ∧ p.command = commands[i]? ∧
      (p.table 1 = some (.pipeWrite i) ↔ i < numCommands - 1) ∧
      (numCommands - 1 ≤ i → p.table 1 = t 1) ∧
      (p.table 0 = some (.pipeRead (i - 1)) ↔ 0 < i) ∧
      (i = 0 → p.table 0 = t 0) ∧
      (∀ q ∈ fds, p.table q.1 = none ∧ p.table q.2 = none) ∧
      (∀ fd, 2 ≤ fd → isPipeEnd (p.table fd) = false)) ∧
    (∀ q ∈ fds,
      (executePipeline k t commands numCommands cmd).parentTable q.1 = none ∧
      (executePipeline k t commands numCommands cmd).parentTable q.2 = none) ∧
    (∀ fd, isPipeEnd ((executePipeline k t commands numCommands cmd).parentTable fd)
      = false) := by
  have hd := ends_distinct fds hnd
  have hge := ends_ge_two fds h2
  obtain ⟨T, hT, hother, hends⟩ := createPipes_table k fds hd (numCommands - 1) 0 t
    (by omega) (by intro m hm; simpa using hpipe m hm)
  rw [List.take_zero] at hT
  have hends0 : ∀ j, j < fds.length →
      T (readEnd fds j) = some (.pipeRead j) ∧ T (writeEnd fds j) = some (.pipeWrite j) :=
    fun j hj => hends j (Nat.zero_le _) hj
  have hother0 : ∀ fd, (∀ j, j < fds.length → fd ≠ readEnd fds j ∧ fd ≠ writeEnd fds j) →
      T fd = t fd := fun fd h => hother fd (fun j _ hj => h j hj)
  have hlow : ∀ fd, fd < 2 → T fd = t fd := by
    intro fd hfd
    apply hother0
    intro j hj
    have := hge j hj
    omega
  have hmem : ∀ q ∈ fds, ∃ j, j < fds.length ∧ q.1 = readEnd fds j ∧ q.2 = writeEnd fds j := by
    intro q hq
    obtain ⟨j, hj, hjq⟩ := List.mem_iff_getElem.1 hq
    exact ⟨j, hj, by rw [readEnd_getElem fds j hj, hjq],
      by rw [writeEnd_getElem fds j hj, hjq]⟩
  obtain ⟨e1, e2, e3⟩ := executePipeline_spawned k t T commands numCommands cmd fds hT hfork
  refine ⟨e1, by rw [e1, hlen], by rw [e2]; simp, ?_, ?_, ?_⟩
  · intro i hi
    obtain ⟨s1, s2, s3, s4, s5, s6⟩ := childSetup_spec fds numCommands i T hlen hi hd hge hends0
    refine ⟨{ stage := i, table := childSetup fds numCommands i T, command := commands[i]? },
      by rw [e2]; simp [List.getElem?_range', hi], rfl, rfl, ?_, ?_, ?_, ?_, ?_, ?_⟩
    · constructor
      · intro h
        by_contra hcon
        have h1 := s2 hcon
        simp only at h
        rw [h1, hlow 1 (by omega)] at h
        have := ht 1
        rw [h] at this
        cases this
      · exact s1
    · intro h
      exact (s2 (by omega)).trans (hlow 1 (by omega))
    · constructor
      · intro h
        by_contra hcon
        have h1 := s4 (by omega)
        simp only at h
        rw [h1, hlow 0 (by omega)] at h
        have := ht 0
        rw [h] at this
        cases this
      · exact s3
    · intro h
      exact (s4 h).trans (hlow 0 (by omega))
    · intro q hq
      obtain ⟨j, hj, hq1, hq2⟩ := hmem q hq
      rw [hq1, hq2]
      exact s5 j hj
    · intro fd hfd
      by_cases hex : ∃ j, j < fds.length ∧ (fd = readEnd fds j ∨ fd = writeEnd fds j)
      · obtain ⟨j, hj, hfdj⟩ := hex
        rcases hfdj with hfdj | hfdj
        · simp only [hfdj, (s5 j hj).1]
          rfl
        · simp only [hfdj, (s5 j hj).2]
          rfl
      · have hno : ∀ j, j < fds.length → fd ≠ readEnd fds j ∧ fd ≠ writeEnd fds j :=
          fun j hj => ⟨fun h => hex ⟨j, hj, Or.inl h⟩, fun h => hex ⟨j, hj, Or.inr h⟩⟩
        simp only [s6 fd hfd hno, hother0 fd hno]
        exact ht fd
  · intro q hq
    obtain ⟨j, hj, hq1, hq2⟩ := hmem q hq
    rw [e3, closeAll_eq_closeOthers, hq1, hq2]
    exact ⟨closeOthers_closed _ _ _ _ _ _ j (Nat.zero_le _) (by omega) (by omega) (Or.inl rfl),
      closeOthers_closed _ _ _ _ _ _ j (Nat.zero_le _) (by omega) (by omega) (Or.inr rfl)⟩
  · intro fd
    rw [e3, closeAll_eq_closeOthers]
    by_cases hex : ∃ j, j < fds.length ∧ (fd = readEnd fds j ∨ fd = writeEnd fds j)
    · obtain ⟨j, hj, hfdj⟩ := hex
      rw [closeOthers_closed _ _ _ _ _ _ j (Nat.zero_le _) (by omega) (by omega) hfdj]
      rfl
    · have hno : ∀ j, j < fds.length → fd ≠ readEnd fds j ∧ fd ≠ writeEnd fds j :=
        fun j hj => ⟨fun h => hex ⟨j, hj, Or.inl h⟩, fun h => hex ⟨j, hj, Or.inr h⟩⟩
      rw [closeOthers_other _ _ _ _ _ _ (fun j _ hj _ => hno j (by omega)), hother0 fd hno]
      exact ht fd

/-- The wiring of C18 for the three stages of `ls | sort | wc`, the pipes being given
the descriptors 3, 4 and 5, 6. -/
theorem pipeline_wiring_witness :
    [((3 : Nat), (4 : Nat)), (5, 6)].length = 3 - 1 ∧
    (executePipeline (kernelOk [0, 0, 0] [2, 0, 1]) stdTable
      [mkParam ["ls".toList], mkParam ["sort".toList], mkParam ["wc".toList]] 3
      "ls | sort | wc".toList).pipefds = [(3, 4), (5, 6)] ∧
    (executePipeline (kernelOk [0, 0, 0] [2, 0, 1]) stdTable
      [mkParam ["ls".toList], mkParam ["sort".toList], mkParam ["wc".toList]] 3
      "ls | sort | wc".toList).procs.length = 3 :=
  ⟨rfl,
   (pipeline_wiring (kernelOk [0, 0, 0] [2, 0, 1]) stdTable
      [mkParam ["ls".toList], mkParam ["sort".toList], mkParam ["wc".toList]] 3
      "ls | sort | wc".toList [(3, 4), (5, 6)] rfl (by decide) (fun _ _ => rfl) (by decide)
      (by decide) (fun fd => by unfold stdTable; split <;> rfl)).1,
   (pipeline_wiring (kernelOk [0, 0, 0] [2, 0, 1]) stdTable
      [mkParam ["ls".toList], mkParam ["sort".toList], mkParam ["wc".toList]] 3
      "ls | sort | wc".toList [(3, 4), (5, 6)] rfl (by decide) (fun _ _ => rfl) (by decide)
      (by decide) (fun fd => by unfold stdTable; split <;> rfl)).2.2.1⟩

theorem wordStep_blank_op (st : WordState) (c b : Char) (hq : st.inQuotation = false)
    (hc : c = PIPE ∨ c = OVERWRITE ∨ c = APPEND) (hb : b = ' ' ∨ b = '\t') :
    wordStep (wordStep st b) c = wordStep st c := by
  rw [wordStep_blank st b hb hq, wordStep_op _ c hc, wordStep_op st c hc, hq]
  simp [wordsOf]

theorem wordStep_op_blank (st : WordState) (c b : Char) (hq : st.inQuotation = false)
    (hc : c = PIPE ∨ c = OVERWRITE ∨ c = APPEND) (hb : b = ' ' ∨ b = '\t') :
    wordStep (wordStep st c) b = wordStep st c := by
  rw [wordStep_op st c hc,
    wordStep_blank ⟨st.inQuotation, none, wordsOf st ++ [[c]]⟩ b hb hq, hq]
  simp [wordsOf]

theorem wordStep_quote_inQuotation (st : WordState) :
    (wordStep st DQUOTE).inQuotation = !st.inQuotation := by
  simp [wordStep]

theorem pendingOut_inQuotation (r : Nat) (st : WordState) :
    ((pendingOut r).foldl wordStep st).inQuotation = st.inQuotation :=
  foldl_wordStep_inQuotation _ st (pendingOut_no_quote r)

/-- Replacing the characters `X` by `Y` after a prefix `pre` that ends outside quotation
changes neither the code of `parseAppends` nor the words, when it does not at
the end of any run of `>` (at the start of the line or after a character other
than `>`, when `needZero` is set). -/
theorem splice_after_prefix (X Y : List Char) (needZero : Bool)
    (hXY : ∀ (r : Nat) (st : WordState), st.inQuotation = false → (needZero = true → r = 0) →
      runCode X r = runCode Y r ∧
      (runRewrite X r).foldl wordStep st = (runRewrite Y r).foldl wordStep st) :
    ∀ (pre : List Char) (r : Nat) (st : WordState),
      (st.inQuotation = true ↔ pre.count DQUOTE % 2 = 1) →
      (needZero = true → (pre = [] → r = 0) ∧ pre.getLast? ≠ some OVERWRITE) →
      runCode (pre ++ X) r = runCode (pre ++ Y) r ∧
      (runRewrite (pre ++ X) r).foldl wordStep st
        = (runRewrite (pre ++ Y) r).foldl wordStep st := by
  intro pre
  induction pre with
  | nil =>
    intro r st hq hz
    have hq' : st.inQuotation = false := by
      cases h : st.inQuotation
      · rfl
      · exact absurd (hq.1 h) (by simp)
    exact hXY r st hq' (fun h => (hz h).1 rfl)
  | cons c pre ih =>
    intro r st hq hz
    by_cases hc : c = OVERWRITE
    · subst hc
      have hcount : (OVERWRITE :: pre).count DQUOTE = pre.count DQUOTE := by
        rw [List.count_cons_of_ne (by decide)]
      rw [hcount] at hq
      have hz' : needZero = true → (pre = [] → r + 1 = 0) ∧ pre.getLast? ≠ some OVERWRITE := by
        intro h
        have hne : pre ≠ [] := by
          intro hnil
          subst hnil
          exact (hz h).2 rfl
        refine ⟨fun h' => absurd h' hne, ?_⟩
        have := (hz h).2
        obtain ⟨d, pre', rfl⟩ := List.exists_cons_of_ne_nil hne
        rwa [List.getLast?_cons_cons] at this
      have := ih (r + 1) st hq hz'
      simpa [runCode, runRewrite] using this
    · have hz' : needZero = true → (pre = [] → 0 = 0) ∧ pre.getLast? ≠ some OVERWRITE := by
        intro h
        refine ⟨fun _ => rfl, ?_⟩
        intro hl
        apply (hz h).2
        cases pre with
        | nil => cases hl
        | cons d pre' => rw [List.getLast?_cons_cons]; exact hl
      have hq' : ((wordStep ((pendingOut r).foldl wordStep st) c).inQuotation = true ↔
          pre.count DQUOTE % 2 = 1) := by
        by_cases hd : c = DQUOTE
        · subst hd
          rw [wordStep_quote_inQuotation, pendingOut_inQuotation]
          rw [List.count_cons_self] at hq
          cases hst : st.inQuotation
          · rw [hst] at hq
            simp only [Bool.false_eq_true, false_iff] at hq
            simp only [Bool.not_false, true_iff]
            omega
          · rw [hst] at hq
            simp only [true_iff] at hq
            simp only [Bool.not_true, Bool.false_eq_true, false_iff]
            omega
        · rw [wordStep_inQuotation _ c hd, pendingOut_inQuotation]
          rw [List.count_cons_of_ne (fun h => hd h.symm)] at hq
          exact hq
      have := ih 0 (wordStep ((pendingOut r).foldl wordStep st) c) hq' hz'
      rw [List.cons_append, List.cons_append, runCode_cons_ne c _ r hc,
        runCode_cons_ne c _ r hc, foldl_runRewrite_cons_ne c _ r st hc,
        foldl_runRewrite_cons_ne c _ r st hc, this.1, this.2]
      exact ⟨rfl, rfl⟩

theorem runRewrite_head (post : List Char) :
    ∀ r : Nat, 0 < r → ∃ o Y, runRewrite post r = o :: Y ∧ (o = OVERWRITE ∨ o = APPEND) := by
  induction post with
  | nil =>
    intro r hr
    obtain ⟨r', rfl⟩ : ∃ r', r = r' + 1 := ⟨r - 1, by omega⟩
    exact ⟨OVERWRITE, List.replicate r' OVERWRITE, by simp [runRewrite, List.replicate_succ],
      Or.inl rfl⟩
  | cons c post ih =>
    intro r hr
    by_cases hc : c = OVERWRITE
    · obtain ⟨o, Y, h1, h2⟩ := ih (r + 1) (Nat.succ_pos _)
      exact ⟨o, Y, by simp [runRewrite, hc, h1], h2⟩
    · by_cases h2 : r = 2
      · exact ⟨APPEND, ' ' :: c :: runRewrite post 0, by simp [runRewrite, hc, pendingOut, h2],
          Or.inr rfl⟩
      · obtain ⟨r', rfl⟩ : ∃ r', r = r' + 1 := ⟨r - 1, by omega⟩
        exact ⟨OVERWRITE, List.replicate r' OVERWRITE ++ c :: runRewrite post 0,
          by simp [runRewrite, hc, pendingOut, h2, List.replicate_succ], Or.inl rfl⟩

theorem tokenize_splice (X Y : List Char) (needZero : Bool)
    (hcount : X.count DQUOTE = Y.count DQUOTE)
    (hXY : ∀ (r : Nat) (st : WordState), st.inQuotation = false → (needZero = true → r = 0) →
      runCode X r = runCode Y r ∧
      (runRewrite X r).foldl wordStep st = (runRewrite Y r).foldl wordStep st)
    (pre : List Char) (hpre : pre.count DQUOTE % 2 = 0)
    (hz : needZero = true → pre.getLast? ≠ some OVERWRITE) :
    tokenize (pre ++ X) = tokenize (pre ++ Y) := by
  have := splice_after_prefix X Y needZero hXY pre 0 ⟨false, none, []⟩
    (by simp; omega) (fun h => ⟨fun _ => rfl, hz h⟩)
  rw [tokenize_eq, tokenize_eq, this.1, this.2, List.count_append, List.count_append, hcount]

theorem blank_ne_specials (b : Char) (hb : b = ' ' ∨ b = '\t') :
    b ≠ OVERWRITE ∧ b ≠ DQUOTE ∧ b ≠ PIPE := by
  rcases hb with h | h <;> subst h <;> decide

/-- Outside quotation a space or tab directly before or after a `|`, directly before a
run of `>`, or directly after a run of `>` that does not end the line, and
after a single `>` that ends the line, does not change the tokens. -/
theorem operator_spacing (pre post : List Char) (b : Char)
    (hpre : pre.count DQUOTE % 2 = 0) (hb : b = ' ' ∨ b = '\t') :
    tokenize (pre ++ b :: PIPE :: post) = tokenize (pre ++ PIPE :: post) ∧
    tokenize (pre ++ PIPE :: b :: post) = tokenize (pre ++ PIPE :: post) ∧
    (pre.getLast? ≠ some OVERWRITE →
      tokenize (pre ++ b :: OVERWRITE :: post) = tokenize (pre ++ OVERWRITE :: post)) ∧
    (post.head? ≠ some OVERWRITE → (post ≠ [] ∨ pre.getLast? ≠ some OVERWRITE) →
      tokenize (pre ++ OVERWRITE :: b :: post) = tokenize (pre ++ OVERWRITE :: post)) := by
  obtain ⟨hbo, hbq, hbp⟩ := blank_ne_specials b hb
  have hpo : PIPE ≠ OVERWRITE := by decide
  have hcq : ∀ l : List Char, (b :: l).count DQUOTE = l.count DQUOTE :=
    fun l => List.count_cons_of_ne (fun h => hbq h.symm) l
  refine ⟨?_, ?_, ?_, ?_⟩
  · apply tokenize_splice _ _ false _ _ pre hpre (fun h => by cases h)
    · exact hcq _
    · intro r st hq _
      constructor
      · rw [runCode_cons_ne b _ r hbo, runCode_cons_ne PIPE _ 0 hpo,
          runCode_cons_ne PIPE _ r hpo]
        simp
      · rw [foldl_runRewrite_cons_ne b _ r st hbo, foldl_runRewrite_cons_ne PIPE _ 0 _ hpo,
          foldl_runRewrite_cons_ne PIPE _ r st hpo]
        have : pendingOut 0 = [] := rfl
        rw [this, List.foldl_nil, wordStep_blank_op _ PIPE b
          ((pendingOut_inQuotation r st).trans hq) (Or.inl rfl) hb]
  · apply tokenize_splice _ _ false _ _ pre hpre (fun h => by cases h)
    · simp only [List.count_cons_of_ne (show DQUOTE ≠ PIPE by decide), hcq]
    · intro r st hq _
      constructor
      · rw [runCode_cons_ne PIPE _ r hpo, runCode_cons_ne b _ 0 hbo,
          runCode_cons_ne PIPE _ r hpo]
        simp
      · rw [foldl_runRewrite_cons_ne PIPE _ r st hpo, foldl_runRewrite_cons_ne b _ 0 _ hbo,
          foldl_runRewrite_cons_ne PIPE _ r st hpo]
        have : pendingOut 0 = [] := rfl
        rw [this, List.foldl_nil, wordStep_op_blank _ PIPE b
          ((pendingOut_inQuotation r st).trans hq) (Or.inl rfl) hb]
  · intro hlast
    apply tokenize_splice _ _ true _ _ pre hpre (fun _ => hlast)
    · exact hcq _
    · intro r st hq hr
      have hr0 : r = 0 := hr rfl
      subst hr0
      constructor
      · rw [runCode_cons_ne b _ 0 hbo]
        simp
      · rw [foldl_runRewrite_cons_ne b _ 0 st hbo]
        have : pendingOut 0 = [] := rfl
        rw [this, List.foldl_nil]
        obtain ⟨o, Y, h1, h2⟩ := runRewrite_head post 1 (Nat.succ_pos _)
        have h3 : runRewrite (OVERWRITE :: post) 0 = o :: Y := by
          simpa [runRewrite] using h1
        rw [h3, List.foldl_cons, List.foldl_cons,
          wordStep_blank_op st o b hq (Or.inr h2) hb]
  · intro hhead hend
    cases post with
    | nil =>
      have hlast : pre.getLast? ≠ some OVERWRITE := by
        rcases hend with h | h
        · exact absurd rfl h
        · exact h
      apply tokenize_splice _ _ true _ _ pre hpre (fun _ => hlast)
      · simp only [List.count_cons_of_ne (show DQUOTE ≠ OVERWRITE by decide), hcq]
      · intro r st hq hr
        have hr0 : r = 0 := hr rfl
        subst hr0
        constructor
        · simp [runCode, hbo]
        · have h1 : runRewrite [OVERWRITE, b] 0 = [OVERWRITE, b] := by
            simp [runRewrite, hbo, pendingOut]
          have h2 : runRewrite [OVERWRITE] 0 = [OVERWRITE] := by
            simp [runRewrite]
          rw [h1, h2]
          simp only [List.foldl_cons, List.foldl_nil]
          exact wordStep_op_blank st OVERWRITE b hq (Or.inr (Or.inl rfl)) hb
    | cons p post =>
      have hp : p ≠ OVERWRITE := by
        intro h
        apply hhead
        rw [h]
        rfl
      apply tokenize_splice _ _ false _ _ pre hpre (fun h => by cases h)
      · simp only [List.count_cons_of_ne (show DQUOTE ≠ OVERWRITE by decide), hcq]
      · intro r st hq _
        constructor
        · simp only [runCode, if_true, hbo, hp, if_false]
          split <;> simp
        · have e1 : runRewrite (OVERWRITE :: b :: p :: post) r
              = runRewrite (b :: p :: post) (r + 1) := by simp [runRewrite]
          have e2 : runRewrite (OVERWRITE :: p :: post) r
              = runRewrite (p :: post) (r + 1) := by simp [runRewrite]
          rw [e1, e2, foldl_runRewrite_cons_ne b _ (r + 1) st hbo,
            foldl_runRewrite_cons_ne p _ 0 _ hp, foldl_runRewrite_cons_ne p _ (r + 1) st hp]
          have : pendingOut 0 = [] := rfl
          rw [this, List.foldl_nil, foldl_pendingOut (r + 1) st (Nat.succ_pos _) hq,
            wordStep_blank _ b hb rfl]
          simp [wordsOf]

/-- Claim C11 fails on the code for a `>>` that ends the line: `a>>` gives the tokens `a`,
`>`, `>`, while `a>> ` and `a>> b` have the `>>` as one token (the character
`APPEND`), so a space after the operator changes the token sequence (both
lines are then rejected with `NO_OUTPUT_FILE`). Everywhere else the claim
holds: outside quotation a space or tab directly before or after a `|`,
directly before a run of `>`, directly after a run of `>` that does not end
the line, or after a single `>` that ends the line, leaves the result of the
tokenizer unchanged. -/
theorem trailing_append_spacing :
    tokenize "a>>".toList = some ["a".toList, [OVERWRITE], [OVERWRITE]] ∧
    tokenize "a>> ".toList = some ["a".toList, [APPEND]] ∧
    tokenize "a>>b".toList = some ["a".toList, [APPEND], "b".toList] ∧
    tokenize "a >> b".toList = some ["a".toList, [APPEND], "b".toList] ∧
    parseRetval "a>>".toList = some .NO_OUTPUT_FILE ∧
    parseRetval "a>> ".toList = some .NO_OUTPUT_FILE ∧
    tokenize "a|b".toList = some ["a".toList, [PIPE], "b".toList] ∧
    tokenize "a | b".toList = some ["a".toList, [PIPE], "b".toList] ∧
    tokenize "a\t|\tb".toList = some ["a".toList, [PIPE], "b".toList] ∧
    (∀ (pre post : List Char) (b : Char), pre.count DQUOTE % 2 = 0 → (b = ' ' ∨ b = '\t') →
      tokenize (pre ++ b :: PIPE :: post) = tokenize (pre ++ PIPE :: post) ∧
      tokenize (pre ++ PIPE :: b :: post) = tokenize (pre ++ PIPE :: post) ∧
      (pre.getLast? ≠ some OVERWRITE →
        tokenize (pre ++ b :: OVERWRITE :: post) = tokenize (pre ++ OVERWRITE :: post)) ∧
      (post.head? ≠ some OVERWRITE → (post ≠ [] ∨ pre.getLast? ≠ some OVERWRITE) →
        tokenize (pre ++ OVERWRITE :: b :: post) = tokenize (pre ++ OVERWRITE :: post))) :=
  ⟨by decide, by decide, by decide, by decide, by decide, by decide, by decide, by decide,
   by decide, operator_spacing⟩

/-! ## The token array, the error phases and the parameter list -/

theorem parseArgsLoop_length_ge (cmd : List Char) (rest : List Char) :
    ∀ (right left : Nat) (inQ curArg : Bool) (res : List Token),
      res.length ≤ (parseArgsLoop cmd rest right left inQ curArg res).length := by
  induction rest with
  | nil =>
    intro right left inQ curArg res
    unfold parseArgsLoop
    split <;> simp
  | cons c rest ih =>
    intro right left inQ curArg res
    unfold parseArgsLoop
    split
    · exact ih _ _ _ _ _
    · split
      · split
        · exact ih _ _ _ _ _
        · split
          · exact le_trans (by simp) (ih _ _ _ _ _)
          · exact ih _ _ _ _ _
      · split
        · refine le_trans ?_ (ih _ _ _ _ _)
          simp only [List.length_append]
          split
          · simp; omega
          · simp
        · split
          · exact ih _ _ _ _ _
          · exact ih _ _ _ _ _

theorem storeSlot_fill (done : List Token) (arr : List ArgSlot) (t : Token)
    (h : done.length ≤ arr.length) :
    storeSlot (done.map ArgSlot.str ++ arr.drop done.length) done.length (.str t)
      = if done.length < arr.length then
          some ((done ++ [t]).map ArgSlot.str ++ arr.drop (done ++ [t]).length)
        else none := by
  unfold storeSlot
  have hlen : (done.map ArgSlot.str ++ arr.drop done.length).length = arr.length := by
    simp only [List.length_append, List.length_map, List.length_drop]
    omega
  rw [hlen]
  by_cases hlt : done.length < arr.length
  · rw [if_pos hlt, if_pos hlt]
    congr 1
    have hd : arr.drop done.length = arr[done.length] :: arr.drop (done.length + 1) :=
      List.drop_eq_getElem_cons hlt
    rw [hd]
    have : (done.map ArgSlot.str).length = done.length := by simp
    rw [List.set_append_right _ _ (by rw [this])]
    simp only [this, Nat.sub_self, List.set_cons_zero, List.map_append, List.length_append,
      List.append_assoc, List.map_cons, List.map_nil, List.length_singleton,
      List.singleton_append]
  · rw [if_neg hlt, if_neg hlt]

theorem fillSlots_none (arr : List ArgSlot) (toks : List Token) (h : arr.length < toks.length) :
    fillSlots arr toks = none := by
  unfold fillSlots
  rw [if_neg (by omega)]

theorem parseArgsArrayLoop_eq (cmd : List Char) (arr : List ArgSlot) (rest : List Char) :
    ∀ (right left : Nat) (inQ curArg : Bool) (done : List Token),
      done.length ≤ arr.length →
      parseArgsArrayLoop cmd rest right left done.length inQ curArg
          (done.map ArgSlot.str ++ arr.drop done.length)
        = fillSlots arr (parseArgsLoop cmd rest right left inQ curArg done) := by
  induction rest with
  | nil =>
    intro right left inQ curArg done hle
    unfold parseArgsArrayLoop parseArgsLoop
    cases curArg
    · simp [fillSlots, hle]
    · simp only [if_true]
      rw [storeSlot_fill done arr _ hle]
      unfold fillSlots
      by_cases hlt : done.length < arr.length
      · rw [if_pos hlt, if_pos (by simp; omega)]
      · rw [if_neg hlt, if_neg (by simp; omega)]
  | cons c rest ih =>
    intro right left inQ curArg done hle
    have hstep : ∀ (t : Token) (right left : Nat) (inQ curArg : Bool),
        (match storeSlot (done.map ArgSlot.str ++ arr.drop done.length) done.length (.str t) with
          | none => none
          | some res =>
            parseArgsArrayLoop cmd rest right left (done.length + 1) inQ curArg res)
          = fillSlots arr (parseArgsLoop cmd rest right left inQ curArg (done ++ [t])) := by
      intro t right left inQ curArg
      rw [storeSlot_fill done arr t hle]
      by_cases hlt : done.length < arr.length
      · rw [if_pos hlt]
        simp only
        have := ih right left inQ curArg (done ++ [t]) (by simp; omega)
        simp only [List.length_append, List.length_singleton] at this
        simp only [List.length_append, List.length_singleton]
        exact this
      · rw [if_neg hlt]
        simp only
        rw [fillSlots_none]
        have := parseArgsLoop_length_ge cmd rest right left inQ curArg (done ++ [t])
        simp only [List.length_append, List.length_singleton] at this
        omega
    unfold parseArgsArrayLoop parseArgsLoop
    split
    · exact ih _ _ _ _ _ hle
    · split
      · split
        · exact ih _ _ _ _ _ hle
        · split
          · exact hstep _ _ _ _ _
          · exact ih _ _ _ _ _ hle
      · split
        · cases curArg
          · simp only [Bool.false_eq_true, if_false]
            exact hstep _ _ _ _ _
          · simp only [if_true]
            rw [storeSlot_fill done arr _ hle]
            by_cases hlt : done.length < arr.length
            · rw [if_pos hlt]
              simp only
              have hle2 : (done ++ [getSubstring cmd left right]).length ≤ arr.length := by
                simp; omega
              have h2 := storeSlot_fill (done ++ [getSubstring cmd left right]) arr
                (getSubstring cmd right (right + 1)) hle2
              simp only [List.length_append, List.length_singleton] at h2
              simp only [List.length_append, List.length_singleton]
              rw [h2]
              by_cases hlt2 : done.length + 1 < arr.length
              · rw [if_pos hlt2]
                simp only
                have := ih (right + 1) left inQ false
                  (done ++ [getSubstring cmd left right]
                    ++ [getSubstring cmd right (right + 1)]) (by simp; omega)
                simp only [List.length_append, List.length_singleton] at this
                exact this
              · rw [if_neg hlt2]
                simp only
                rw [fillSlots_none]
                have := parseArgsLoop_length_ge cmd rest (right + 1) left inQ false
                  (done ++ [getSubstring cmd left right]
                    ++ [getSubstring cmd right (right + 1)])
                simp only [List.length_append, List.length_singleton] at this
                omega
            · rw [if_neg hlt]
              simp only
              rw [fillSlots_none]
              have := parseArgsLoop_length_ge cmd rest (right + 1) left inQ false
                (done ++ [getSubstring cmd left right]
                  ++ [getSubstring cmd right (right + 1)])
              simp only [List.length_append, List.length_singleton] at this
              omega
        · split
          · exact ih _ _ _ _ _ hle
          · exact ih _ _ _ _ _ hle

theorem parseArgsArray_eq (cmd : List Char) (numArgs : Nat) (n : Int) :
    parseArgsArray cmd numArgs
      = fillSlots (List.replicate numArgs ArgSlot.unwritten ++ [ArgSlot.null])
          (parseArgs cmd n) := by
  have := parseArgsArrayLoop_eq cmd (List.replicate numArgs ArgSlot.unwritten ++ [ArgSlot.null])
    (cmd.drop (skipLeadingBlanks cmd 0)) (skipLeadingBlanks cmd 0) (skipLeadingBlanks cmd 0)
    false false [] (by simp)
  simpa [parseArgsArray, parseArgs] using this

/-- Claim C21: for every buffer on which `countArgs` does not return the sentinel `-1`
(balanced quotes), `parseArgs` stores exactly `countArgs` tokens: called
with that count, it fills the entries `0 .. countArgs - 1` of the array it
allocates with the tokens in the order it finds them, no store falls outside
the allocation, no entry is left unwritten and the `NULL` terminator at index
`countArgs` is kept. -/
theorem parseArgs_fills_array (cmd : List Char) (h : countArgs cmd ≠ -1) :
    countArgs cmd = ((parseArgs cmd (countArgs cmd)).length : Nat) ∧
    parseArgsArray cmd (countArgs cmd).toNat
      = some ((parseArgs cmd (countArgs cmd)).map ArgSlot.str ++ [ArgSlot.null]) ∧
    ∀ i : Nat, i < (countArgs cmd).toNat →
      ∃ t, (parseArgs cmd (countArgs cmd))[i]? = some t ∧
        (parseArgsArray cmd (countArgs cmd).toNat).bind (fun res => res[i]?)
          = some (ArgSlot.str t) := by
  have hlen := countArgs_eq_length cmd (countArgs cmd) h
  have harr : parseArgsArray cmd (countArgs cmd).toNat
      = some ((parseArgs cmd (countArgs cmd)).map ArgSlot.str ++ [ArgSlot.null]) := by
    rw [parseArgsArray_eq cmd _ (countArgs cmd)]
    have hn : (countArgs cmd).toNat = (parseArgs cmd (countArgs cmd)).length := by
      omega
    unfold fillSlots
    rw [if_pos (by simp [hn]), hn]
    simp
  refine ⟨hlen, harr, ?_⟩
  intro i hi
  have hi' : i < (parseArgs cmd (countArgs cmd)).length := by
    omega
  refine ⟨(parseArgs cmd (countArgs cmd))[i], List.getElem?_eq_getElem hi', ?_⟩
  rw [harr]
  simp [List.getElem?_append_left, hi']

/-- The rule of C21 at the buffer `ls -l|wc`, which holds four tokens. -/
theorem parseArgs_fills_array_witness :
    countArgs "ls -l|wc".toList = 4 ∧
    parseArgsArray "ls -l|wc".toList 4
      = some [.str "ls".toList, .str "-l".toList, .str "|".toList, .str "wc".toList, .null] :=
  ⟨by decide,
   (parseArgs_fills_array "ls -l|wc".toList (by decide)).2.1.trans (by decide)⟩

theorem wordsOf_eq_nil (st : WordState) : wordsOf st = [] ↔ st.cur = none ∧ st.res = [] := by
  unfold wordsOf
  cases st.cur <;> simp

theorem wordStep_wordsOf_nil (st : WordState) (c : Char) :
    wordsOf (wordStep st c) = [] ↔
      wordsOf st = [] ∧ (c = ' ' ∨ c = '\t' ∨ c = DQUOTE) := by
  rw [wordsOf_eq_nil, wordsOf_eq_nil]
  obtain ⟨q, cur, res⟩ := st
  by_cases hq : c = DQUOTE
  · subst hq
    cases cur <;> simp [wordStep]
  · by_cases hb : c = ' ' ∨ c = '\t'
    · cases q <;> cases cur <;> simp [wordStep, hq, hb]
    · have hb' : ¬ (c = ' ' ∨ c = '\t' ∨ c = DQUOTE) := by
        intro h
        rcases h with h | h | h
        · exact hb (Or.inl h)
        · exact hb (Or.inr h)
        · exact hq h
      by_cases ho : c = PIPE ∨ c = OVERWRITE ∨ c = APPEND
      · cases cur <;> simp [wordStep, hq, hb, ho, hb']
      · cases cur <;> simp [wordStep, hq, hb, ho, hb']

theorem foldl_wordsOf_nil (l : List Char) :
    ∀ st : WordState, wordsOf (l.foldl wordStep st) = [] ↔
      wordsOf st = [] ∧ ∀ c ∈ l, c = ' ' ∨ c = '\t' ∨ c = DQUOTE := by
  induction l with
  | nil => intro st; simp
  | cons c l ih =>
    intro st
    rw [List.foldl_cons, ih, wordStep_wordsOf_nil]
    simp only [List.mem_cons, forall_eq_or_imp]
    tauto

theorem countArgs_zero_iff (cmd : List Char) (h : countArgs cmd ≠ -1) :
    countArgs cmd = 0 ↔ ∀ c ∈ cmd, c = ' ' ∨ c = '\t' ∨ c = DQUOTE := by
  have hlen := countArgs_eq_length cmd 0 h
  have hw := foldl_wordsOf_nil cmd ⟨false, none, []⟩
  rw [← parseArgs_eq_foldl cmd 0] at hw
  constructor
  · intro h0
    rw [h0] at hlen
    have : parseArgs cmd 0 = [] := List.length_eq_zero.1 (by omega)
    exact (hw.1 this).2
  · intro hall
    have : parseArgs cmd 0 = [] := hw.2 ⟨rfl, hall⟩
    rw [hlen, this]
    rfl

theorem pendingOut_blank_iff (r : Nat) :
    (∀ c ∈ pendingOut r, c = ' ' ∨ c = '\t' ∨ c = DQUOTE) ↔ r = 0 := by
  constructor
  · intro h
    by_contra hr
    unfold pendingOut at h
    by_cases h2 : r = 2
    · rw [if_pos h2] at h
      have := h APPEND (by simp)
      exact absurd this (by decide)
    · rw [if_neg h2] at h
      obtain ⟨r', rfl⟩ : ∃ r', r = r' + 1 := ⟨r - 1, by omega⟩
      have := h OVERWRITE (by simp [List.replicate_succ])
      exact absurd this (by decide)
  · intro h
    subst h
    intro c hc
    cases hc

theorem runRewrite_blank_iff (s : List Char) :
    ∀ r : Nat, (∀ c ∈ runRewrite s r, c = ' ' ∨ c = '\t' ∨ c = DQUOTE) ↔
      (r = 0 ∧ ∀ c ∈ s, c = ' ' ∨ c = '\t' ∨ c = DQUOTE) := by
  induction s with
  | nil =>
    intro r
    constructor
    · intro h
      refine ⟨?_, fun c hc => by cases hc⟩
      by_contra hr
      obtain ⟨r', rfl⟩ : ∃ r', r = r' + 1 := ⟨r - 1, by omega⟩
      have := h OVERWRITE (by simp [runRewrite, List.replicate_succ])
      exact absurd this (by decide)
    · rintro ⟨rfl, _⟩ c hc
      simp [runRewrite] at hc
  | cons x s ih =>
    intro r
    by_cases hx : x = OVERWRITE
    · subst hx
      have e : runRewrite (OVERWRITE :: s) r = runRewrite s (r + 1) := by simp [runRewrite]
      rw [e, ih]
      constructor
      · rintro ⟨h, _⟩
        omega
      · rintro ⟨_, h⟩
        have := h OVERWRITE (List.mem_cons_self _ _)
        exact absurd this (by decide)
    · have e : runRewrite (x :: s) r = pendingOut r ++ x :: runRewrite s 0 := by
        simp [runRewrite, hx]
      rw [e]
      simp only [List.mem_append, List.mem_cons, forall_eq_or_imp, or_imp, forall_and]
      rw [pendingOut_blank_iff, ih]
      tauto

theorem runCode_noOverwrite (s : List Char) (h : ∀ c ∈ s, c ≠ OVERWRITE) :
    runCode s 0 = .NO_ERRORS := by
  induction s with
  | nil => rfl
  | cons x s ih =>
    rw [runCode_cons_ne x s 0 (h x (List.mem_cons_self _ _))]
    simpa using ih (fun c hc => h c (List.mem_cons_of_mem _ hc))

theorem zero_tokens_iff (line : List Char) (hpa : (parseAppends line).1 = .NO_ERRORS)
    (hq : countArgs (parseAppends line).2 ≠ -1) :
    countArgs (parseAppends line).2 = 0 ↔ ∀ c ∈ line, c = ' ' ∨ c = '\t' ∨ c = DQUOTE := by
  rw [parseAppends_code] at hpa
  rw [parseAppends_eq line hpa] at hq ⊢
  simp only at hq ⊢
  rw [countArgs_zero_iff _ hq, runRewrite_blank_iff]
  simp

theorem quotes_and_blanks_crash (line : List Char)
    (hall : ∀ c ∈ line, c = ' ' ∨ c = '\t' ∨ c = DQUOTE)
    (heven : line.count DQUOTE % 2 = 0) :
    getParametersAndRedirects line = none := by
  have hno : ∀ c ∈ line, c ≠ OVERWRITE := by
    intro c hc h
    have := hall c hc
    rw [h] at this
    exact absurd this (by decide)
  have hcode := runCode_noOverwrite line hno
  have hpa : (parseAppends line).1 = .NO_ERRORS := by rw [parseAppends_code]; exact hcode
  have hne : countArgs (parseAppends line).2 ≠ -1 := by
    rw [Ne, countArgs_sentinel_iff, parseAppends_count]
    omega
  have h0 := (zero_tokens_iff line hpa hne).2 hall
  have hlen := countArgs_eq_length (parseAppends line).2 0 hne
  have hnil : parseArgs (parseAppends line).2 0 = [] := by
    rw [h0] at hlen
    exact List.length_eq_zero.1 (by omega)
  unfold getParametersAndRedirects
  rcases hres : parseAppends line with ⟨code, buf⟩
  rw [hres] at hpa h0 hnil
  simp only at hpa h0 hnil
  subst hpa
  simp only [ne_eq, not_true_eq_false, if_false, h0, hnil]
  rfl

/-- Claim C22 fails on the code for the line `""`: it is not whitespace-only, its quotes
are balanced and `parseAppends` accepts it, but `countArgs` returns 0, so
`checkValidArgs` reads the `NULL` terminator as `argArray[0]` and the shell
crashes. The lines for which the count is 0 are exactly those made of
spaces, tabs and double quotes only; every such line with balanced quotes and
at least one quote is not skipped by `main` and crashes. -/
theorem quotes_only_line_no_token :
    isEmptyCommand "\"\"".toList = 0 ∧
    (parseAppends "\"\"".toList).1 = .NO_ERRORS ∧
    countArgs (parseAppends "\"\"".toList).2 = 0 ∧
    parseArgsArray (parseAppends "\"\"".toList).2 0 = some [.null] ∧
    checkValidArgs [] 0 = none ∧
    getParametersAndRedirects "\"\"".toList = none ∧
    mainDispatch "\"\"".toList = .crash ∧
    mainDispatch " \" \" ".toList = .crash ∧
    (∀ line : List Char, (parseAppends line).1 = .NO_ERRORS →
      countArgs (parseAppends line).2 ≠ -1 →
      (countArgs (parseAppends line).2 = 0 ↔
        ∀ c ∈ line, c = ' ' ∨ c = '\t' ∨ c = DQUOTE)) ∧
    (∀ line : List Char, (∀ c ∈ line, c = ' ' ∨ c = '\t' ∨ c = DQUOTE) → DQUOTE ∈ line →
      line.count DQUOTE % 2 = 0 →
      isEmptyCommand line = 0 ∧ mainDispatch line = .crash) := by
  refine ⟨by decide, by decide, by decide, by decide, by decide, by decide, by decide,
    by decide, zero_tokens_iff, ?_⟩
  intro line hall hq heven
  have h0 : isEmptyCommand line = 0 := by
    rcases isEmptyCommand_cases line with h | h
    · exact h
    · have := (isEmptyCommand_iff line).1 h DQUOTE hq
      exact absurd this (by decide)
  refine ⟨h0, ?_⟩
  unfold mainDispatch
  rw [h0, quotes_and_blanks_crash line hall heven]
  simp

theorem runCode_cases (s : List Char) :
    ∀ r : Nat, runCode s r = .NO_ERRORS ∨ runCode s r = .MISPLACED_REDIRECT := by
  induction s with
  | nil => intro r; left; rfl
  | cons c s ih =>
    intro r
    unfold runCode
    split
    · exact ih _
    · split
      · right; rfl
      · exact ih _

theorem parseRetval_eq (cmd : List Char) :
    parseRetval cmd =
      if (parseAppends cmd).1 ≠ .NO_ERRORS then some (parseAppends cmd).1
      else if countArgs (parseAppends cmd).2 = -1 then some .MISSING_COMMAND
      else checkValidArgs (parseArgs (parseAppends cmd).2 (countArgs (parseAppends cmd).2))
        (countArgs (parseAppends cmd).2) := by
  unfold parseRetval getParametersAndRedirects
  rcases parseAppends cmd with ⟨code, buf⟩
  simp only
  split
  · rfl
  · split
    · rfl
    · cases hchk : checkValidArgs (parseArgs buf (countArgs buf)) (countArgs buf) with
      | none => rfl
      | some r =>
        simp only
        split <;> simp_all

theorem tokenize_some (cmd : List Char) (hpa : (parseAppends cmd).1 = .NO_ERRORS)
    (heven : cmd.count DQUOTE % 2 = 0) :
    countArgs (parseAppends cmd).2 ≠ -1 ∧
    tokenize cmd = some (parseArgs (parseAppends cmd).2 (countArgs (parseAppends cmd).2)) := by
  have hne : countArgs (parseAppends cmd).2 ≠ -1 := by
    rw [Ne, countArgs_sentinel_iff, parseAppends_count]
    omega
  refine ⟨hne, ?_⟩
  unfold tokenize
  rcases hres : parseAppends cmd with ⟨code, buf⟩
  rw [hres] at hpa hne
  simp only at hpa hne
  simp [hpa, hne]

theorem error_phases (cmd : List Char) :
    ((parseAppends cmd).1 = .NO_ERRORS ∨ (parseAppends cmd).1 = .MISPLACED_REDIRECT) ∧
    ((parseAppends cmd).1 ≠ .NO_ERRORS → parseRetval cmd = some .MISPLACED_REDIRECT) ∧
    ((parseAppends cmd).1 = .NO_ERRORS → cmd.count DQUOTE % 2 = 1 →
      parseRetval cmd = some .MISSING_COMMAND) ∧
    ((parseAppends cmd).1 = .NO_ERRORS → cmd.count DQUOTE % 2 = 0 →
      ∃ toks, tokenize cmd = some toks ∧
        parseRetval cmd = checkValidArgs toks (toks.length : Nat)) ∧
    (parseRetval cmd = some .NO_ERRORS ↔
      (parseAppends cmd).1 = .NO_ERRORS ∧ cmd.count DQUOTE % 2 = 0 ∧
      ∃ toks, tokenize cmd = some toks ∧
        checkValidArgs toks (toks.length : Nat) = some .NO_ERRORS) := by
  have hcases : (parseAppends cmd).1 = .NO_ERRORS ∨ (parseAppends cmd).1 = .MISPLACED_REDIRECT := by
    rw [parseAppends_code]
    exact runCode_cases cmd 0
  have hmis : (parseAppends cmd).1 ≠ .NO_ERRORS → parseRetval cmd = some .MISPLACED_REDIRECT := by
    intro h
    rw [parseRetval_eq, if_pos h]
    rcases hcases with h' | h'
    · exact absurd h' h
    · rw [h']
  have hodd : (parseAppends cmd).1 = .NO_ERRORS → cmd.count DQUOTE % 2 = 1 →
      parseRetval cmd = some .MISSING_COMMAND := by
    intro h hq
    rw [parseRetval_eq, if_neg (by simp [h]),
      if_pos ((countArgs_sentinel_iff _).2 (by rw [parseAppends_count]; exact hq))]
  have heven : (parseAppends cmd).1 = .NO_ERRORS → cmd.count DQUOTE % 2 = 0 →
      ∃ toks, tokenize cmd = some toks ∧
        parseRetval cmd = checkValidArgs toks (toks.length : Nat) := by
    intro h hq
    obtain ⟨hne, htok⟩ := tokenize_some cmd h hq
    refine ⟨_, htok, ?_⟩
    rw [parseRetval_eq, if_neg (by simp [h]), if_neg hne]
    congr 1
    exact countArgs_eq_length _ _ hne
  refine ⟨hcases, hmis, hodd, heven, ?_⟩
  constructor
  · intro hret
    have hpa : (parseAppends cmd).1 = .NO_ERRORS := by
      by_contra h
      rw [hmis h] at hret
      cases hret
    have hq : cmd.count DQUOTE % 2 = 0 := by
      by_contra h
      rw [hodd hpa (by omega)] at hret
      cases hret
    obtain ⟨toks, htok, hchk⟩ := heven hpa hq
    exact ⟨hpa, hq, toks, htok, by rw [← hchk]; exact hret⟩
  · rintro ⟨hpa, hq, toks, htok, hchk⟩
    obtain ⟨toks', htok', hchk'⟩ := heven hpa hq
    rw [htok] at htok'
    cases htok'
    rw [hchk', hchk]

/-- Claim C23: `getParametersAndRedirects` reports errors in phase order. An error of
`parseAppends` (it can only be `MISPLACED_REDIRECT`) is returned whatever the
quotes and the tokens are; otherwise an odd number of double quotes gives
`MISSING_COMMAND` whatever the tokens are; otherwise the result is that of
`checkValidArgs` on the tokens. The result is `NO_ERRORS` if and only if
`parseAppends` succeeds, the quotes are balanced and `checkValidArgs`
accepts the tokens. The line `">>>a` gives `MISPLACED_REDIRECT`, and an
unterminated quote after seventeen words or after `ls >` gives
`MISSING_COMMAND`. -/
theorem error_phase_order :
    (∀ cmd : List Char,
      ((parseAppends cmd).1 = .NO_ERRORS ∨ (parseAppends cmd).1 = .MISPLACED_REDIRECT) ∧
      ((parseAppends cmd).1 ≠ .NO_ERRORS → parseRetval cmd = some .MISPLACED_REDIRECT) ∧
      ((parseAppends cmd).1 = .NO_ERRORS → cmd.count DQUOTE % 2 = 1 →
        parseRetval cmd = some .MISSING_COMMAND) ∧
      ((parseAppends cmd).1 = .NO_ERRORS → cmd.count DQUOTE % 2 = 0 →
        ∃ toks, tokenize cmd = some toks ∧
          parseRetval cmd = checkValidArgs toks (toks.length : Nat)) ∧
      (parseRetval cmd = some .NO_ERRORS ↔
        (parseAppends cmd).1 = .NO_ERRORS ∧ cmd.count DQUOTE % 2 = 0 ∧
        ∃ toks, tokenize cmd = some toks ∧
          checkValidArgs toks (toks.length : Nat) = some .NO_ERRORS)) ∧
    parseRetval "\">>>a".toList = some .MISPLACED_REDIRECT ∧
    parseRetval "a a a a a a a a a a a a a a a a a \"".toList = some .MISSING_COMMAND ∧
    parseRetval "a a a a a a a a a a a a a a a a a".toList = some .TOO_MANY_ARGUMENTS ∧
    parseRetval "ls > \"".toList = some .MISSING_COMMAND ∧
    parseRetval "ls >".toList = some .NO_OUTPUT_FILE :=
  ⟨error_phases, by decide, by decide, by decide, by decide, by decide⟩

/-- The rules of C23 at the lines `a>>>b "`, `ls | "` and `ls | wc`. -/
theorem error_phase_order_witness :
    (parseAppends "a>>>b \"".toList).1 ≠ .NO_ERRORS ∧
    parseRetval "a>>>b \"".toList = some .MISPLACED_REDIRECT ∧
    (parseAppends "ls | \"".toList).1 = .NO_ERRORS ∧
    "ls | \"".toList.count DQUOTE % 2 = 1 ∧
    parseRetval "ls | \"".toList = some .MISSING_COMMAND ∧
    parseRetval "ls | wc".toList = some .NO_ERRORS :=
  ⟨by decide,
   (error_phase_order.1 "a>>>b \"".toList).2.1 (by decide),
   by decide, by decide,
   (error_phase_order.1 "ls | \"".toList).2.2.1 (by decide) (by decide),
   (error_phase_order.1 "ls | wc".toList).2.2.2.2.2
     ⟨by decide, by decide, ["ls".toList, "|".toList, "wc".toList], by decide, by decide⟩⟩

theorem splitArgs_ne_nil (rest : List Token) : ∀ cur, (splitArgs rest cur).1 ≠ [] := by
  induction rest with
  | nil => intro cur; simp [splitArgs]
  | cons a rest ih =>
    intro cur
    unfold splitArgs
    split
    · simp
    · exact ih _

theorem weaveArgs_splitArgs (rest : List Token) :
    ∀ cur, weaveArgs (splitArgs rest cur).1 (splitArgs rest cur).2 = cur ++ rest := by
  induction rest with
  | nil => intro cur; simp [splitArgs, weaveArgs]
  | cons a rest ih =>
    intro cur
    by_cases ha : isRedirect a = true
    · obtain ⟨s, segs, hs⟩ := List.exists_cons_of_ne_nil (splitArgs_ne_nil rest [])
      have hih := ih []
      obtain ⟨c, hc⟩ : ∃ c, a = [c] := by
        rcases isRedirect_cases a ha with h | h | h <;> exact ⟨_, h⟩
      subst hc
      have hstep : ∀ (R : List Char),
          weaveArgs (cur :: s :: segs) (c :: R) = cur ++ [c] :: weaveArgs (s :: segs) R := by
        intro R
        rfl
      rw [hs] at hih
      simp only [splitArgs, if_pos ha, hs, List.take_succ_cons, List.take_zero,
        List.singleton_append]
      rw [hstep, hih]
      simp
    · simp only [splitArgs, if_neg ha]
      rw [ih]
      simp

theorem argsToParameterList_weave (toks : List Token) :
    weaveArgs ((argsToParameterList toks (countParameters toks)).1.map (fun p => p.arguments))
      (argsToParameterList toks (countParameters toks)).2 = toks ∧
    (((argsToParameterList toks (countParameters toks)).1.length : Nat) : Int)
      = countParameters toks ∧
    (argsToParameterList toks (countParameters toks)).2.length + 1
      = (argsToParameterList toks (countParameters toks)).1.length ∧
    (∀ c ∈ (argsToParameterList toks (countParameters toks)).2,
      c = OVERWRITE ∨ c = APPEND ∨ c = PIPE) := by
  rw [argsToParameterList_eq]
  simp only [List.map_map, List.length_map]
  have hid : (fun p : Parameter => p.arguments) ∘ mkParam = id := by
    funext x; rfl
  refine ⟨?_, ?_, ?_, ?_⟩
  · rw [hid, List.map_id, weaveArgs_splitArgs]
    rfl
  · rw [splitArgs_segments_length]
    unfold countParameters
    simp
  · rw [splitArgs_redirects_length, splitArgs_segments_length]
  · intro c hc
    have hgen : ∀ (rest cur : List Token), ∀ c ∈ (splitArgs rest cur).2,
        c = OVERWRITE ∨ c = APPEND ∨ c = PIPE := by
      intro rest
      induction rest with
      | nil => intro cur c hc; simp [splitArgs] at hc
      | cons a rest ih =>
        intro cur c hc
        by_cases ha : isRedirect a = true
        · simp only [splitArgs, if_pos ha, List.mem_append] at hc
          rcases hc with hc | hc
          · rcases isRedirect_cases a ha with h | h | h <;> rw [h] at hc <;>
              simp at hc <;> simp [hc]
          · exact ih [] c hc
        · simp only [splitArgs, if_neg ha] at hc
          exact ih _ c hc
    exact hgen toks [] c hc

/-- Claim C24: `argsToParameterList` loses and reorders nothing. For every token sequence
(accepted by `checkValidArgs` or not), writing out the argument list of
Parameter 0, then `redirects[0]`, then the argument list of Parameter 1, and
so on up to the last Parameter reproduces exactly the token sequence; the
number of Parameters is the count of `countParameters`, and the string of
redirect characters has that length minus one. The tokens of
`ls | wc -l > out` give the Parameters `ls`; `wc -l`; `out` and the redirect
string `|>`. -/
theorem parameter_list_lossless :
    (∀ toks : List Token,
      weaveArgs ((argsToParameterList toks (countParameters toks)).1.map (fun p => p.arguments))
        (argsToParameterList toks (countParameters toks)).2 = toks ∧
      (((argsToParameterList toks (countParameters toks)).1.length : Nat) : Int)
        = countParameters toks ∧
      (argsToParameterList toks (countParameters toks)).2.length + 1
        = (argsToParameterList toks (countParameters toks)).1.length ∧
      (∀ c ∈ (argsToParameterList toks (countParameters toks)).2,
        c = OVERWRITE ∨ c = APPEND ∨ c = PIPE)) ∧
    argsToParameterList
        ["ls".toList, "|".toList, "wc".toList, "-l".toList, ">".toList, "out".toList] 3
      = ([mkParam ["ls".toList], mkParam ["wc".toList, "-l".toList], mkParam ["out".toList]],
         "|>".toList) :=
  ⟨argsToParameterList_weave, by decide⟩

/-- The rule of C24 at the tokens of `cat f | sort >> out`, where the Append marker is
the token of the `>>`. -/
theorem parameter_list_lossless_witness :
    weaveArgs
      ((argsToParameterList
          ["cat".toList, "f".toList, [PIPE], "sort".toList, [APPEND], "out".toList]
          (countParameters
            ["cat".toList, "f".toList, [PIPE], "sort".toList, [APPEND], "out".toList])).1.map
        (fun p => p.arguments))
      (argsToParameterList
          ["cat".toList, "f".toList, [PIPE], "sort".toList, [APPEND], "out".toList]
          (countParameters
            ["cat".toList, "f".toList, [PIPE], "sort".toList, [APPEND], "out".toList])).2
      = ["cat".toList, "f".toList, [PIPE], "sort".toList, [APPEND], "out".toList] :=
  (parameter_list_lossless.1
    ["cat".toList, "f".toList, [PIPE], "sort".toList, [APPEND], "out".toList]).1

end Sshell
